import Mathlib

/-!
The zycore signal/slot core: a shallow embedding.

Embedding of `include/zycore/Signal.hpp` and `src/SignalObject.cpp`.

* `std::map<SlotHandle, ConnectionBase*>` is a key-sorted association list without
  duplicate keys; iteration order is list order.
* `size_t` is a natural number below `2 ^ 64`; `m_IdCtr++` wraps around.
* Pointers to signals, objects, closures and member functions are identities (`Nat`).
* Behaviour the C++ standard leaves undefined (erasing `end()`, calling through a
  pointer to a destroyed signal or object) is an explicit `Fault`.
-/

namespace zycore

/-! ## Data model -/

/-- Handle type, `using SlotHandle = size_t;`. -/
abbrev SlotHandle := Nat

/-- Largest value of a 64 bit `size_t`. -/
def SIZE_MAX : Nat := 2 ^ 64 - 1

/-- Value of a `size_t` after `++`, with unsigned wrap-around. -/
def incr (c : SlotHandle) : SlotHandle := (c + 1) % (SIZE_MAX + 1)

/-- Identity (address) of a `Signal`. -/
abbrev SigId := Nat

/-- Identity (address) of a `SignalObject`. -/
abbrev ObjId := Nat

/-- Identity of a closure, `FuncConnection::Function`. -/
abbrev FuncId := Nat

/-- Identity of a member function pointer, `void(Object::*)(ArgsT...)`. -/
abbrev MemberId := Nat

/-- The two classes derived from `ConnectionBase`, with their data members. -/
inductive Connection where
  | FuncConnection (m_func : FuncId)
  | ClassFuncConnection (m_obj : ObjId) (m_member : MemberId)
  deriving DecidableEq, Repr

/-- One slot invocation as seen from outside: which callable ran, with which arguments. -/
inductive Invocation (Args : Type) where
  | func (m_func : FuncId) (args : Args)
  | member (m_obj : ObjId) (m_member : MemberId) (args : Args)
  deriving DecidableEq, Repr

/-- The virtual `call`: `m_func(args...)` for a `FuncConnection`,
`(m_obj->*m_member)(args...)` for a `ClassFuncConnection`. -/
def Connection.call {Args : Type} (c : Connection) (args : Args) : Invocation Args :=
  match c with
  | .FuncConnection m_func => .func m_func args
  | .ClassFuncConnection m_obj m_member => .member m_obj m_member args

/-- Object a connection is bound to, if it is a member-slot connection. -/
def Connection.boundTo (c : Connection) : Option ObjId :=
  match c with
  | .FuncConnection _ => none
  | .ClassFuncConnection m_obj _ => some m_obj

/-- Object an invocation ran on, if it was a member-slot invocation. -/
def Invocation.target {Args : Type} (i : Invocation Args) : Option ObjId :=
  match i with
  | .func _ _ => none
  | .member m_obj _ _ => some m_obj

/-- Contents of a `std::map<SlotHandle, ConnectionBase*>` in iteration order. -/
abbrev SlotMap := List (SlotHandle × Connection)

/-- The call `std::map::emplace(k, v)`: insert at the sorted position, and do nothing when
the key is already present. -/
def SlotMap.emplace (k : SlotHandle) (v : Connection) : SlotMap → SlotMap
  | [] => [(k, v)]
  | (k0, v0) :: rest =>
    if k < k0 then (k, v) :: (k0, v0) :: rest
    else if k = k0 then (k0, v0) :: rest
    else (k0, v0) :: SlotMap.emplace k v rest

/-- Lookup of a key, `std::map::find`. -/
def SlotMap.find (k : SlotHandle) : SlotMap → Option Connection
  | [] => none
  | (k0, v0) :: rest => if k0 = k then some v0 else SlotMap.find k rest

/-- Keys of the table in iteration order. -/
def SlotMap.keys (m : SlotMap) : List SlotHandle := m.map Prod.fst

/-- Data members of `Signal<ArgsT...>` (the mutex is not part of the sequential model). -/
structure Signal where
  m_slots : SlotMap
  m_IdCtr : SlotHandle
  deriving DecidableEq, Repr

/-! ## Signal members -/

/-- Constructor `Signal::Signal() : m_IdCtr(1)`. -/
def Signal.new : Signal := { m_slots := [], m_IdCtr := 1 }

/-- Statement `m_slots.emplace(m_IdCtr++, connection)` shared by all `connect` overloads. -/
def Signal.emplaceNext (s : Signal) (connection : Connection) : Signal :=
  { m_slots := SlotMap.emplace s.m_IdCtr connection s.m_slots, m_IdCtr := incr s.m_IdCtr }

/-- Overload `connect(FuncConnection<ArgsT...>* connection)`; the argument is the closure
held by the connection passed in. -/
def Signal.connect_FuncConnection (s : Signal) (connection : FuncId) : Signal :=
  s.emplaceNext (.FuncConnection connection)

/-- Overload `connect(Function func)`: `new FuncConnection(func)`, then emplace. -/
def Signal.connect (s : Signal) (func : FuncId) : Signal :=
  let connection := Connection.FuncConnection func
  s.emplaceNext connection

/-- Overload `connect(ClassFuncConnection<Object, ArgsT...>* connection)`. -/
def Signal.connect_ClassFuncConnection (s : Signal) (connection : Connection) : Signal :=
  s.emplaceNext connection

/-- Member `emit(args...)`: the range-for over `m_slots`, calling every entry; the result is
the sequence of invocations made when no slot throws and no slot calls back into the
signal. `Signal.emitWith` is the member with slots that throw or call back. -/
def Signal.emit {Args : Type} (s : Signal) (args : Args) : List (Invocation Args) :=
  s.m_slots.foldl (fun trace cur => trace ++ [cur.2.call args]) []

/-- The loop of `onSlotsObjectDestroyed`: erase when `i->first == handle`, else advance. -/
def SlotMap.eraseLoop (handle : SlotHandle) : SlotMap → SlotMap
  | [] => []
  | (k0, v0) :: rest =>
    if k0 = handle then SlotMap.eraseLoop handle rest
    else (k0, v0) :: SlotMap.eraseLoop handle rest

/-- Member `onSlotsObjectDestroyed(handle)`. -/
def Signal.onSlotsObjectDestroyed (s : Signal) (handle : SlotHandle) : Signal :=
  { s with m_slots := SlotMap.eraseLoop handle s.m_slots }

/-! ## Operations on one signal -/

/-- What can happen to one signal: a `connect` call (any overload ends in the same
`emplace`) or a removal through `onSlotsObjectDestroyed`. -/
inductive SignalOp where
  | connect (connection : Connection)
  | onSlotsObjectDestroyed (handle : SlotHandle)
  deriving DecidableEq, Repr

/-- Effect of one operation on the signal. -/
def Signal.step (s : Signal) : SignalOp → Signal
  | .connect connection => s.emplaceNext connection
  | .onSlotsObjectDestroyed handle => s.onSlotsObjectDestroyed handle

/-- Effect of a sequence of operations, first operation first. -/
def Signal.run (ops : List SignalOp) (s : Signal) : Signal :=
  ops.foldl Signal.step s

/-- Number of `connect` calls in a sequence of operations. -/
def numConnects (ops : List SignalOp) : Nat :=
  (ops.filter fun op => match op with
    | .connect _ => true
    | .onSlotsObjectDestroyed _ => false).length

/-- Handles under which the `connect` calls of a sequence started in `s` store their
connection (the value of `m_IdCtr` at each call), in call order. -/
def assignedHandles : List SignalOp → Signal → List SlotHandle
  | [], _ => []
  | .connect connection :: ops, s =>
    s.m_IdCtr :: assignedHandles ops (s.step (.connect connection))
  | .onSlotsObjectDestroyed handle :: ops, s =>
    assignedHandles ops (s.step (.onSlotsObjectDestroyed handle))

/-- A connect immediately undone: `n` rounds, starting with counter value `c`, of connecting
member `g` of a tracked object made for the round (named after the handle of the round) and
destroying that object, which removes the handle again. -/
def churn (g : MemberId) (c : SlotHandle) : Nat → List SignalOp
  | 0 => []
  | n + 1 =>
    SignalOp.connect (.ClassFuncConnection c g) :: SignalOp.onSlotsObjectDestroyed c ::
      churn g (incr c) n

/-- Every connect of the sequence, started in `s`, finds no entry under the handle it is
about to use. -/
def handlesFree : List SignalOp → Signal → Bool
  | [], _ => true
  | .connect connection :: ops, s =>
    decide (s.m_IdCtr ∉ SlotMap.keys s.m_slots) &&
      handlesFree ops (s.step (.connect connection))
  | .onSlotsObjectDestroyed handle :: ops, s =>
    handlesFree ops (s.step (.onSlotsObjectDestroyed handle))

/-! ## Registration log -/

/-- The connections that were connected and not yet removed, in registration order, each
with the handle it was registered under: a connect appends to the log, a removal of a
handle strikes the connections registered under it. The log follows the wording of the
specification (section 8); the table of the code is compared with it. -/
def connectedNotRemoved :
    List SignalOp → Signal → List (SlotHandle × Connection) → List (SlotHandle × Connection)
  | [], _, live => live
  | .connect connection :: ops, s, live =>
    connectedNotRemoved ops (s.step (.connect connection)) (live ++ [(s.m_IdCtr, connection)])
  | .onSlotsObjectDestroyed handle :: ops, s, live =>
    connectedNotRemoved ops (s.step (.onSlotsObjectDestroyed handle))
      (live.filter fun e => decide (e.1 ≠ handle))

/-! ## Standard library algorithms used by `SignalObject` -/

/-- Position found by `std::find_if`: index of the first element satisfying `p`, or the
length of the list for `last`. -/
def find_if {α : Type} (p : α → Bool) : List α → Nat
  | [] => 0
  | x :: xs => if p x then 0 else find_if p xs + 1

/-- The loop of `std::remove_if`,
`for (i = first; ++i != last;) if (!p(*i)) *first++ = std::move(*i);`.
`pending` holds the elements at the positions the loop has not read yet; they lie behind
`first`, so the loop has not written them. The elements are pairs of an integer and a
pointer, for which a move is a copy. -/
def remove_if_loop {α : Type} (p : α → Bool) : List α → List α → Nat → List α × Nat
  | [], arr, first => (arr, first)
  | x :: pending, arr, first =>
    if !p x then remove_if_loop p pending (arr.set first x) (first + 1)
    else remove_if_loop p pending arr first

/-- The algorithm `std::remove_if(begin, end, p)`: the array afterwards and the index of the
returned iterator. -/
def remove_if {α : Type} (p : α → Bool) (xs : List α) : List α × Nat :=
  let first := find_if p xs
  if first ≠ xs.length then remove_if_loop p (xs.drop (first + 1)) xs first
  else (xs, first)

/-- The single-iterator `std::vector::erase(pos)`: removes the element at `pos`; `pos` has
to be dereferenceable, erasing `end()` is undefined (`none`). -/
def vector_erase {α : Type} (xs : List α) (pos : Nat) : Option (List α) :=
  if pos < xs.length then some (xs.eraseIdx pos) else none

/-! ## SignalObject -/

/-- Data member of `SignalObject`. The header declaring it is not part of the sources; by
its uses in `SignalObject.cpp` (`emplace_back(handle, signal)`, `std::get<0>`, `std::get<1>`,
`data()`) it is a `std::vector` of `(SlotHandle, SignalBase*)` tuples. -/
structure SignalObject where
  m_connectedSignals : List (SlotHandle × SigId)
  deriving DecidableEq, Repr

/-- A newly constructed object has no back-references. -/
def SignalObject.new : SignalObject := { m_connectedSignals := [] }

/-- Member `onSignalConnected(signal, handle)`: `emplace_back(handle, signal)`. -/
def SignalObject.onSignalConnected (o : SignalObject) (signal : SigId) (handle : SlotHandle) :
    SignalObject :=
  { m_connectedSignals := o.m_connectedSignals ++ [(handle, signal)] }

/-- Member `onSignalDisconnected(handle)`:
`m_connectedSignals.erase(std::remove_if(begin, end, get<0>(element) == handle))`, the
erase being the single-iterator one. -/
def SignalObject.onSignalDisconnected (o : SignalObject) (handle : SlotHandle) :
    Option SignalObject :=
  let r := remove_if (fun element => decide (element.1 = handle)) o.m_connectedSignals
  (vector_erase r.1 r.2).map fun v => { m_connectedSignals := v }

/-! ## Signals and objects together -/

/-- All signals and objects of a program run. Every identity names a signal and an object,
newly constructed at the start; the flags record whose destructor has run. -/
structure World where
  signal : SigId → Signal
  signalDestroyed : SigId → Bool
  object : ObjId → SignalObject
  objectDestroyed : ObjId → Bool

/-- Undefined behaviour the model makes explicit. -/
inductive Fault where
  | destroyedSignal (s : SigId)
  | destroyedObject (o : ObjId)
  | eraseEnd (o : ObjId)
  deriving DecidableEq, Repr

/-- Start of a run: every signal and object newly constructed. -/
def World.new : World :=
  { signal := fun _ => Signal.new, signalDestroyed := fun _ => false,
    object := fun _ => SignalObject.new, objectDestroyed := fun _ => false }

/-- Store a new state for signal `s`. -/
def World.setSignal (w : World) (s : SigId) (v : Signal) : World :=
  { w with signal := fun i => if i = s then v else w.signal i }

/-- Store a new state for object `o`. -/
def World.setObject (w : World) (o : ObjId) (v : SignalObject) : World :=
  { w with object := fun i => if i = o then v else w.object i }

/-- Constructor `ClassFuncConnection(obj, member, sig, handle)`: keeps `obj` and `member`
and calls `obj->onSignalConnected(sig, handle)`. -/
def World.new_ClassFuncConnection (w : World) (obj : ObjId) (member : MemberId) (sig : SigId)
    (handle : SlotHandle) : Except Fault (World × Connection) :=
  if w.objectDestroyed obj then .error (.destroyedObject obj)
  else .ok (w.setObject obj ((w.object obj).onSignalConnected sig handle),
    .ClassFuncConnection obj member)

/-- Call of `connect(Function func)` on signal `s`. -/
def World.connect (w : World) (s : SigId) (func : FuncId) : Except Fault World :=
  if w.signalDestroyed s then .error (.destroyedSignal s)
  else .ok (w.setSignal s ((w.signal s).connect func))

/-- Call of `connect(FuncConnection* connection)` on signal `s`. -/
def World.connect_FuncConnection (w : World) (s : SigId) (connection : FuncId) :
    Except Fault World :=
  if w.signalDestroyed s then .error (.destroyedSignal s)
  else .ok (w.setSignal s ((w.signal s).connect_FuncConnection connection))

/-- Call of `connect(ClassFuncConnection* connection)` on signal `s`. -/
def World.connect_ClassFuncConnection (w : World) (s : SigId) (connection : Connection) :
    Except Fault World :=
  if w.signalDestroyed s then .error (.destroyedSignal s)
  else .ok (w.setSignal s ((w.signal s).connect_ClassFuncConnection connection))

/-- A call made in the body of `connect(Object* object, member)` that changes a
back-reference list or a table. -/
inductive ConnectEvent where
  | onSignalConnected (object : ObjId) (signal : SigId) (handle : SlotHandle)
  | emplace (signal : SigId) (handle : SlotHandle) (connection : Connection)
  deriving DecidableEq, Repr

/-- The body of `connect(Object* object, member)` on signal `s`, statement by statement:
`handle = m_IdCtr++`; `new ClassFuncConnection(object, member, this, handle)`, whose
constructor calls `object->onSignalConnected(this, handle)`; `m_slots.emplace(handle,
connection)`. The first component lists the two calls in the order in which they are made,
each with the state in which it is made; the second is the outcome of the call. -/
def World.connect_Object_trace (w : World) (s : SigId) (object : ObjId) (member : MemberId) :
    List (ConnectEvent × World) × Except Fault World :=
  if w.signalDestroyed s then ([], .error (.destroyedSignal s))
  else
    let handle := (w.signal s).m_IdCtr
    let w1 := w.setSignal s { (w.signal s) with m_IdCtr := incr handle }
    match w1.new_ClassFuncConnection object member s handle with
    | .error e => ([(ConnectEvent.onSignalConnected object s handle, w1)], .error e)
    | .ok (w2, connection) =>
      ([(ConnectEvent.onSignalConnected object s handle, w1),
        (ConnectEvent.emplace s handle connection, w2)],
       .ok (w2.setSignal s
        { (w2.signal s) with m_slots := SlotMap.emplace handle connection (w2.signal s).m_slots }))

/-- Call of `connect(Object* object, member)` on signal `s`: `handle = m_IdCtr++`, then the
connection is constructed (which calls `onSignalConnected`), then it is emplaced. -/
def World.connect_Object (w : World) (s : SigId) (object : ObjId) (member : MemberId) :
    Except Fault World :=
  (w.connect_Object_trace s object member).2

/-- The virtual `onDestroy(handle)`: nothing for a `FuncConnection`,
`m_obj->onSignalDisconnected(handle)` for a `ClassFuncConnection`. -/
def Connection.onDestroy (c : Connection) (w : World) (handle : SlotHandle) :
    Except Fault World :=
  match c with
  | .FuncConnection _ => .ok w
  | .ClassFuncConnection m_obj _ =>
    if w.objectDestroyed m_obj then .error (.destroyedObject m_obj)
    else match (w.object m_obj).onSignalDisconnected handle with
      | none => .error (.eraseEnd m_obj)
      | some o => .ok (w.setObject m_obj o)

/-- The loop of the destructor of `Signal`: `i->second->onDestroy(i->first)` for every entry
(the `delete` frees the connection, which has no further effect here). -/
def World.destroySignal_loop (w : World) : SlotMap → Except Fault World
  | [] => .ok w
  | (k, c) :: rest =>
    match c.onDestroy w k with
    | .error e => .error e
    | .ok w1 => World.destroySignal_loop w1 rest

/-- Destructor `Signal::~Signal()` of signal `s`. -/
def World.destroySignal (w : World) (s : SigId) : Except Fault World :=
  if w.signalDestroyed s then .error (.destroyedSignal s)
  else match w.destroySignal_loop (w.signal s).m_slots with
    | .error e => .error e
    | .ok w1 => .ok { w1 with signalDestroyed := fun i => if i = s then true else w1.signalDestroyed i }

/-- The loop of `SignalObject::destroy`: `signal->onSlotsObjectDestroyed(handle)` for every
back-reference. Calling through a pointer to a destroyed signal is a fault. -/
def World.destroy_loop (w : World) : List (SlotHandle × SigId) → Except Fault World
  | [] => .ok w
  | (handle, signal) :: rest =>
    if w.signalDestroyed signal then .error (.destroyedSignal signal)
    else World.destroy_loop
      (w.setSignal signal ((w.signal signal).onSlotsObjectDestroyed handle)) rest

/-- Member `SignalObject::destroy()` of object `o`. The `sigDestroy()` notification runs
user slots first; it is declared in the missing header and taken to leave the connections
as they are. -/
def World.destroy (w : World) (o : ObjId) : Except Fault World :=
  w.destroy_loop (w.object o).m_connectedSignals

/-- Destructor `SignalObject::~SignalObject()` of object `o`: `destroy()`. -/
def World.destroyObject (w : World) (o : ObjId) : Except Fault World :=
  if w.objectDestroyed o then .error (.destroyedObject o)
  else match w.destroy o with
    | .error e => .error e
    | .ok w1 => .ok { w1 with objectDestroyed := fun i => if i = o then true else w1.objectDestroyed i }

/-- Calls a program can make. `connect_ClassFuncConnection s obj member sig handle` stands
for `s.connect(new ClassFuncConnection(obj, member, sig, handle))`. -/
inductive Op where
  | connect (s : SigId) (func : FuncId)
  | connect_FuncConnection (s : SigId) (connection : FuncId)
  | connect_ClassFuncConnection (s : SigId) (obj : ObjId) (member : MemberId) (sig : SigId)
      (handle : SlotHandle)
  | connect_Object (s : SigId) (object : ObjId) (member : MemberId)
  | destroySignal (s : SigId)
  | destroyObject (o : ObjId)
  deriving DecidableEq, Repr

/-- Effect of one call. -/
def World.step (w : World) : Op → Except Fault World
  | .connect s func => w.connect s func
  | .connect_FuncConnection s connection => w.connect_FuncConnection s connection
  | .connect_ClassFuncConnection s obj member sig handle =>
    match w.new_ClassFuncConnection obj member sig handle with
    | .error e => .error e
    | .ok (w1, connection) => w1.connect_ClassFuncConnection s connection
  | .connect_Object s object member => w.connect_Object s object member
  | .destroySignal s => w.destroySignal s
  | .destroyObject o => w.destroyObject o

/-- Effect of a sequence of calls, first call first; stops at the first fault. -/
def World.run : List Op → World → Except Fault World
  | [], w => .ok w
  | op :: ops, w =>
    match w.step op with
    | .error e => .error e
    | .ok w1 => World.run ops w1

/-- Table of signal `s` in the outcome of a run. -/
def slotsOf (r : Except Fault World) (s : SigId) : Option SlotMap :=
  match r with
  | .ok w => some (w.signal s).m_slots
  | .error _ => none

/-- Back-reference list of object `o` in the outcome of a run. -/
def backrefsOf (r : Except Fault World) (o : ObjId) : Option (List (SlotHandle × SigId)) :=
  match r with
  | .ok w => some (w.object o).m_connectedSignals
  | .error _ => none

/-- The fault a run ended in, if any. -/
def faultOf (r : Except Fault World) : Option Fault :=
  match r with
  | .ok _ => none
  | .error e => some e

/-- Counter of signal `s` in the outcome of a run. -/
def counterOf (r : Except Fault World) (s : SigId) : Option SlotHandle :=
  match r with
  | .ok w => some (w.signal s).m_IdCtr
  | .error _ => none

/-- Invariant I1: every member-slot connection stored under `H` in the table of a live signal
`S` and bound to a live object `O` has the pair `(H, S)` among the back-references of `O`. -/
def World.I1 (w : World) : Prop :=
  ∀ (S : SigId) (H : SlotHandle) (O : ObjId) (member : MemberId),
    w.signalDestroyed S = false → w.objectDestroyed O = false →
    (H, Connection.ClassFuncConnection O member) ∈ (w.signal S).m_slots →
    (H, S) ∈ (w.object O).m_connectedSignals

/-- State after the statement `m_slots.emplace(m_IdCtr++, connection)` ran on signal `s`. -/
def World.connected (w : World) (s : SigId) (connection : Connection) : World :=
  w.setSignal s ((w.signal s).emplaceNext connection)

/-- State after `onSignalConnected(sig, handle)` ran on object `o`. -/
def World.recorded (w : World) (o : ObjId) (handle : SlotHandle) (sig : SigId) : World :=
  w.setObject o ((w.object o).onSignalConnected sig handle)

/-- No destructor has run. -/
def World.allLive (w : World) : Prop :=
  (∀ s, w.signalDestroyed s = false) ∧ (∀ o, w.objectDestroyed o = false)

/-- The call is one of the `connect` overloads. -/
def Op.connects : Op → Bool
  | .connect _ _ => true
  | .connect_FuncConnection _ _ => true
  | .connect_ClassFuncConnection _ _ _ _ _ => true
  | .connect_Object _ _ _ => true
  | .destroySignal _ => false
  | .destroyObject _ => false

/-- A connection built by hand was constructed for the signal it is connected to and with
the handle that signal hands out next. -/
def Op.matched (w : World) : Op → Bool
  | .connect_ClassFuncConnection s _ _ sig handle =>
    decide (sig = s) && decide (handle = (w.signal s).m_IdCtr)
  | _ => true

/-- The run uses `connect` overloads only, and every connection built by hand matches the
signal it is connected to. -/
def World.connectsMatched : List Op → World → Bool
  | [], _ => true
  | op :: ops, w =>
    op.connects && op.matched w &&
      match w.step op with
      | .ok w1 => World.connectsMatched ops w1
      | .error _ => false

/-- The call is `connect(closure)` or `connect(object, member)`. -/
def Op.basic : Op → Bool
  | .connect _ _ => true
  | .connect_Object _ _ _ => true
  | _ => false

/-- Number of `connect` calls made on signal `s` in a sequence of calls. -/
def connectsOn (s : SigId) (ops : List Op) : Nat :=
  (ops.filter fun op => match op with
    | .connect t _ => decide (t = s)
    | .connect_FuncConnection t _ => decide (t = s)
    | .connect_ClassFuncConnection t _ _ _ _ => decide (t = s)
    | .connect_Object t _ _ => decide (t = s)
    | .destroySignal _ => false
    | .destroyObject _ => false).length

/-- A connect immediately undone, for signals and objects together: `n` rounds on signal
`s`, each connecting member `m` of a tracked object not used before (`base`, `base + 1`,
and so on) and then destroying that object. -/
def wchurn (s : SigId) (m : MemberId) (base : ObjId) : Nat → List Op
  | 0 => []
  | n + 1 => Op.connect_Object s base m :: Op.destroyObject base :: wchurn s m (base + 1) n

/-- Tables and back-reference lists mirror each other, and no counter has wrapped: `B s` is
the counter of signal `s` as an unbounded number. -/
def World.Linked (w : World) (B : SigId → Nat) : Prop :=
  (∀ s, (w.signal s).m_IdCtr = B s % (SIZE_MAX + 1)) ∧
  (∀ s, ∀ k ∈ SlotMap.keys (w.signal s).m_slots, k < B s) ∧
  (∀ s, (SlotMap.keys (w.signal s).m_slots).Nodup) ∧
  (∀ S H O member, (H, Connection.ClassFuncConnection O member) ∈ (w.signal S).m_slots →
    (H, S) ∈ (w.object O).m_connectedSignals) ∧
  (∀ S H O, (H, S) ∈ (w.object O).m_connectedSignals →
    ∃ member, (H, Connection.ClassFuncConnection O member) ∈ (w.signal S).m_slots) ∧
  (∀ O, (w.object O).m_connectedSignals.Nodup)

/-! ## Calls made while a signal is destroyed -/

/-- The `onSignalDisconnected` calls the virtual `onDestroy(handle)` makes, as pairs of the
object called and the handle passed: none for a `FuncConnection`, whose `onDestroy` has an
empty body, one on `m_obj` for a `ClassFuncConnection`. -/
def Connection.onDestroy_calls (c : Connection) (handle : SlotHandle) :
    List (ObjId × SlotHandle) :=
  match c with
  | .FuncConnection _ => []
  | .ClassFuncConnection m_obj _ => [(m_obj, handle)]

/-- The `onSignalDisconnected` calls the loop of the destructor of `Signal` makes over a
table, in order. -/
def World.destroySignal_calls : SlotMap → List (ObjId × SlotHandle)
  | [] => []
  | (k, c) :: rest => c.onDestroy_calls k ++ World.destroySignal_calls rest

/-! ## Emission with slots that react -/

/-- What a slot does while it is invoked, as far as the signal is concerned: the calls it
makes back into the signal it is invoked from (the mutex is recursive, so they run at once)
and whether the invocation ends by throwing. -/
structure SlotReaction where
  ops : List SignalOp
  throws : Bool
  deriving DecidableEq, Repr

/-- How a call of `emit` ends. `threw`: an invocation threw and the exception left `emit`.
`invalidIterator`: the entry the range-for stands on was erased, so the iterator of the loop
is invalid and advancing it is undefined. `outOfFuel`: the bound on the number of
invocations given to the model was reached. Each carries the signal at that moment and the
invocations made. -/
inductive EmitResult (Args : Type) where
  | completed (s : Signal) (trace : List (Invocation Args))
  | threw (s : Signal) (trace : List (Invocation Args))
  | invalidIterator (s : Signal) (trace : List (Invocation Args))
  | outOfFuel (s : Signal) (trace : List (Invocation Args))
  deriving DecidableEq, Repr

/-- Position of `m_slots.begin()`: the first key, `none` for `end()`. -/
def SlotMap.first (m : SlotMap) : Option SlotHandle :=
  (SlotMap.keys m).head?

/-- Position `++it` moves to from key `k`: the next greater key, `none` for `end()`. -/
def SlotMap.successor (k : SlotHandle) : SlotMap → Option SlotHandle
  | [] => none
  | (k0, _) :: rest => if k < k0 then some k0 else SlotMap.successor k rest

/-- The range-for of `emit`, `for (const auto &cur : m_slots) cur.second->call(args...)`,
with slots that react: the loop stands on a key, calls the connection stored there, the
slot runs its calls on the signal, and the loop advances in the table as it then is. -/
def Signal.emitLoop {Args : Type} (react : Connection → SlotReaction) (args : Args) :
    Nat → Signal → Option SlotHandle → List (Invocation Args) → EmitResult Args
  | _, s, none, trace => .completed s trace
  | 0, s, some _, trace => .outOfFuel s trace
  | fuel + 1, s, some k, trace =>
    match SlotMap.find k s.m_slots with
    | none => .invalidIterator s trace
    | some cur =>
      if (react cur).throws then
        .threw (Signal.run (react cur).ops s) (trace ++ [cur.call args])
      else if SignalOp.onSlotsObjectDestroyed k ∈ (react cur).ops then
        .invalidIterator (Signal.run (react cur).ops s) (trace ++ [cur.call args])
      else
        Signal.emitLoop react args fuel (Signal.run (react cur).ops s)
          (SlotMap.successor k (Signal.run (react cur).ops s).m_slots)
          (trace ++ [cur.call args])

/-- Member `emit(args...)` with slots that react; at most `fuel` invocations. -/
def Signal.emitWith {Args : Type} (react : Connection → SlotReaction) (s : Signal)
    (args : Args) (fuel : Nat) : EmitResult Args :=
  Signal.emitLoop react args fuel s (SlotMap.first s.m_slots) []

/-- Signal a call of `emit` ends with. -/
def EmitResult.signal {Args : Type} : EmitResult Args → Signal
  | .completed s _ => s
  | .threw s _ => s
  | .invalidIterator s _ => s
  | .outOfFuel s _ => s

/-- Invocations a call of `emit` made. -/
def EmitResult.trace {Args : Type} : EmitResult Args → List (Invocation Args)
  | .completed _ trace => trace
  | .threw _ trace => trace
  | .invalidIterator _ trace => trace
  | .outOfFuel _ trace => trace

/-- The invocations `emit` makes over a table whose slots leave the signal alone, up to and
including the first one that throws, and whether one threw. -/
def emitUntilThrow {Args : Type} (react : Connection → SlotReaction) (args : Args) :
    SlotMap → List (Invocation Args) × Bool
  | [] => ([], false)
  | (_, cur) :: rest =>
    if (react cur).throws then ([cur.call args], true)
    else ((cur.call args) :: (emitUntilThrow react args rest).1,
      (emitUntilThrow react args rest).2)

/-! ## Shorthand operators -/

/-- Member `operator()(args...)`: `emit(args...);`. -/
def Signal.operator_call {Args : Type} (s : Signal) (args : Args) : List (Invocation Args) :=
  s.emit args

/-- Member `operator()(args...)` with slots that react. -/
def Signal.operator_callWith {Args : Type} (react : Connection → SlotReaction) (s : Signal)
    (args : Args) (fuel : Nat) : EmitResult Args :=
  Signal.emitWith react s args fuel

/-- Member `operator+=(func)`: `connect(func); return *this;`, the signal after the call. -/
def Signal.operator_add_assign (s : Signal) (func : FuncId) : Signal :=
  s.connect func

/-- Call of `operator+=(func)` on signal `s`: the state after `connect(func)` and the
identity of the signal the returned reference refers to, `*this`. -/
def World.operator_add_assign (w : World) (s : SigId) (func : FuncId) :
    Except Fault (World × SigId) :=
  match w.connect s func with
  | .error e => .error e
  | .ok w1 => .ok (w1, s)

/-! ## The calls of `SignalObject::destroy` in order -/

/-- A call made by `SignalObject::destroy`. -/
inductive DestroyEvent where
  | sigDestroy (o : ObjId)
  | onSlotsObjectDestroyed (signal : SigId) (handle : SlotHandle)
  deriving DecidableEq, Repr

/-- The loop of `SignalObject::destroy` with its calls written out: every call of
`onSlotsObjectDestroyed`, paired with the state in which it is made. The walk ends at a call
through a pointer to a destroyed signal, as `World.destroy_loop` does. -/
def World.destroy_loop_trace (w : World) :
    List (SlotHandle × SigId) → List (DestroyEvent × World)
  | [] => []
  | (handle, signal) :: rest =>
    (DestroyEvent.onSlotsObjectDestroyed signal handle, w) ::
      if w.signalDestroyed signal then []
      else World.destroy_loop_trace
        (w.setSignal signal ((w.signal signal).onSlotsObjectDestroyed handle)) rest

/-- Member `SignalObject::destroy()` of object `o` with its calls written out, each paired
with the state in which it is made: `sigDestroy();` first, then the loop over
`m_connectedSignals`. What the notification does is declared in the missing header and is
the parameter `sigDestroy`. -/
def World.destroy_trace (sigDestroy : World → World) (w : World) (o : ObjId) :
    List (DestroyEvent × World) :=
  (DestroyEvent.sigDestroy o, w) ::
    (sigDestroy w).destroy_loop_trace ((sigDestroy w).object o).m_connectedSignals

/-! ## Locks -/

/-- The mutexes: `m_mutex` of a signal and `m_objectMutex` of a tracked object. -/
inductive Lock where
  | signal (s : SigId)
  | object (o : ObjId)
  deriving DecidableEq, Repr

/-- What a `std::lock_guard` does to a mutex: lock it where it is declared, unlock it at the
end of the scope. -/
inductive LockEvent where
  | acquire (l : Lock)
  | release (l : Lock)
  deriving DecidableEq, Repr

/-- Lock events of `SignalObject::onSignalConnected` on object `o`: the `lock_guard` on
`m_objectMutex` around the `emplace_back`. -/
def SignalObject.onSignalConnected_locks (o : ObjId) : List LockEvent :=
  [.acquire (.object o), .release (.object o)]

/-- Lock events of `SignalObject::onSignalDisconnected` on object `o`. -/
def SignalObject.onSignalDisconnected_locks (o : ObjId) : List LockEvent :=
  [.acquire (.object o), .release (.object o)]

/-- Lock events of `Signal::onSlotsObjectDestroyed` on signal `s`. -/
def Signal.onSlotsObjectDestroyed_locks (s : SigId) : List LockEvent :=
  [.acquire (.signal s), .release (.signal s)]

/-- Lock events of `Signal::connect(Object* object, member)` on signal `s`: the `lock_guard`
on `m_mutex` spans the body, in which the constructor of the connection calls
`onSignalConnected` on the object. -/
def Signal.connect_Object_locks (s : SigId) (object : ObjId) : List LockEvent :=
  [.acquire (.signal s)] ++ SignalObject.onSignalConnected_locks object ++
    [.release (.signal s)]

/-- Lock events of the virtual `onDestroy`. -/
def Connection.onDestroy_locks (c : Connection) : List LockEvent :=
  match c with
  | .FuncConnection _ => []
  | .ClassFuncConnection m_obj _ => SignalObject.onSignalDisconnected_locks m_obj

/-- Lock events of the loop of the destructor of `Signal` over a table. -/
def Signal.destructor_loop_locks : SlotMap → List LockEvent
  | [] => []
  | (_, c) :: rest => c.onDestroy_locks ++ Signal.destructor_loop_locks rest

/-- Lock events of the destructor of signal `s`: the `lock_guard` on `m_mutex` spans the
loop. -/
def Signal.destructor_locks (s : SigId) (m_slots : SlotMap) : List LockEvent :=
  [.acquire (.signal s)] ++ Signal.destructor_loop_locks m_slots ++ [.release (.signal s)]

/-- Lock events of the loop of `SignalObject::destroy` over the back-references. -/
def SignalObject.destroy_loop_locks : List (SlotHandle × SigId) → List LockEvent
  | [] => []
  | (_, signal) :: rest =>
    Signal.onSlotsObjectDestroyed_locks signal ++ SignalObject.destroy_loop_locks rest

/-- Lock events of `SignalObject::destroy` on object `o`: the `lock_guard` on
`m_objectMutex` spans the notification and the loop. -/
def SignalObject.destroy_locks (o : ObjId) (m_connectedSignals : List (SlotHandle × SigId)) :
    List LockEvent :=
  [.acquire (.object o)] ++ SignalObject.destroy_loop_locks m_connectedSignals ++
    [.release (.object o)]

/-- The nested acquisitions of a thread running the lock events, given the locks it holds:
every pair `(held, acquired)` where `acquired` is locked while the other lock `held` is
held. -/
def nestedAcquires : List LockEvent → List Lock → List (Lock × Lock)
  | [], _ => []
  | .acquire l :: rest, held =>
    ((held.filter fun h => decide (h ≠ l)).map fun h => (h, l)) ++
      nestedAcquires rest (l :: held)
  | .release l :: rest, held => nestedAcquires rest (held.erase l)

/-! ## ReflectableObject -/

/-- Identity of a property, the pointer `PropertyBase*`. -/
abbrev PropId := Nat

/-- The exception types of `exceptions.hpp`, each made from `RuntimeErrorTemplate` and
carrying the message of `std::runtime_error`. -/
inductive Exception where
  | InvalidUsage (message : String)
  | NotImplemented (message : String)
  | OutOfBounds (message : String)
  deriving DecidableEq, Repr

/-- Data members of `ReflectableObject`. The header declaring them is not part of the
sources; by their uses in `ReflectableObject.cpp` the name is an owning pointer to a string
that may be null, and the property list is a sequence of `PropertyBase*` with `push_back`
and `erase`. -/
structure ReflectableObject where
  m_objectName : Option String
  m_propertyList : List PropId
  deriving DecidableEq, Repr

/-- Position found by `std::find(cbegin, cend, value)`: index of the first element equal to
`value`, or the length of the list for `cend`. -/
def std_find (xs : List PropId) (value : PropId) : Nat :=
  find_if (fun x => decide (x = value)) xs

/-- Member `registerProperty(prop)`: the object afterwards and the exception thrown, if
any. -/
def ReflectableObject.registerProperty (r : ReflectableObject) (prop : PropId) :
    ReflectableObject × Option Exception :=
  if std_find r.m_propertyList prop ≠ r.m_propertyList.length then
    (r, some (Exception.InvalidUsage ("property already registered")))
  else
    ({ r with m_propertyList := r.m_propertyList ++ [prop] }, none)

/-- The algorithm `std::remove(begin, end, value)`: `std::remove_if` with the predicate
`element == value`. -/
def std_remove (xs : List PropId) (value : PropId) : List PropId × Nat :=
  remove_if (fun x => decide (x = value)) xs

/-- Member `unregisterProperty(prop)`:
`m_propertyList.erase(std::remove(begin, end, prop))`, the erase being the single-iterator
one (`none` when it is called on `end()`). -/
def ReflectableObject.unregisterProperty (r : ReflectableObject) (prop : PropId) :
    Option ReflectableObject :=
  (vector_erase (std_remove r.m_propertyList prop).1 (std_remove r.m_propertyList prop).2).map
    fun v => { r with m_propertyList := v }

/-! ## TypeStack -/

/-- A type as far as `TypeStack` tells types apart: the marker class `Bottom` nested in the
instantiation `TypeStack<ElementsT...>`, or any other type, known by a number. -/
inductive CppType where
  | other (id : Nat)
  | Bottom (ElementsT : List CppType)

/-- The instantiation `TypeStack<ElementsT...>`, top element up front. -/
structure TypeStack where
  ElementsT : List CppType

/-- Member `PushImpl<ItemT>::NewStack` of `TypeStack<ElementsT...>`. -/
def TypeStack.PushImpl_NewStack (s : TypeStack) (ItemT : CppType) : TypeStack :=
  { ElementsT := ItemT :: s.ElementsT }

/-- Member `PopImpl<TypeStackT>::NewStack` of `TypeStack<ElementsT...>`: the partial
specialisation for `TypeStackT<TopItemT, ContentT...>` where it matches, the primary
template otherwise. -/
def TypeStack.PopImpl_NewStack (_s : TypeStack) (TypeStackT : TypeStack) : TypeStack :=
  match TypeStackT.ElementsT with
  | [] => TypeStackT
  | _ :: ContentT => { ElementsT := ContentT }

/-- Member `PopImpl<TypeStackT>::Item` of `TypeStack<ElementsT...>`; `Bottom` in the primary
template is the class nested in the enclosing instantiation. -/
def TypeStack.PopImpl_Item (s : TypeStack) (TypeStackT : TypeStack) : CppType :=
  match TypeStackT.ElementsT with
  | [] => CppType.Bottom s.ElementsT
  | TopItemT :: _ => TopItemT

/-- Member alias `Push<ItemT>`. -/
def TypeStack.Push (s : TypeStack) (ItemT : CppType) : TypeStack :=
  s.PushImpl_NewStack ItemT

/-- Member alias `Pop`: `PopImpl<TypeStack<ElementsT...>>::NewStack`. -/
def TypeStack.Pop (s : TypeStack) : TypeStack :=
  s.PopImpl_NewStack s

/-- Member alias `Top`: `PopImpl<TypeStack<ElementsT...>>::Item`. -/
def TypeStack.Top (s : TypeStack) : CppType :=
  s.PopImpl_Item s

/-- Member `kSize`: `sizeof...(ElementsT)`. -/
def TypeStack.kSize (s : TypeStack) : Nat :=
  s.ElementsT.length

/-- Member `kEmpty`: `kSize == 0`. -/
def TypeStack.kEmpty (s : TypeStack) : Bool :=
  s.kSize == 0

/-! ## IBinaryStream -/

/-- An element of the buffer. The header declaring `m_buffer` is not part of the sources; by
its uses in `binary_stream.cpp` (`m_buffer->data()[i]`, widened with `static_cast<int>` and
printed as two hex digits, and read into an `unsigned char`) the buffer is a contiguous
sequence of unsigned 8-bit values. -/
abbrev Byte := Fin 256

/-- Ways in which a member of `IBinaryStream` ends without returning a value:
`validateOffset` does not accept the range; a read at a position outside the buffer (whether
the missing `constPtr` rejects it or the read runs beyond the buffer, no value is
returned); the walk of a loop of the model is cut short. -/
inductive StreamFault where
  | rejected (pos len : Nat)
  | outOfRange (index : Int)
  | outOfFuel
  deriving DecidableEq, Repr

/-- Data member of `IBinaryStream` used by `binary_stream.cpp`: the bytes of `*m_buffer`. -/
structure IBinaryStream where
  m_buffer : List Byte
  deriving DecidableEq, Repr

/-- The value returned by a member, if it returned one. -/
def valueOf {α : Type} (r : Except StreamFault α) : Option α :=
  match r with
  | .ok a => some a
  | .error _ => none

/-- Member `validateOffset(pos, len)`, declared in the missing header: whether the range of
`len` bytes at `pos` lies in the buffer. -/
def IBinaryStream.validateOffset (s : IBinaryStream) (pos len : Nat) : Bool :=
  decide (pos + len ≤ s.m_buffer.length)

/-- The read `m_buffer->data()[index]` with an `int` index. -/
def IBinaryStream.data (s : IBinaryStream) (index : Int) : Except StreamFault Byte :=
  if 0 ≤ index then
    match s.m_buffer[index.toNat]? with
    | some b => .ok b
    | none => .error (.outOfRange index)
  else .error (.outOfRange index)

/-- The read `*constPtr<char>(pos)`: the byte at offset `pos` of the buffer. -/
def IBinaryStream.constPtr_char (s : IBinaryStream) (pos : Nat) : Except StreamFault Byte :=
  match s.m_buffer[pos]? with
  | some b => .ok b
  | none => .error (.outOfRange pos)

/-- The loop of `extractString8`,
`while (*constPtr<char>(curPos) != 0 && (maxLen == 0 || curPos - pos < maxLen)) ++curPos;`:
the value of `curPos` after it. The read comes first in the condition. -/
def IBinaryStream.extractString8_loop (s : IBinaryStream) (pos maxLen : Nat) :
    Nat → Nat → Except StreamFault Nat
  | 0, _ => .error .outOfFuel
  | fuel + 1, curPos =>
    match s.constPtr_char curPos with
    | .error e => .error e
    | .ok c =>
      if c ≠ 0 ∧ (maxLen = 0 ∨ curPos - pos < maxLen) then
        IBinaryStream.extractString8_loop s pos maxLen fuel (curPos + 1)
      else .ok curPos

/-- Member `extractString8(pos, maxLen)`: `std::string(constPtr<char>(pos), curPos - pos)`
after the loop. The loop reads one position per step and stops at the latest behind the
buffer, so one step more than the buffer has bytes is enough. -/
def IBinaryStream.extractString8 (s : IBinaryStream) (pos maxLen : Nat) :
    Except StreamFault (List Byte) :=
  match s.extractString8_loop pos maxLen (s.m_buffer.length + 1) pos with
  | .error e => .error e
  | .ok curPos => .ok ((s.m_buffer.drop pos).take (curPos - pos))

/-- Value of a `wchar_t` stored in the given bytes, least significant byte first. -/
def wchar_value : List Byte → Nat
  | [] => 0
  | b :: rest => b.val + 256 * wchar_value rest

/-- The read `*constPtr<wchar_t>(pos)`: the `wchar_t` made of the `sizeof(wchar_t)` bytes at
byte offset `pos`. The size is the one of the platform. -/
def IBinaryStream.constPtr_wchar_t (s : IBinaryStream) (sizeof_wchar_t pos : Nat) :
    Except StreamFault Nat :=
  if pos + sizeof_wchar_t ≤ s.m_buffer.length then
    .ok (wchar_value ((s.m_buffer.drop pos).take sizeof_wchar_t))
  else .error (.outOfRange pos)

/-- The loop of `extractString16`,
`while (*constPtr<wchar_t>(curPos) != 0
  && (maxLen == 0 || curPos - pos < maxLen * sizeof(wchar_t))) ++curPos;`
where `curPos` is a byte offset and the product is a `size_t`. -/
def IBinaryStream.extractString16_loop (s : IBinaryStream) (sizeof_wchar_t pos maxLen : Nat) :
    Nat → Nat → Except StreamFault Nat
  | 0, _ => .error .outOfFuel
  | fuel + 1, curPos =>
    match s.constPtr_wchar_t sizeof_wchar_t curPos with
    | .error e => .error e
    | .ok c =>
      if c ≠ 0 ∧ (maxLen = 0 ∨ curPos - pos < (maxLen * sizeof_wchar_t) % (SIZE_MAX + 1)) then
        IBinaryStream.extractString16_loop s sizeof_wchar_t pos maxLen fuel (curPos + 1)
      else .ok curPos

/-- The constructor `std::wstring(constPtr<wchar_t>(pos), count)`: `count` consecutive
`wchar_t` starting at byte offset `pos`. -/
def IBinaryStream.wstring (s : IBinaryStream) (sizeof_wchar_t : Nat) :
    Nat → Nat → Except StreamFault (List Nat)
  | _, 0 => .ok []
  | pos, count + 1 =>
    match s.constPtr_wchar_t sizeof_wchar_t pos with
    | .error e => .error e
    | .ok c =>
      match IBinaryStream.wstring s sizeof_wchar_t (pos + sizeof_wchar_t) count with
      | .error e => .error e
      | .ok cs => .ok (c :: cs)

/-- Member `extractString16(pos, maxLen)`:
`std::wstring(constPtr<wchar_t>(pos), curPos - pos)` after the loop. -/
def IBinaryStream.extractString16 (s : IBinaryStream) (sizeof_wchar_t pos maxLen : Nat) :
    Except StreamFault (List Nat) :=
  match s.extractString16_loop sizeof_wchar_t pos maxLen (s.m_buffer.length + 1) pos with
  | .error e => .error e
  | .ok curPos => s.wstring sizeof_wchar_t pos (curPos - pos)

/-- Conversion of an unsigned value to `int` (32 bits, two's complement): `int i = pos` and
`static_cast<int>(...)`. -/
def static_cast_int (n : Nat) : Int := Int.bmod n (2 ^ 32)

/-- The function `isprint` in the "C" locale. -/
def isprint (ch : Nat) : Bool := decide (0x20 ≤ ch ∧ ch ≤ 0x7e)

/-- Insertion `ss << std::setw(w) << value` of a non-negative value into a stream set up with
`std::hex` and `std::setfill('0')`: lower-case hex digits, filled with `0` from the left to
width `w`. -/
def std_hex (w : Nat) (value : Nat) : List Char :=
  List.replicate (w - (Nat.toDigits 16 value).length) '0' ++ Nat.toDigits 16 value

/-- The loop `for (int k = 16 - j; k != 1; --k) ss << "   ";` of `hexDump`, started at `k`. -/
def hexDump_fill : Nat → Int → List Char → Except StreamFault (List Char)
  | 0, _, _ => .error .outOfFuel
  | fuel + 1, k, ss =>
    if k ≠ 1 then hexDump_fill fuel (k - 1) (ss ++ [' ', ' ', ' ']) else .ok ss

/-- The loop `for (int k = 0; lastRound && k <= j || !lastRound && k < 16; ++k)` of
`hexDump`, which prints `m_buffer->data()[i - j + k]` or a dot, started at `k`. -/
def IBinaryStream.hexDump_ascii (s : IBinaryStream) (i j : Int) (lastRound : Bool) :
    Nat → Int → List Char → Except StreamFault (List Char)
  | 0, _, _ => .error .outOfFuel
  | fuel + 1, k, ss =>
    if (lastRound && decide (k ≤ j)) || (!lastRound && decide (k < 16)) then
      match s.data (i - j + k) with
      | .error e => .error e
      | .ok chCur =>
        IBinaryStream.hexDump_ascii s i j lastRound fuel (k + 1)
          (ss ++ [if isprint chCur.val then Char.ofNat chCur.val else '.'])
    else .ok ss

/-- The loop `for (int i = pos, j = 0; i < static_cast<int>(len + pos); ++i, ++j)` of
`hexDump`, started at `i` and `j` with `ss` written so far. The offset `i - pos` is computed
in the unsigned type of `pos`, taken as 64 bits wide. At the end of a row `j = -1` is
followed by the `++j` of the loop. The byte `data()[i]` is read before the offset is
appended; a read outside the buffer ends the call without a string, so the order of the two
does not show. -/
def IBinaryStream.hexDump_loop (s : IBinaryStream) (pos len : Nat) :
    Nat → Int → Int → List Char → Except StreamFault (List Char)
  | 0, _, _, _ => .error .outOfFuel
  | fuel + 1, i, j, ss =>
    if i < static_cast_int (len + pos) then
      match s.data i with
      | .error e => .error e
      | .ok b =>
        let ss1 := (if j = 0 then ss ++ ['0', 'x'] ++ std_hex 4 ((i - pos) % 2 ^ 64).toNat
          else ss) ++ [' '] ++ std_hex 2 b.val
        let lastRound : Bool := decide (i = static_cast_int (len + pos - 1))
        if j = 15 ∨ lastRound = true then
          match (if lastRound then hexDump_fill 17 (16 - j) ss1 else .ok ss1) with
          | .error e => .error e
          | .ok ss2 =>
            match s.hexDump_ascii i j lastRound 17 0 (ss2 ++ [' ']) with
            | .error e => .error e
            | .ok ss3 =>
              IBinaryStream.hexDump_loop s pos len fuel (i + 1) (-1 + 1) (ss3 ++ ['\n'])
        else IBinaryStream.hexDump_loop s pos len fuel (i + 1) (j + 1) ss1
    else .ok ss

/-- Member `hexDump(pos, len)`: the content of the string stream after the loop. The loop
advances `i` by one per step up to the bound, which is at most `len` steps away. -/
def IBinaryStream.hexDump (s : IBinaryStream) (pos len : Nat) :
    Except StreamFault (List Char) :=
  if s.validateOffset pos len then
    s.hexDump_loop pos len (len + 1) (static_cast_int pos) 0 []
  else .error (.rejected pos len)

/-- A lower-case hex digit: `0` to `9` or `a` to `f`. -/
def isLowerHexDigit (c : Char) : Bool :=
  (decide ('0' ≤ c) && decide (c ≤ '9')) || (decide ('a' ≤ c) && decide (c ≤ 'f'))

/-! ## The hex dump as a list of lines -/

/-- The bytes of row `r` of a dump of `len` bytes at `pos`: up to 16 bytes from position
`pos + 16 * r`, not beyond `pos + len`. -/
def IBinaryStream.hexDump_row (s : IBinaryStream) (pos len r : Nat) : List Byte :=
  (((s.m_buffer.drop pos).take len).drop (16 * r)).take 16

/-- The cell of a byte in the hex part of a line: a blank and two hex digits. -/
def hexDump_cell (b : Byte) : List Char :=
  ' ' :: std_hex 2 b.val

/-- The character of a byte in the ASCII column: the byte if it is printable, otherwise a
dot. -/
def hexDump_char (b : Byte) : Char :=
  if isprint b.val then Char.ofNat b.val else '.'

/-- The line of a row as the description of the dump gives it: `0x` and the offset in at
least four hex digits, one cell per byte, three blanks for every byte missing to sixteen,
a blank, the ASCII column and a newline. -/
def hexDump_line (offset : Nat) (row : List Byte) : List Char :=
  ['0', 'x'] ++ std_hex 4 offset ++ row.flatMap hexDump_cell ++
    List.replicate (3 * (16 - row.length)) ' ' ++ [' '] ++ row.map hexDump_char ++ ['\n']

/-- The lines of `count` rows from row `r` on. -/
def IBinaryStream.hexDump_lines (s : IBinaryStream) (pos len : Nat) :
    Nat → Nat → List (List Char)
  | _, 0 => []
  | r, count + 1 =>
    hexDump_line (16 * r) (s.hexDump_row pos len r) ::
      IBinaryStream.hexDump_lines s pos len (r + 1) count

/-! ## The extracted string as a run of bytes -/

/-- The string as the description of `extractString8` gives it: the longest run of non-zero
bytes starting at `pos`, cut to `maxLen` bytes when `maxLen` is not zero. -/
def IBinaryStream.nonZeroRun (s : IBinaryStream) (pos maxLen : Nat) : List Byte :=
  if maxLen = 0 then (s.m_buffer.drop pos).takeWhile (fun b => decide (b ≠ 0))
  else ((s.m_buffer.drop pos).takeWhile (fun b => decide (b ≠ 0))).take maxLen

/-! ## The table: emplace, erase, lookup, emit -/

theorem SlotMap.emplace_append (k : SlotHandle) (v : Connection) (m : SlotMap)
    (h : ∀ k0 ∈ SlotMap.keys m, k0 < k) : SlotMap.emplace k v m = m ++ [(k, v)] := by
  induction m with
  | nil => rfl
  | cons e rest ih =>
    obtain ⟨k0, v0⟩ := e
    have hk0 : k0 < k := h k0 (by simp [SlotMap.keys])
    have hrest : ∀ k1 ∈ SlotMap.keys rest, k1 < k := fun k1 hk1 =>
      h k1 (by simp only [SlotMap.keys, List.map_cons, List.mem_cons] at hk1 ⊢; exact Or.inr hk1)
    simp only [SlotMap.emplace, List.cons_append]
    rw [if_neg (Nat.lt_asymm hk0), if_neg (Nat.ne_of_gt hk0), ih hrest]

theorem SlotMap.eraseLoop_eq_filter (handle : SlotHandle) (m : SlotMap) :
    SlotMap.eraseLoop handle m = m.filter fun e => decide (e.1 ≠ handle) := by
  induction m with
  | nil => rfl
  | cons e rest ih =>
    obtain ⟨k0, v0⟩ := e
    by_cases hk : k0 = handle
    · simp [SlotMap.eraseLoop, hk, ih]
    · simp [SlotMap.eraseLoop, hk, ih]

theorem SlotMap.eraseLoop_emplace (k : SlotHandle) (v : Connection) (m : SlotMap)
    (h : k ∉ SlotMap.keys m) : SlotMap.eraseLoop k (SlotMap.emplace k v m) = m := by
  induction m with
  | nil => simp [SlotMap.emplace, SlotMap.eraseLoop]
  | cons e rest ih =>
    obtain ⟨k0, v0⟩ := e
    simp only [SlotMap.keys, List.map_cons, List.mem_cons, not_or] at h
    have hne : k0 ≠ k := fun hh => h.1 hh.symm
    have ih1 := ih (by simpa [SlotMap.keys] using h.2)
    by_cases hlt : k < k0
    · simp only [SlotMap.emplace, if_pos hlt, SlotMap.eraseLoop, if_neg hne, if_true]
      have hrest : SlotMap.eraseLoop k rest = rest := by
        rw [SlotMap.eraseLoop_eq_filter]
        apply List.filter_eq_self.mpr
        intro a ha
        have : a.1 ≠ k := fun hh => h.2 (by
          simp only [List.mem_map]; exact ⟨a, ha, hh⟩)
        simpa using this
      rw [hrest]
    · simp only [SlotMap.emplace, if_neg hlt, if_neg h.1, SlotMap.eraseLoop, if_neg hne, ih1]

theorem foldl_emit_aux {Args : Type} (args : Args) (m : SlotMap) (acc : List (Invocation Args)) :
    m.foldl (fun trace cur => trace ++ [cur.2.call args]) acc
      = acc ++ m.map fun e => e.2.call args := by
  induction m generalizing acc with
  | nil => simp
  | cons e rest ih => simp [List.foldl_cons, ih]

theorem Signal.emit_eq_map {Args : Type} (s : Signal) (args : Args) :
    s.emit args = s.m_slots.map fun e => e.2.call args := by
  simp [Signal.emit, foldl_emit_aux]

/-! ## Runs of one signal -/

theorem numConnects_nil : numConnects [] = 0 := rfl

theorem numConnects_connect (c : Connection) (ops : List SignalOp) :
    numConnects (SignalOp.connect c :: ops) = numConnects ops + 1 := by
  simp [numConnects]

theorem numConnects_remove (h : SlotHandle) (ops : List SignalOp) :
    numConnects (SignalOp.onSlotsObjectDestroyed h :: ops) = numConnects ops := by
  simp [numConnects]

theorem Signal.run_cons (op : SignalOp) (ops : List SignalOp) (s : Signal) :
    Signal.run (op :: ops) s = Signal.run ops (s.step op) := rfl

theorem Signal.run_append (ops1 ops2 : List SignalOp) (s : Signal) :
    Signal.run (ops1 ++ ops2) s = Signal.run ops2 (Signal.run ops1 s) := by
  simp [Signal.run, List.foldl_append]

theorem SlotMap.keys_append_single (m : SlotMap) (k : SlotHandle) (v : Connection) :
    SlotMap.keys (m ++ [(k, v)]) = SlotMap.keys m ++ [k] := by
  simp [SlotMap.keys]

theorem SlotMap.keys_filter_sorted (m : SlotMap) (p : SlotHandle × Connection → Bool)
    (h : (SlotMap.keys m).Sorted (· < ·)) : (SlotMap.keys (m.filter p)).Sorted (· < ·) := by
  unfold SlotMap.keys at *
  unfold List.Sorted at *
  rw [List.pairwise_map] at *
  exact h.filter p

theorem SlotMap.mem_keys_filter (m : SlotMap) (p : SlotHandle × Connection → Bool)
    (k : SlotHandle) (h : k ∈ SlotMap.keys (m.filter p)) : k ∈ SlotMap.keys m := by
  unfold SlotMap.keys at *
  rw [List.mem_map] at *
  obtain ⟨a, ha, rfl⟩ := h
  exact ⟨a, List.mem_of_mem_filter ha, rfl⟩

/-- The table invariant before the counter wraps, along a run: `B` is the counter as an
unbounded number. -/
theorem Signal.run_invariant (ops : List SignalOp) : ∀ (s : Signal) (B : Nat),
    s.m_IdCtr = B % (SIZE_MAX + 1) →
    (SlotMap.keys s.m_slots).Sorted (· < ·) →
    (∀ k ∈ SlotMap.keys s.m_slots, k < B) →
    B + numConnects ops ≤ SIZE_MAX + 1 →
    (Signal.run ops s).m_slots = connectedNotRemoved ops s s.m_slots ∧
    (Signal.run ops s).m_IdCtr = (B + numConnects ops) % (SIZE_MAX + 1) ∧
    (SlotMap.keys (Signal.run ops s).m_slots).Sorted (· < ·) ∧
    (∀ k ∈ SlotMap.keys (Signal.run ops s).m_slots, k < B + numConnects ops) ∧
    (∀ k ∈ SlotMap.keys (Signal.run ops s).m_slots, k ∈ SlotMap.keys s.m_slots ∨ B ≤ k) ∧
    assignedHandles ops s = List.range' B (numConnects ops) := by
  induction ops with
  | nil =>
    intro s B hc hs hk _
    refine ⟨rfl, ?_, hs, ?_, ?_, rfl⟩
    · simpa [Signal.run, numConnects_nil] using hc
    · simpa [Signal.run, numConnects_nil] using hk
    · intro k hk1; exact Or.inl hk1
  | cons op ops ih =>
    intro s B hc hs hk hB
    cases op with
    | connect c =>
      rw [numConnects_connect] at hB ⊢
      have hBlt : B < SIZE_MAX + 1 := by omega
      have hctr : s.m_IdCtr = B := by rw [hc, Nat.mod_eq_of_lt hBlt]
      have hslots : (s.step (.connect c)).m_slots = s.m_slots ++ [(B, c)] := by
        simp only [Signal.step, Signal.emplaceNext, hctr]
        exact SlotMap.emplace_append B c s.m_slots hk
      have hctr1 : (s.step (.connect c)).m_IdCtr = (B + 1) % (SIZE_MAX + 1) := by
        simp only [Signal.step, Signal.emplaceNext, hctr, incr]
      have hs1 : (SlotMap.keys (s.step (.connect c)).m_slots).Sorted (· < ·) := by
        rw [hslots, SlotMap.keys_append_single]
        unfold List.Sorted at hs ⊢
        rw [List.pairwise_append]
        refine ⟨hs, List.pairwise_singleton _ _, ?_⟩
        intro a ha b hb
        simp only [List.mem_singleton] at hb
        subst hb
        exact hk a ha
      have hk1 : ∀ k ∈ SlotMap.keys (s.step (.connect c)).m_slots, k < B + 1 := by
        intro k hkm
        rw [hslots, SlotMap.keys_append_single, List.mem_append, List.mem_singleton] at hkm
        rcases hkm with hkm | hkm
        · exact Nat.lt_succ_of_lt (hk k hkm)
        · subst hkm; exact Nat.lt_succ_self _
      obtain ⟨r1, r2, r3, r4, r5, r6⟩ := ih (s.step (.connect c)) (B + 1) hctr1 hs1 hk1 (by omega)
      rw [Signal.run_cons]
      refine ⟨?_, ?_, r3, ?_, ?_, ?_⟩
      · rw [r1, hslots]; simp only [connectedNotRemoved, hctr]
      · rw [r2]; congr 1; omega
      · intro k hkm; have := r4 k hkm; rw [Nat.add_assoc, Nat.add_comm 1] at this; exact this
      · intro k hkm
        rcases r5 k hkm with h1 | h1
        · rw [hslots, SlotMap.keys_append_single, List.mem_append, List.mem_singleton] at h1
          rcases h1 with h1 | h1
          · exact Or.inl h1
          · exact Or.inr (Nat.le_of_eq h1.symm)
        · exact Or.inr (by omega)
      · simp only [assignedHandles, r6, hctr, List.range'_succ]
    | onSlotsObjectDestroyed h =>
      rw [numConnects_remove] at hB ⊢
      have hslots : (s.step (.onSlotsObjectDestroyed h)).m_slots
          = s.m_slots.filter fun e => decide (e.1 ≠ h) := by
        simp only [Signal.step, Signal.onSlotsObjectDestroyed]
        exact SlotMap.eraseLoop_eq_filter h s.m_slots
      have hctr1 : (s.step (.onSlotsObjectDestroyed h)).m_IdCtr = B % (SIZE_MAX + 1) := by
        simp only [Signal.step, Signal.onSlotsObjectDestroyed, hc]
      have hs1 : (SlotMap.keys (s.step (.onSlotsObjectDestroyed h)).m_slots).Sorted (· < ·) := by
        rw [hslots]; exact SlotMap.keys_filter_sorted _ _ hs
      have hk1 : ∀ k ∈ SlotMap.keys (s.step (.onSlotsObjectDestroyed h)).m_slots, k < B := by
        intro k hkm
        rw [hslots] at hkm
        exact hk k (SlotMap.mem_keys_filter _ _ k hkm)
      obtain ⟨r1, r2, r3, r4, r5, r6⟩ :=
        ih (s.step (.onSlotsObjectDestroyed h)) B hctr1 hs1 hk1 hB
      rw [Signal.run_cons]
      refine ⟨?_, r2, r3, r4, ?_, ?_⟩
      · rw [r1, hslots]; simp only [connectedNotRemoved]
      · intro k hkm
        rcases r5 k hkm with h1 | h1
        · rw [hslots] at h1
          exact Or.inl (SlotMap.mem_keys_filter _ _ k h1)
        · exact Or.inr h1
      · simp only [assignedHandles, r6]

theorem SIZE_MAX_succ : SIZE_MAX + 1 = 18446744073709551616 := by
  norm_num [SIZE_MAX]

theorem SIZE_MAX_eq : SIZE_MAX = 18446744073709551615 := by
  norm_num [SIZE_MAX]

theorem incr_eq (c : Nat) : incr c = (c + 1) % 18446744073709551616 := by
  rw [incr, SIZE_MAX_succ]

theorem assignedHandles_append (ops1 ops2 : List SignalOp) : ∀ s : Signal,
    assignedHandles (ops1 ++ ops2) s
      = assignedHandles ops1 s ++ assignedHandles ops2 (Signal.run ops1 s) := by
  induction ops1 with
  | nil => intro s; rfl
  | cons op ops ih =>
    intro s
    cases op with
    | connect c =>
      show assignedHandles (SignalOp.connect c :: (ops ++ ops2)) s = _
      simp only [assignedHandles, ih, Signal.run_cons, List.cons_append]
    | onSlotsObjectDestroyed h =>
      show assignedHandles (SignalOp.onSlotsObjectDestroyed h :: (ops ++ ops2)) s = _
      simp only [assignedHandles, ih, Signal.run_cons]

theorem connectedNotRemoved_append (ops1 ops2 : List SignalOp) :
    ∀ (s : Signal) (live : List (SlotHandle × Connection)),
    connectedNotRemoved (ops1 ++ ops2) s live
      = connectedNotRemoved ops2 (Signal.run ops1 s) (connectedNotRemoved ops1 s live) := by
  induction ops1 with
  | nil => intro s live; rfl
  | cons op ops ih =>
    intro s live
    cases op with
    | connect c =>
      show connectedNotRemoved (SignalOp.connect c :: (ops ++ ops2)) s live = _
      simp only [connectedNotRemoved, ih, Signal.run_cons]
    | onSlotsObjectDestroyed h =>
      show connectedNotRemoved (SignalOp.onSlotsObjectDestroyed h :: (ops ++ ops2)) s live = _
      simp only [connectedNotRemoved, ih, Signal.run_cons]

theorem numConnects_append (ops1 ops2 : List SignalOp) :
    numConnects (ops1 ++ ops2) = numConnects ops1 + numConnects ops2 := by
  simp [numConnects]

theorem numConnects_churn (g : MemberId) (n : Nat) : ∀ c, numConnects (churn g c n) = n := by
  induction n with
  | zero => intro c; rfl
  | succ n ih => intro c; simp only [churn, numConnects_connect, numConnects_remove, ih]

/-- A round of connect and removal leaves the table as it was and advances the counter. -/
theorem Signal.run_churn (g : MemberId) (T : SlotMap) (n : Nat) : ∀ c : Nat,
    c < 18446744073709551616 →
    (∀ i, i < n → (c + i) % 18446744073709551616 ∉ SlotMap.keys T) →
    Signal.run (churn g c n) { m_slots := T, m_IdCtr := c }
      = { m_slots := T, m_IdCtr := (c + n) % 18446744073709551616 } := by
  induction n with
  | zero =>
    intro c hc _
    simp only [churn, Signal.run, List.foldl_nil, Nat.add_zero, Nat.mod_eq_of_lt hc]
  | succ n ih =>
    intro c hc hfree
    have h0 : c ∉ SlotMap.keys T := by
      have := hfree 0 (Nat.succ_pos n)
      rwa [Nat.add_zero, Nat.mod_eq_of_lt hc] at this
    have hstep : Signal.run (churn g c (n + 1)) { m_slots := T, m_IdCtr := c }
        = Signal.run (churn g (incr c) n) { m_slots := T, m_IdCtr := incr c } := by
      simp only [churn, Signal.run_cons, Signal.step, Signal.emplaceNext,
        Signal.onSlotsObjectDestroyed, SlotMap.eraseLoop_emplace c _ T h0]
    rw [hstep, incr_eq, ih ((c + 1) % 18446744073709551616) (Nat.mod_lt _ (by norm_num))]
    · have e : ((c + 1) % 18446744073709551616 + n) % 18446744073709551616
          = (c + (n + 1)) % 18446744073709551616 := by omega
      rw [e]
    · intro i hi
      have := hfree (i + 1) (by omega)
      have e : ((c + 1) % 18446744073709551616 + i) % 18446744073709551616
          = (c + (i + 1)) % 18446744073709551616 := by omega
      rw [e]; exact this

/-- The log is as it was after rounds of connect and removal that use handles not in it. -/
theorem connectedNotRemoved_churn (g : MemberId) (T : SlotMap)
    (live : List (SlotHandle × Connection)) (n : Nat) : ∀ c : Nat,
    c < 18446744073709551616 →
    (∀ i, i < n → (c + i) % 18446744073709551616 ∉ SlotMap.keys T) →
    (∀ i, i < n → (c + i) % 18446744073709551616 ∉ SlotMap.keys live) →
    connectedNotRemoved (churn g c n) { m_slots := T, m_IdCtr := c } live = live := by
  induction n with
  | zero => intro c _ _ _; rfl
  | succ n ih =>
    intro c hc hfree hlive
    have h0 : c ∉ SlotMap.keys T := by
      have := hfree 0 (Nat.succ_pos n)
      rwa [Nat.add_zero, Nat.mod_eq_of_lt hc] at this
    have h1 : c ∉ SlotMap.keys live := by
      have := hlive 0 (Nat.succ_pos n)
      rwa [Nat.add_zero, Nat.mod_eq_of_lt hc] at this
    have hfilter : (live ++ [(c, Connection.ClassFuncConnection c g)]).filter
        (fun e => decide (e.1 ≠ c)) = live := by
      rw [List.filter_append]
      have : live.filter (fun e => decide (e.1 ≠ c)) = live := by
        apply List.filter_eq_self.mpr
        intro a ha
        have : a.1 ≠ c := fun hh => h1 (by
          simp only [SlotMap.keys, List.mem_map]; exact ⟨a, ha, hh⟩)
        simpa using this
      rw [this]; simp
    have hshift : ∀ i, ((c + 1) % 18446744073709551616 + i) % 18446744073709551616
          = (c + (i + 1)) % 18446744073709551616 := by intro i; omega
    simp only [churn, connectedNotRemoved, Signal.step, Signal.emplaceNext,
      Signal.onSlotsObjectDestroyed, SlotMap.eraseLoop_emplace c _ T h0, hfilter]
    rw [incr_eq]
    apply ih ((c + 1) % 18446744073709551616) (Nat.mod_lt _ (by norm_num))
    · intro i hi; rw [hshift]; exact hfree (i + 1) (by omega)
    · intro i hi; rw [hshift]; exact hlive (i + 1) (by omega)

theorem SlotMap.find_append_single (m : SlotMap) (k : SlotHandle) (v : Connection)
    (h : k ∉ SlotMap.keys m) : SlotMap.find k (m ++ [(k, v)]) = some v := by
  induction m with
  | nil => simp [SlotMap.find]
  | cons e rest ih =>
    obtain ⟨k0, v0⟩ := e
    simp only [SlotMap.keys, List.map_cons, List.mem_cons, not_or] at h
    have hne : k0 ≠ k := fun hh => h.1 hh.symm
    simp only [List.cons_append, SlotMap.find, if_neg hne]
    exact ih (by simpa [SlotMap.keys] using h.2)

theorem SlotMap.find_append_of_some (m m2 : SlotMap) (k : SlotHandle) (v : Connection)
    (h : SlotMap.find k m = some v) : SlotMap.find k (m ++ m2) = some v := by
  induction m with
  | nil => simp [SlotMap.find] at h
  | cons e rest ih =>
    obtain ⟨k0, v0⟩ := e
    by_cases hk : k0 = k
    · simp only [SlotMap.find, if_pos hk, List.cons_append] at h ⊢; exact h
    · simp only [SlotMap.find, if_neg hk, List.cons_append] at h ⊢; exact ih h

/-- A fresh signal run for at most `SIZE_MAX` connects: table, counter and handles. -/
theorem Signal.run_new (ops : List SignalOp) (h : numConnects ops ≤ SIZE_MAX) :
    (Signal.run ops Signal.new).m_slots = connectedNotRemoved ops Signal.new [] ∧
    (Signal.run ops Signal.new).m_IdCtr = (1 + numConnects ops) % (SIZE_MAX + 1) ∧
    (SlotMap.keys (Signal.run ops Signal.new).m_slots).Sorted (· < ·) ∧
    (∀ k ∈ SlotMap.keys (Signal.run ops Signal.new).m_slots, k < 1 + numConnects ops) ∧
    (∀ k ∈ SlotMap.keys (Signal.run ops Signal.new).m_slots, 1 ≤ k) ∧
    assignedHandles ops Signal.new = List.range' 1 (numConnects ops) := by
  have hmod : Signal.new.m_IdCtr = 1 % (SIZE_MAX + 1) := by
    rw [SIZE_MAX_succ]; rfl
  obtain ⟨r1, r2, r3, r4, r5, r6⟩ := Signal.run_invariant ops Signal.new 1 hmod
    (by simp [Signal.new, SlotMap.keys])
    (by simp [Signal.new, SlotMap.keys]) (by omega)
  refine ⟨r1, r2, r3, r4, ?_, r6⟩
  intro k hk
  rcases r5 k hk with h1 | h1
  · simp [Signal.new, SlotMap.keys] at h1
  · exact h1

theorem Signal.run_churn_wrapped (f : FuncId) (g : MemberId) :
    Signal.run (SignalOp.connect (.FuncConnection f) :: churn g 2 SIZE_MAX) Signal.new
      = { m_slots := [(1, .FuncConnection f)], m_IdCtr := 1 } := by
  have h := Signal.run_churn g [(1, .FuncConnection f)] SIZE_MAX 2 (by norm_num)
    (by
      intro i hi
      rw [SIZE_MAX_eq] at hi
      simp only [SlotMap.keys, List.map_cons, List.map_nil, List.mem_singleton]
      omega)
  rw [SIZE_MAX_eq] at h ⊢
  rw [Signal.run_cons]
  exact h

theorem connectedNotRemoved_churn_wrapped (f : FuncId) (g : MemberId) :
    connectedNotRemoved (SignalOp.connect (.FuncConnection f) :: churn g 2 SIZE_MAX)
      Signal.new [] = [(1, .FuncConnection f)] := by
  have hfree : ∀ i, i < SIZE_MAX → (2 + i) % 18446744073709551616
      ∉ SlotMap.keys [((1 : SlotHandle), Connection.FuncConnection f)] := by
    intro i hi
    rw [SIZE_MAX_eq] at hi
    simp only [SlotMap.keys, List.map_cons, List.map_nil, List.mem_singleton]
    omega
  have hstart : connectedNotRemoved (SignalOp.connect (.FuncConnection f) :: churn g 2 SIZE_MAX)
      Signal.new [] = connectedNotRemoved (churn g 2 SIZE_MAX)
        { m_slots := [(1, .FuncConnection f)], m_IdCtr := 2 } [(1, .FuncConnection f)] := by
    rw [connectedNotRemoved]
    rfl
  rw [hstart]
  exact connectedNotRemoved_churn g [(1, .FuncConnection f)] [(1, .FuncConnection f)]
    SIZE_MAX 2 (by norm_num) hfree hfree

theorem Signal.run_snoc_connect (ops : List SignalOp) (c : Connection) (s : Signal) :
    Signal.run (ops ++ [SignalOp.connect c]) s = (Signal.run ops s).emplaceNext c := by
  rw [Signal.run_append]; rfl

/-- A connect on a fresh signal run for fewer than `SIZE_MAX` connects appends to the table. -/
theorem Signal.emplaceNext_run_new (ops : List SignalOp) (c : Connection)
    (hwrap : numConnects ops < SIZE_MAX) :
    (Signal.run ops Signal.new).m_IdCtr = numConnects ops + 1 ∧
    ((Signal.run ops Signal.new).emplaceNext c).m_slots
      = (Signal.run ops Signal.new).m_slots ++ [(numConnects ops + 1, c)] ∧
    numConnects ops + 1 ∉ SlotMap.keys (Signal.run ops Signal.new).m_slots := by
  obtain ⟨_, r2, _, r4, _, _⟩ := Signal.run_new ops (Nat.le_of_lt hwrap)
  have hctr : (Signal.run ops Signal.new).m_IdCtr = numConnects ops + 1 := by
    rw [r2, Nat.add_comm]
    exact Nat.mod_eq_of_lt (by omega)
  have hk : ∀ k ∈ SlotMap.keys (Signal.run ops Signal.new).m_slots, k < numConnects ops + 1 := by
    intro k hk; have := r4 k hk; rwa [Nat.add_comm] at this
  refine ⟨hctr, ?_, fun hmem => Nat.lt_irrefl _ (hk _ hmem)⟩
  simp only [Signal.emplaceNext, hctr]
  exact SlotMap.emplace_append _ c _ hk

/-! ## Calls on signals and objects -/

theorem SlotMap.mem_emplace (k : SlotHandle) (v : Connection) (m : SlotMap)
    (e : SlotHandle × Connection) (h : e ∈ SlotMap.emplace k v m) : e ∈ m ∨ e = (k, v) := by
  induction m with
  | nil => simp only [SlotMap.emplace, List.mem_singleton] at h; exact Or.inr h
  | cons e0 rest ih =>
    obtain ⟨k0, v0⟩ := e0
    simp only [SlotMap.emplace] at h
    split_ifs at h with h1 h2
    · rcases List.mem_cons.mp h with h | h
      · exact Or.inr h
      · exact Or.inl h
    · exact Or.inl h
    · rcases List.mem_cons.mp h with h | h
      · exact Or.inl (h ▸ List.mem_cons_self _ _)
      · rcases ih h with h | h
        · exact Or.inl (List.mem_cons_of_mem _ h)
        · exact Or.inr h

theorem World.connect_eq (w : World) (s : SigId) (func : FuncId)
    (hs : w.signalDestroyed s = false) :
    w.connect s func = .ok (w.connected s (.FuncConnection func)) := by
  simp [World.connect, hs, World.connected, Signal.connect]

theorem World.connect_FuncConnection_eq (w : World) (s : SigId) (connection : FuncId)
    (hs : w.signalDestroyed s = false) :
    w.connect_FuncConnection s connection = .ok (w.connected s (.FuncConnection connection)) := by
  simp [World.connect_FuncConnection, hs, World.connected, Signal.connect_FuncConnection]

theorem World.step_connect_ClassFuncConnection_eq (w : World) (s : SigId) (obj : ObjId)
    (member : MemberId) (sig : SigId) (handle : SlotHandle)
    (hs : w.signalDestroyed s = false) (ho : w.objectDestroyed obj = false) :
    w.step (.connect_ClassFuncConnection s obj member sig handle)
      = .ok ((w.recorded obj handle sig).connected s (.ClassFuncConnection obj member)) := by
  simp [World.step, World.new_ClassFuncConnection, ho, World.connect_ClassFuncConnection,
    World.setObject, hs, World.connected, World.recorded, Signal.connect_ClassFuncConnection]

theorem World.connect_Object_eq (w : World) (s : SigId) (object : ObjId) (member : MemberId)
    (hs : w.signalDestroyed s = false) (ho : w.objectDestroyed object = false) :
    w.connect_Object s object member
      = .ok ((w.recorded object (w.signal s).m_IdCtr s).connected s
          (.ClassFuncConnection object member)) := by
  simp only [World.connect_Object, World.connect_Object_trace, hs,
    World.new_ClassFuncConnection, World.setSignal, ho,
    World.setObject, World.connected, World.recorded, Signal.emplaceNext, if_true,
    Bool.false_eq_true, if_false]
  congr 2
  funext i
  by_cases hi : i = s <;> simp [hi]

theorem World.recorded_signal (w : World) (o : ObjId) (h : SlotHandle) (sig : SigId) (i : SigId) :
    (w.recorded o h sig).signal i = w.signal i := rfl

theorem World.recorded_backrefs (w : World) (o : ObjId) (h : SlotHandle) (sig : SigId)
    (j : ObjId) :
    ((w.recorded o h sig).object j).m_connectedSignals
      = if j = o then (w.object j).m_connectedSignals ++ [(h, sig)]
        else (w.object j).m_connectedSignals := by
  by_cases hj : j = o
  · subst hj; simp [World.recorded, World.setObject, SignalObject.onSignalConnected]
  · simp [World.recorded, World.setObject, hj]

theorem World.connected_object (w : World) (s : SigId) (c : Connection) (j : ObjId) :
    (w.connected s c).object j = w.object j := rfl

theorem World.connected_signal (w : World) (s : SigId) (c : Connection) (i : SigId) :
    (w.connected s c).signal i = if i = s then (w.signal s).emplaceNext c else w.signal i := rfl

theorem World.recorded_allLive (w : World) (o : ObjId) (h : SlotHandle) (sig : SigId)
    (hl : w.allLive) : (w.recorded o h sig).allLive := hl

theorem World.connected_allLive (w : World) (s : SigId) (c : Connection)
    (hl : w.allLive) : (w.connected s c).allLive := hl

theorem World.recorded_I1 (w : World) (o : ObjId) (h : SlotHandle) (sig : SigId)
    (hi : w.I1) : (w.recorded o h sig).I1 := by
  intro S H O member hS hO hmem
  rw [World.recorded_backrefs]
  have := hi S H O member hS hO hmem
  split_ifs
  · exact List.mem_append_left _ this
  · exact this

theorem World.connected_I1 (w : World) (s : SigId) (c : Connection) (hi : w.I1)
    (hc : ∀ O member, c = .ClassFuncConnection O member →
      ((w.signal s).m_IdCtr, s) ∈ (w.object O).m_connectedSignals) :
    (w.connected s c).I1 := by
  intro S H O member hS hO hmem
  rw [World.connected_signal] at hmem
  rw [World.connected_object]
  by_cases hSs : S = s
  · rw [if_pos hSs] at hmem
    rcases SlotMap.mem_emplace _ _ _ _ hmem with h1 | h1
    · exact hi S H O member hS hO (hSs ▸ h1)
    · have hH : H = (w.signal s).m_IdCtr := congrArg Prod.fst h1
      have hcc : c = .ClassFuncConnection O member := (congrArg Prod.snd h1).symm
      rw [hH, hSs]
      exact hc O member hcc
  · rw [if_neg hSs] at hmem
    exact hi S H O member hS hO hmem

/-- One matched `connect` call on a world without destroyed parties succeeds and keeps I1. -/
theorem World.step_connects_I1 (w : World) (op : Op) (hl : w.allLive) (hi : w.I1)
    (hop : op.connects = true) (hm : op.matched w = true) :
    ∃ w1, w.step op = .ok w1 ∧ w1.allLive ∧ w1.I1 := by
  cases op with
  | connect s func =>
    refine ⟨_, World.connect_eq w s func (hl.1 s), World.connected_allLive _ _ _ hl, ?_⟩
    exact World.connected_I1 w s _ hi (fun O member h => by cases h)
  | connect_FuncConnection s connection =>
    refine ⟨_, World.connect_FuncConnection_eq w s connection (hl.1 s),
      World.connected_allLive _ _ _ hl, ?_⟩
    exact World.connected_I1 w s _ hi (fun O member h => by cases h)
  | connect_ClassFuncConnection s obj member sig handle =>
    simp only [Op.matched, Bool.and_eq_true, decide_eq_true_eq] at hm
    obtain ⟨hsig, hh⟩ := hm
    subst hsig
    refine ⟨_, World.step_connect_ClassFuncConnection_eq w sig obj member sig handle
      (hl.1 sig) (hl.2 obj), World.connected_allLive _ _ _ (World.recorded_allLive _ _ _ _ hl), ?_⟩
    apply World.connected_I1 _ _ _ (World.recorded_I1 w obj handle sig hi)
    intro O member1 hc
    cases hc
    rw [World.recorded_backrefs, if_pos rfl, World.recorded_signal, ← hh]
    exact List.mem_append_right _ (List.mem_singleton_self _)
  | connect_Object s object member =>
    refine ⟨_, World.connect_Object_eq w s object member (hl.1 s) (hl.2 object),
      World.connected_allLive _ _ _ (World.recorded_allLive _ _ _ _ hl), ?_⟩
    apply World.connected_I1 _ _ _ (World.recorded_I1 w object _ s hi)
    intro O member1 hc
    cases hc
    rw [World.recorded_backrefs, if_pos rfl, World.recorded_signal]
    exact List.mem_append_right _ (List.mem_singleton_self _)
  | destroySignal s => cases hop
  | destroyObject o => cases hop

theorem World.run_connects_I1 (ops : List Op) : ∀ w : World, w.allLive → w.I1 →
    World.connectsMatched ops w = true → ∃ w1, World.run ops w = .ok w1 ∧ w1.allLive ∧ w1.I1 := by
  induction ops with
  | nil => intro w hl hi _; exact ⟨w, rfl, hl, hi⟩
  | cons op ops ih =>
    intro w hl hi hm
    simp only [World.connectsMatched, Bool.and_eq_true] at hm
    obtain ⟨⟨hop, hmatch⟩, hrest⟩ := hm
    obtain ⟨w1, hstep, hl1, hi1⟩ := World.step_connects_I1 w op hl hi hop hmatch
    rw [hstep] at hrest
    obtain ⟨w2, hrun, hl2, hi2⟩ := ih w1 hl1 hi1 hrest
    exact ⟨w2, by simp only [World.run, hstep, hrun], hl2, hi2⟩

theorem World.new_allLive : World.new.allLive := ⟨fun _ => rfl, fun _ => rfl⟩

theorem World.new_I1 : World.new.I1 := by
  intro S H O member _ _ hmem
  simp [World.new, Signal.new] at hmem

/-! ## Tables and back-references stay linked -/

theorem connectsOn_nil (s : SigId) : connectsOn s [] = 0 := rfl

theorem connectsOn_cons (s : SigId) (op : Op) (ops : List Op) :
    connectsOn s (op :: ops) = connectsOn s [op] + connectsOn s ops := by
  simp only [connectsOn, List.filter_cons, List.filter_nil]
  split <;> simp [Nat.add_comm]

theorem connectsOn_connect (s t : SigId) (f : FuncId) :
    connectsOn s [Op.connect t f] = if t = s then 1 else 0 := by
  by_cases h : t = s <;> simp [connectsOn, h]

theorem connectsOn_connect_Object (s t : SigId) (o : ObjId) (m : MemberId) :
    connectsOn s [Op.connect_Object t o m] = if t = s then 1 else 0 := by
  by_cases h : t = s <;> simp [connectsOn, h]

theorem connectsOn_le_length (s : SigId) (ops : List Op) : connectsOn s ops ≤ ops.length :=
  List.length_filter_le _ _

/-- The table of signal `s` after a connect, before its counter wraps. -/
theorem World.connected_slots (w : World) (s : SigId) (c : Connection) (B : Nat)
    (hctr : (w.signal s).m_IdCtr = B % (SIZE_MAX + 1)) (hB : B < SIZE_MAX + 1)
    (hk : ∀ k ∈ SlotMap.keys (w.signal s).m_slots, k < B) :
    (w.signal s).m_IdCtr = B ∧
    ((w.connected s c).signal s).m_slots = (w.signal s).m_slots ++ [(B, c)] ∧
    ((w.connected s c).signal s).m_IdCtr = (B + 1) % (SIZE_MAX + 1) := by
  have hc : (w.signal s).m_IdCtr = B := by rw [hctr, Nat.mod_eq_of_lt hB]
  rw [World.connected_signal, if_pos rfl]
  simp only [Signal.emplaceNext, hc, incr]
  exact ⟨trivial, SlotMap.emplace_append B c _ hk, trivial⟩

/-- A connect on signal `s` that records `extra` on the object side keeps the link
between tables and back-reference lists. -/
theorem World.connected_Linked (w : World) (B : SigId → Nat) (s : SigId) (c : Connection)
    (hB : B s < SIZE_MAX + 1)
    (h1 : ∀ t, (w.signal t).m_IdCtr = B t % (SIZE_MAX + 1))
    (h2 : ∀ t, ∀ k ∈ SlotMap.keys (w.signal t).m_slots, k < B t)
    (h3 : ∀ t, (SlotMap.keys (w.signal t).m_slots).Nodup)
    (h4 : ∀ S H O member, (H, Connection.ClassFuncConnection O member) ∈ (w.signal S).m_slots →
      (H, S) ∈ (w.object O).m_connectedSignals)
    (h5 : ∀ S H O, (H, S) ∈ (w.object O).m_connectedSignals → (H, S) ≠ (B s, s) ∨ c.boundTo ≠ some O →
      ∃ member, (H, Connection.ClassFuncConnection O member) ∈ (w.signal S).m_slots)
    (h5b : ∀ O member, c = .ClassFuncConnection O member →
      (B s, s) ∈ (w.object O).m_connectedSignals)
    (h6 : ∀ O, (w.object O).m_connectedSignals.Nodup) :
    (w.connected s c).Linked (fun t => B t + if s = t then 1 else 0) := by
  obtain ⟨e0, e1, e2⟩ := World.connected_slots w s c (B s) (h1 s) hB (h2 s)
  have hother : ∀ t, t ≠ s → (w.connected s c).signal t = w.signal t := by
    intro t ht; rw [World.connected_signal, if_neg ht]
  refine ⟨?_, ?_, ?_, ?_, ?_, h6⟩
  · intro t
    beta_reduce
    by_cases ht : t = s
    · subst ht; rw [e2, if_pos rfl]
    · rw [hother t ht, h1 t, if_neg (Ne.symm ht)]; rfl
  · intro t k hk
    beta_reduce
    by_cases ht : t = s
    · subst ht
      rw [e1, SlotMap.keys_append_single, List.mem_append, List.mem_singleton] at hk
      rw [if_pos rfl]
      rcases hk with hk | hk
      · exact Nat.lt_succ_of_lt (h2 t k hk)
      · rw [hk]; exact Nat.lt_succ_self _
    · rw [hother t ht] at hk
      rw [if_neg (Ne.symm ht), Nat.add_zero]
      exact h2 t k hk
  · intro t
    by_cases ht : t = s
    · subst ht
      rw [e1, SlotMap.keys_append_single]
      apply List.Nodup.append (h3 t) (List.nodup_singleton _)
      intro a ha hb
      rw [List.mem_singleton] at hb
      exact Nat.lt_irrefl _ (hb ▸ h2 t a ha)
    · rw [hother t ht]; exact h3 t
  · intro S H O member hmem
    rw [World.connected_object]
    by_cases hS : S = s
    · subst hS
      rw [e1, List.mem_append, List.mem_singleton] at hmem
      rcases hmem with hmem | hmem
      · exact h4 S H O member hmem
      · have hH : H = B S := congrArg Prod.fst hmem
        rw [hH]
        exact h5b O member (congrArg Prod.snd hmem).symm
    · rw [hother S hS] at hmem
      exact h4 S H O member hmem
  · intro S H O hmem
    rw [World.connected_object] at hmem
    by_cases hnew : (H, S) = (B s, s) ∧ c.boundTo = some O
    · obtain ⟨hp, hb⟩ := hnew
      have hH : H = B s := congrArg Prod.fst hp
      have hS : S = s := congrArg Prod.snd hp
      subst hS
      cases c with
      | FuncConnection f => simp [Connection.boundTo] at hb
      | ClassFuncConnection o m =>
        simp only [Connection.boundTo, Option.some.injEq] at hb
        subst hb
        refine ⟨m, ?_⟩
        rw [e1, hH]
        exact List.mem_append_right _ (List.mem_singleton_self _)
    · have hnew1 : (H, S) ≠ (B s, s) ∨ c.boundTo ≠ some O := by
        by_cases hp : (H, S) = (B s, s)
        · exact Or.inr (fun hb => hnew ⟨hp, hb⟩)
        · exact Or.inl hp
      obtain ⟨member, hm⟩ := h5 S H O hmem hnew1
      refine ⟨member, ?_⟩
      by_cases hS : S = s
      · subst hS; rw [e1]; exact List.mem_append_left _ hm
      · rw [hother S hS]; exact hm

theorem SlotMap.mem_keys_of_mem (m : SlotMap) (k : SlotHandle) (c : Connection)
    (h : (k, c) ∈ m) : k ∈ SlotMap.keys m :=
  List.mem_map.mpr ⟨(k, c), h, rfl⟩

/-- One `connect(closure)` or `connect(object, member)` call keeps tables and
back-reference lists linked while the counter of the signal has not wrapped. -/
theorem World.step_basic_Linked (w : World) (B : SigId → Nat) (op : Op)
    (hl : w.allLive) (hL : w.Linked B) (hop : op.basic = true)
    (hB : ∀ s, B s + connectsOn s [op] ≤ SIZE_MAX + 1) :
    ∃ w1, w.step op = .ok w1 ∧ w1.allLive ∧ w1.Linked (fun s => B s + connectsOn s [op]) := by
  obtain ⟨h1, h2, h3, h4, h5, h6⟩ := hL
  cases op with
  | connect s func =>
    have hBs : B s < SIZE_MAX + 1 := by
      have := hB s; rw [connectsOn_connect, if_pos rfl] at this; omega
    refine ⟨_, World.connect_eq w s func (hl.1 s), World.connected_allLive _ _ _ hl, ?_⟩
    have hfun : (fun t => B t + connectsOn t [Op.connect s func])
        = (fun t => B t + if s = t then 1 else 0) := by
      funext t; rw [connectsOn_connect]
    rw [hfun]
    exact World.connected_Linked w B s _ hBs h1 h2 h3 h4 (fun S H O hm _ => h5 S H O hm)
      (fun O member hc => by cases hc) h6
  | connect_Object s object member =>
    have hBs : B s < SIZE_MAX + 1 := by
      have := hB s; rw [connectsOn_connect_Object, if_pos rfl] at this; omega
    have hc : (w.signal s).m_IdCtr = B s := by rw [h1 s, Nat.mod_eq_of_lt hBs]
    refine ⟨_, World.connect_Object_eq w s object member (hl.1 s) (hl.2 object),
      World.connected_allLive _ _ _ (World.recorded_allLive _ _ _ _ hl), ?_⟩
    have hfun : (fun t => B t + connectsOn t [Op.connect_Object s object member])
        = (fun t => B t + if s = t then 1 else 0) := by
      funext t; rw [connectsOn_connect_Object]
    rw [hfun, hc]
    have hfresh : (B s, s) ∉ (w.object object).m_connectedSignals := by
      intro hmem
      obtain ⟨m1, hm1⟩ := h5 s (B s) object hmem
      exact Nat.lt_irrefl _ (h2 s (B s) (SlotMap.mem_keys_of_mem _ _ _ hm1))
    apply World.connected_Linked (w.recorded object (B s) s) B s _ hBs h1 h2 h3
    · intro S H O member1 hm
      rw [World.recorded_backrefs]
      have := h4 S H O member1 hm
      split_ifs
      · exact List.mem_append_left _ this
      · exact this
    · intro S H O hm hne
      rw [World.recorded_backrefs] at hm
      by_cases hO : O = object
      · rw [if_pos hO, List.mem_append, List.mem_singleton] at hm
        rcases hm with hm | hm
        · exact h5 S H O hm
        · rcases hne with hne | hne
          · exact absurd hm hne
          · exact absurd (by rw [hO]; rfl) hne
      · rw [if_neg hO] at hm
        exact h5 S H O hm
    · intro O member1 hcc
      cases hcc
      rw [World.recorded_backrefs, if_pos rfl]
      exact List.mem_append_right _ (List.mem_singleton_self _)
    · intro O
      rw [World.recorded_backrefs]
      by_cases hO : O = object
      · rw [if_pos hO]
        subst hO
        apply List.Nodup.append (h6 O) (List.nodup_singleton _)
        intro a ha hb
        rw [List.mem_singleton] at hb
        exact hfresh (hb ▸ ha)
      · rw [if_neg hO]; exact h6 O
  | connect_FuncConnection s connection => cases hop
  | connect_ClassFuncConnection s obj member sig handle => cases hop
  | destroySignal s => cases hop
  | destroyObject o => cases hop

theorem World.run_basic_Linked (ops : List Op) : ∀ (w : World) (B : SigId → Nat),
    w.allLive → w.Linked B → ops.all Op.basic = true →
    (∀ s, B s + connectsOn s ops ≤ SIZE_MAX + 1) →
    ∃ w1, World.run ops w = .ok w1 ∧ w1.allLive ∧
      w1.Linked (fun s => B s + connectsOn s ops) := by
  induction ops with
  | nil =>
    intro w B hl hL _ _
    exact ⟨w, rfl, hl, by simpa [connectsOn_nil] using hL⟩
  | cons op ops ih =>
    intro w B hl hL hall hB
    rw [List.all_cons, Bool.and_eq_true] at hall
    have hB1 : ∀ s, B s + connectsOn s [op] ≤ SIZE_MAX + 1 := by
      intro s; have := hB s; rw [connectsOn_cons] at this; omega
    obtain ⟨w1, hstep, hl1, hL1⟩ := World.step_basic_Linked w B op hl hL hall.1 hB1
    have hB2 : ∀ s, (fun s => B s + connectsOn s [op]) s + connectsOn s ops ≤ SIZE_MAX + 1 := by
      intro s; have := hB s; rw [connectsOn_cons] at this; beta_reduce; omega
    obtain ⟨w2, hrun, hl2, hL2⟩ := ih w1 _ hl1 hL1 hall.2 hB2
    refine ⟨w2, by simp only [World.run, hstep, hrun], hl2, ?_⟩
    have hfun : (fun s => B s + connectsOn s (op :: ops))
        = (fun s => (fun s => B s + connectsOn s [op]) s + connectsOn s ops) := by
      funext s; rw [connectsOn_cons]; beta_reduce; omega
    rw [hfun]; exact hL2

theorem World.new_Linked : World.new.Linked (fun _ => 1) := by
  refine ⟨fun s => ?_, ?_, ?_, ?_, ?_, ?_⟩
  · show (1 : Nat) = 1 % (SIZE_MAX + 1)
    rw [Nat.mod_eq_of_lt (by norm_num [SIZE_MAX])]
  · intro s k hk; simp [World.new, Signal.new, SlotMap.keys] at hk
  · intro s; simp [World.new, Signal.new, SlotMap.keys]
  · intro S H O member hm; simp [World.new, Signal.new] at hm
  · intro S H O hm; simp [World.new, SignalObject.new] at hm
  · intro O; simp [World.new, SignalObject.new]

/-- The walk of `destroy` over a list of back-references: every signal loses the entries
whose handle the list names for it, and nothing else changes. -/
theorem World.destroy_loop_spec (L : List (SlotHandle × SigId)) : ∀ w : World,
    (∀ s, w.signalDestroyed s = false) →
    ∃ w1, w.destroy_loop L = .ok w1 ∧
      (∀ s, (w1.signal s).m_slots
        = (w.signal s).m_slots.filter fun e => decide ((e.1, s) ∉ L)) ∧
      (∀ s, (w1.signal s).m_IdCtr = (w.signal s).m_IdCtr) ∧
      w1.object = w.object ∧ w1.signalDestroyed = w.signalDestroyed ∧
      w1.objectDestroyed = w.objectDestroyed := by
  induction L with
  | nil =>
    intro w _
    exact ⟨w, rfl, fun s => by simp, fun _ => rfl, rfl, rfl, rfl⟩
  | cons p rest ih =>
    intro w hs
    obtain ⟨handle, sig⟩ := p
    obtain ⟨w1, hrun, r1, r2, r3, r4, r5⟩ :=
      ih (w.setSignal sig ((w.signal sig).onSlotsObjectDestroyed handle)) hs
    refine ⟨w1, by simp only [World.destroy_loop, hs sig, Bool.false_eq_true, if_false, hrun],
      ?_, ?_, r3, r4, r5⟩
    · intro s
      rw [r1 s]
      by_cases hsig : s = sig
      · subst hsig
        simp only [World.setSignal, if_true, Signal.onSlotsObjectDestroyed,
          SlotMap.eraseLoop_eq_filter, List.filter_filter]
        apply List.filter_congr
        intro e _
        by_cases he : e.1 = handle <;> simp [he]
      · simp only [World.setSignal, if_neg hsig]
        apply List.filter_congr
        intro e _
        simp [hsig]
    · intro s
      rw [r2 s]
      by_cases hsig : s = sig
      · subst hsig; simp [World.setSignal, Signal.onSlotsObjectDestroyed]
      · simp [World.setSignal, hsig]

theorem SlotMap.eq_of_mem_of_nodup (m : SlotMap) (h : (SlotMap.keys m).Nodup)
    (k : SlotHandle) (a b : Connection) (ha : (k, a) ∈ m) (hb : (k, b) ∈ m) : a = b :=
  congrArg Prod.snd (List.inj_on_of_nodup_map h ha hb rfl)

theorem Invocation.target_call {Args : Type} (c : Connection) (args : Args) :
    (c.call args).target = c.boundTo := by
  cases c <;> rfl

/-- Destroying an object in a linked state removes from every table the entries bound to the
object and nothing else. -/
theorem World.destroyObject_Linked (w : World) (B : SigId → Nat) (O : ObjId)
    (hl : w.allLive) (hL : w.Linked B) :
    ∃ w1, w.destroyObject O = .ok w1 ∧
      (∀ S, (w1.signal S).m_slots
        = (w.signal S).m_slots.filter fun e => decide (e.2.boundTo ≠ some O)) ∧
      (∀ S, (w1.signal S).m_IdCtr = (w.signal S).m_IdCtr) := by
  obtain ⟨_, _, h3, h4, h5, _⟩ := hL
  obtain ⟨w1, hrun, r1, r2, _, _, _⟩ :=
    World.destroy_loop_spec (w.object O).m_connectedSignals w hl.1
  refine ⟨{ w1 with objectDestroyed := fun i => if i = O then true else w1.objectDestroyed i },
    by simp only [World.destroyObject, hl.2 O, Bool.false_eq_true, if_false, World.destroy, hrun],
    ?_, r2⟩
  intro S
  show (w1.signal S).m_slots = _
  rw [r1 S]
  apply List.filter_congr
  intro e he
  have hiff : (e.1, S) ∈ (w.object O).m_connectedSignals ↔ e.2.boundTo = some O := by
    constructor
    · intro hmem
      obtain ⟨member, hm⟩ := h5 S e.1 O hmem
      have : e.2 = .ClassFuncConnection O member :=
        SlotMap.eq_of_mem_of_nodup _ (h3 S) e.1 _ _ he hm
      rw [this]; rfl
    · intro hb
      obtain ⟨k, c⟩ := e
      cases c with
      | FuncConnection f => simp [Connection.boundTo] at hb
      | ClassFuncConnection o m =>
        simp only [Connection.boundTo, Option.some.injEq] at hb
        subst hb
        exact h4 S k o m he
  simp only [hiff, ne_eq]

/-! ## Sorted tables and the wrapped counter -/

theorem SlotMap.mem_keys_of_find (m : SlotMap) (k : SlotHandle) (c : Connection)
    (h : SlotMap.find k m = some c) : k ∈ SlotMap.keys m := by
  induction m with
  | nil => simp [SlotMap.find] at h
  | cons e rest ih =>
    obtain ⟨k0, v0⟩ := e
    by_cases hk : k0 = k
    · simp [SlotMap.keys, hk]
    · simp only [SlotMap.find, if_neg hk] at h
      simp only [SlotMap.keys, List.map_cons, List.mem_cons]
      exact Or.inr (ih h)

theorem SlotMap.mem_keys_emplace (k : SlotHandle) (v : Connection) (m : SlotMap)
    (a : SlotHandle) (h : a ∈ SlotMap.keys (SlotMap.emplace k v m)) :
    a ∈ SlotMap.keys m ∨ a = k := by
  obtain ⟨e, he, rfl⟩ := List.mem_map.mp h
  rcases SlotMap.mem_emplace k v m e he with h1 | h1
  · exact Or.inl (List.mem_map.mpr ⟨e, h1, rfl⟩)
  · exact Or.inr (congrArg Prod.fst h1)

theorem SlotMap.emplace_sorted (k : SlotHandle) (v : Connection) (m : SlotMap)
    (h : (SlotMap.keys m).Sorted (· < ·)) :
    (SlotMap.keys (SlotMap.emplace k v m)).Sorted (· < ·) := by
  induction m with
  | nil => simp [SlotMap.emplace, SlotMap.keys]
  | cons e rest ih =>
    obtain ⟨k0, v0⟩ := e
    have hcons : (k0 :: SlotMap.keys rest).Sorted (· < ·) := h
    rw [List.sorted_cons] at hcons
    simp only [SlotMap.emplace]
    split_ifs with h1 h2
    · show (k :: k0 :: SlotMap.keys rest).Sorted (· < ·)
      rw [List.sorted_cons]
      refine ⟨?_, h⟩
      intro b hb
      rcases List.mem_cons.mp hb with hb | hb
      · rw [hb]; exact h1
      · exact Nat.lt_trans h1 (hcons.1 b hb)
    · exact h
    · show (k0 :: SlotMap.keys (SlotMap.emplace k v rest)).Sorted (· < ·)
      rw [List.sorted_cons]
      refine ⟨?_, ih hcons.2⟩
      intro b hb
      rcases SlotMap.mem_keys_emplace k v rest b hb with hb | hb
      · exact hcons.1 b hb
      · rw [hb]
        exact Nat.lt_of_le_of_ne (Nat.le_of_not_lt h1) (fun hh => h2 hh.symm)

theorem SlotMap.find_emplace_of_sorted (k1 : SlotHandle) (v : Connection) (m : SlotMap)
    (k : SlotHandle) (c : Connection) (h : (SlotMap.keys m).Sorted (· < ·))
    (hf : SlotMap.find k m = some c) : SlotMap.find k (SlotMap.emplace k1 v m) = some c := by
  induction m with
  | nil => simp [SlotMap.find] at hf
  | cons e rest ih =>
    obtain ⟨k0, v0⟩ := e
    have hcons : (k0 :: SlotMap.keys rest).Sorted (· < ·) := h
    rw [List.sorted_cons] at hcons
    simp only [SlotMap.emplace]
    split_ifs with h1 h2
    · have hmem := SlotMap.mem_keys_of_find _ k c hf
      have hge : k0 ≤ k := by
        rcases List.mem_cons.mp hmem with hm | hm
        · exact Nat.le_of_eq hm.symm
        · exact Nat.le_of_lt (hcons.1 k hm)
      have hne : k1 ≠ k := fun hh => Nat.lt_irrefl _ (Nat.lt_of_lt_of_le (hh ▸ h1) hge)
      rw [SlotMap.find, if_neg hne]
      exact hf
    · exact hf
    · by_cases hk : k0 = k
      · simp only [SlotMap.find, if_pos hk] at hf ⊢; exact hf
      · simp only [SlotMap.find, if_neg hk] at hf ⊢
        exact ih hcons.2 hf

theorem SlotMap.find_emplace_self (k : SlotHandle) (v : Connection) (m : SlotMap)
    (h : k ∉ SlotMap.keys m) : SlotMap.find k (SlotMap.emplace k v m) = some v := by
  induction m with
  | nil => simp [SlotMap.emplace, SlotMap.find]
  | cons e rest ih =>
    obtain ⟨k0, v0⟩ := e
    simp only [SlotMap.keys, List.map_cons, List.mem_cons, not_or] at h
    have hne : k0 ≠ k := fun hh => h.1 hh.symm
    simp only [SlotMap.emplace]
    rw [if_neg h.1]
    split_ifs with h1
    · simp [SlotMap.find]
    · rw [SlotMap.find, if_neg hne]
      exact ih (by simpa [SlotMap.keys] using h.2)

theorem SlotMap.find_eraseLoop_self (k : SlotHandle) (m : SlotMap) :
    SlotMap.find k (SlotMap.eraseLoop k m) = none := by
  induction m with
  | nil => rfl
  | cons e rest ih =>
    obtain ⟨k0, v0⟩ := e
    by_cases hk : k0 = k
    · simp only [SlotMap.eraseLoop, if_pos hk, ih]
    · simp only [SlotMap.eraseLoop, if_neg hk, SlotMap.find, ih]

theorem World.run_cons_ok (op : Op) (ops : List Op) (w w1 : World)
    (h : w.step op = .ok w1) : World.run (op :: ops) w = World.run ops w1 := by
  rw [World.run, h]

theorem World.run_append_ops (ops1 ops2 : List Op) : ∀ w : World,
    World.run (ops1 ++ ops2) w
      = match World.run ops1 w with
        | .ok w1 => World.run ops2 w1
        | .error e => .error e := by
  induction ops1 with
  | nil => intro w; rfl
  | cons op ops ih =>
    intro w
    show World.run (op :: (ops ++ ops2)) w = _
    simp only [World.run]
    cases w.step op with
    | error e => rfl
    | ok w1 => exact ih w1

theorem World.run_snoc (ops : List Op) (op : Op) (w w1 : World)
    (h : World.run ops w = .ok w1) : World.run (ops ++ [op]) w = w1.step op := by
  rw [World.run_append_ops, h]
  simp only [World.run]
  cases w1.step op <;> rfl

theorem SlotMap.find_emplace_ne (k1 : SlotHandle) (v : Connection) (m : SlotMap)
    (k : SlotHandle) (h : k ≠ k1) : SlotMap.find k (SlotMap.emplace k1 v m) = SlotMap.find k m := by
  induction m with
  | nil => simp [SlotMap.emplace, SlotMap.find, Ne.symm h]
  | cons e rest ih =>
    obtain ⟨k0, v0⟩ := e
    simp only [SlotMap.emplace]
    split_ifs with h1 h2
    · rw [SlotMap.find, if_neg (Ne.symm h)]
    · rfl
    · by_cases hk : k0 = k
      · simp only [SlotMap.find, if_pos hk]
      · simp only [SlotMap.find, if_neg hk]; exact ih

/-- The table of a signal is sorted by handle in every state reached from a sorted one,
whatever the operations and whether or not the counter has wrapped. -/
theorem Signal.run_sorted (ops : List SignalOp) : ∀ s : Signal,
    (SlotMap.keys s.m_slots).Sorted (· < ·) →
    (SlotMap.keys (Signal.run ops s).m_slots).Sorted (· < ·) := by
  induction ops with
  | nil => intro s hs; exact hs
  | cons op ops ih =>
    intro s hs
    rw [Signal.run_cons]
    apply ih
    cases op with
    | connect c => exact SlotMap.emplace_sorted _ _ _ hs
    | onSlotsObjectDestroyed h =>
      show (SlotMap.keys (SlotMap.eraseLoop h s.m_slots)).Sorted (· < ·)
      rw [SlotMap.eraseLoop_eq_filter]
      exact SlotMap.keys_filter_sorted _ _ hs

/-! ## Connects that find their handle free -/

theorem SlotMap.emplace_perm (k : SlotHandle) (v : Connection) (m : SlotMap)
    (h : k ∉ SlotMap.keys m) : (SlotMap.emplace k v m).Perm ((k, v) :: m) := by
  induction m with
  | nil => exact List.Perm.refl _
  | cons e rest ih =>
    obtain ⟨k0, v0⟩ := e
    simp only [SlotMap.keys, List.map_cons, List.mem_cons, not_or] at h
    simp only [SlotMap.emplace]
    rw [if_neg h.1]
    split_ifs with h1
    · exact List.Perm.refl _
    · exact ((ih (by simpa [SlotMap.keys] using h.2)).cons (k0, v0)).trans (List.Perm.swap _ _ _)

theorem SlotMap.mem_emplace_of_mem (k : SlotHandle) (v : Connection) (m : SlotMap)
    (e : SlotHandle × Connection) (h : e ∈ m) : e ∈ SlotMap.emplace k v m := by
  induction m with
  | nil => cases h
  | cons e0 rest ih =>
    obtain ⟨k0, v0⟩ := e0
    simp only [SlotMap.emplace]
    split_ifs
    · exact List.mem_cons_of_mem _ h
    · exact h
    · rcases List.mem_cons.mp h with h | h
      · exact h ▸ List.mem_cons_self _ _
      · exact List.mem_cons_of_mem _ (ih h)

/-- While every connect finds its handle free, the table holds the connections of the log. -/
theorem Signal.run_perm (ops : List SignalOp) :
    ∀ (s : Signal) (live : List (SlotHandle × Connection)),
    s.m_slots.Perm live → handlesFree ops s = true →
    (Signal.run ops s).m_slots.Perm (connectedNotRemoved ops s live) := by
  induction ops with
  | nil => intro s live h _; exact h
  | cons op ops ih =>
    intro s live h hf
    cases op with
    | connect c =>
      simp only [handlesFree, Bool.and_eq_true, decide_eq_true_eq] at hf
      rw [Signal.run_cons, connectedNotRemoved]
      apply ih _ _ _ hf.2
      show (SlotMap.emplace s.m_IdCtr c s.m_slots).Perm (live ++ [(s.m_IdCtr, c)])
      exact (SlotMap.emplace_perm _ c _ hf.1).trans
        ((h.cons _).trans (List.perm_append_singleton _ _).symm)
    | onSlotsObjectDestroyed handle =>
      simp only [handlesFree] at hf
      rw [Signal.run_cons, connectedNotRemoved]
      apply ih _ _ _ hf
      show (SlotMap.eraseLoop handle s.m_slots).Perm _
      rw [SlotMap.eraseLoop_eq_filter]
      exact h.filter _

/-- Before the counter wraps every connect finds its handle free. -/
theorem handlesFree_of_bound (ops : List SignalOp) : ∀ (s : Signal) (B : Nat),
    s.m_IdCtr = B % (SIZE_MAX + 1) → (∀ k ∈ SlotMap.keys s.m_slots, k < B) →
    B + numConnects ops ≤ SIZE_MAX + 1 → handlesFree ops s = true := by
  induction ops with
  | nil => intro s B _ _ _; rfl
  | cons op ops ih =>
    intro s B hc hk hB
    cases op with
    | connect c =>
      rw [numConnects_connect] at hB
      have hctr : s.m_IdCtr = B := by rw [hc]; exact Nat.mod_eq_of_lt (by omega)
      simp only [handlesFree, Bool.and_eq_true, decide_eq_true_eq]
      refine ⟨fun hmem => Nat.lt_irrefl _ (hctr ▸ hk _ hmem), ?_⟩
      apply ih _ (B + 1)
      · show incr s.m_IdCtr = _
        rw [hctr, incr]
      · intro k hkm
        rcases SlotMap.mem_keys_emplace _ _ _ k hkm with h1 | h1
        · exact Nat.lt_succ_of_lt (hk k h1)
        · rw [h1, hctr]; exact Nat.lt_succ_self _
      · omega
    | onSlotsObjectDestroyed handle =>
      rw [numConnects_remove] at hB
      simp only [handlesFree]
      refine ih (s.step (.onSlotsObjectDestroyed handle)) B hc ?_ hB
      intro k hkm
      have : (s.step (.onSlotsObjectDestroyed handle)).m_slots
          = s.m_slots.filter fun e => decide (e.1 ≠ handle) :=
        SlotMap.eraseLoop_eq_filter handle s.m_slots
      rw [this] at hkm
      exact hk k (SlotMap.mem_keys_filter _ _ k hkm)

theorem SlotMap.length_emplace_free (k : SlotHandle) (v : Connection) (m : SlotMap)
    (h : k ∉ SlotMap.keys m) : (SlotMap.emplace k v m).length = m.length + 1 := by
  rw [(SlotMap.emplace_perm k v m h).length_eq, List.length_cons]

/-! ## Capacity of the tables, and rounds of connect and destroy -/

theorem SlotMap.length_emplace (k : SlotHandle) (v : Connection) (m : SlotMap) :
    m.length ≤ (SlotMap.emplace k v m).length ∧
    (SlotMap.emplace k v m).length ≤ m.length + 1 := by
  induction m with
  | nil => simp [SlotMap.emplace]
  | cons e rest ih =>
    obtain ⟨k0, v0⟩ := e
    simp only [SlotMap.emplace]
    split_ifs
    · simp
    · simp
    · simpa using ih

/-- A `connect(closure)` or `connect(object, member)` call on a state without destroyed
parties succeeds, destroys nothing and shrinks no table. -/
theorem World.step_basic_length (w : World) (op : Op) (hl : w.allLive)
    (hop : op.basic = true) :
    ∃ w1, w.step op = .ok w1 ∧ w1.allLive ∧
      ∀ s, (w.signal s).m_slots.length ≤ (w1.signal s).m_slots.length ∧
        (w1.signal s).m_slots.length ≤ (w.signal s).m_slots.length + 1 := by
  have key : ∀ (w0 : World) (s : SigId) (c : Connection), (∀ t, w0.signal t = w.signal t) →
      ∀ t, (w.signal t).m_slots.length ≤ ((w0.connected s c).signal t).m_slots.length ∧
        ((w0.connected s c).signal t).m_slots.length ≤ (w.signal t).m_slots.length + 1 := by
    intro w0 s c h0 t
    rw [World.connected_signal]
    split_ifs with ht
    · subst ht
      rw [h0 t]
      exact SlotMap.length_emplace _ _ _
    · rw [h0 t]
      exact ⟨Nat.le_refl _, Nat.le_succ _⟩
  cases op with
  | connect s func =>
    exact ⟨_, World.connect_eq w s func (hl.1 s), World.connected_allLive _ _ _ hl,
      key w s _ (fun _ => rfl)⟩
  | connect_Object s object member =>
    exact ⟨_, World.connect_Object_eq w s object member (hl.1 s) (hl.2 object),
      World.connected_allLive _ _ _ (World.recorded_allLive _ _ _ _ hl),
      key _ s _ (fun _ => rfl)⟩
  | connect_FuncConnection s connection => cases hop
  | connect_ClassFuncConnection s obj member sig handle => cases hop
  | destroySignal s => cases hop
  | destroyObject o => cases hop

theorem World.run_basic_length (ops : List Op) : ∀ w : World, w.allLive →
    ops.all Op.basic = true →
    ∃ w1, World.run ops w = .ok w1 ∧ w1.allLive ∧
      ∀ s, (w.signal s).m_slots.length ≤ (w1.signal s).m_slots.length ∧
        (w1.signal s).m_slots.length ≤ (w.signal s).m_slots.length + ops.length := by
  induction ops with
  | nil => intro w hl _; exact ⟨w, rfl, hl, fun _ => ⟨Nat.le_refl _, Nat.le_refl _⟩⟩
  | cons op ops ih =>
    intro w hl hall
    rw [List.all_cons, Bool.and_eq_true] at hall
    obtain ⟨w1, hstep, hl1, hlen1⟩ := World.step_basic_length w op hl hall.1
    obtain ⟨w2, hrun, hl2, hlen2⟩ := ih w1 hl1 hall.2
    refine ⟨w2, by rw [World.run_cons_ok op ops w w1 hstep, hrun], hl2, fun s => ?_⟩
    have h1 := hlen1 s
    have h2 := hlen2 s
    rw [List.length_cons]
    omega

/-- Before the counter wraps a connect makes the table of its signal one entry longer. -/
theorem World.step_basic_length_eq (w : World) (B : SigId → Nat) (op : Op)
    (hl : w.allLive) (hL : w.Linked B) (hop : op.basic = true)
    (hB : ∀ s, B s + connectsOn s [op] ≤ SIZE_MAX + 1) (w1 : World)
    (hstep : w.step op = .ok w1) :
    ∀ s, (w1.signal s).m_slots.length = (w.signal s).m_slots.length + connectsOn s [op] := by
  have key : ∀ (w0 : World) (s : SigId) (c : Connection), (∀ t, w0.signal t = w.signal t) →
      B s + 1 ≤ SIZE_MAX + 1 →
      ∀ t, ((w0.connected s c).signal t).m_slots.length
        = (w.signal t).m_slots.length + if s = t then 1 else 0 := by
    intro w0 s c h0 hBs t
    by_cases ht : s = t
    · subst ht
      have h1 : (w0.signal s).m_IdCtr = B s % (SIZE_MAX + 1) := by rw [h0 s]; exact hL.1 s
      have h2 : ∀ k ∈ SlotMap.keys (w0.signal s).m_slots, k < B s := by
        rw [h0 s]; exact hL.2.1 s
      obtain ⟨_, e1, _⟩ := World.connected_slots w0 s c (B s) h1 (by omega) h2
      rw [e1, if_pos rfl, List.length_append, h0 s]; rfl
    · rw [World.connected_signal, if_neg (Ne.symm ht), if_neg ht, h0 t]; rfl
  cases op with
  | connect s func =>
    rw [World.step, World.connect_eq w s func (hl.1 s)] at hstep
    cases hstep
    intro t
    rw [connectsOn_connect]
    exact key w s _ (fun _ => rfl)
      (by have := hB s; rw [connectsOn_connect, if_pos rfl] at this; exact this) t
  | connect_Object s object member =>
    rw [World.step, World.connect_Object_eq w s object member (hl.1 s) (hl.2 object)] at hstep
    cases hstep
    intro t
    rw [connectsOn_connect_Object]
    exact key _ s _ (fun _ => rfl)
      (by have := hB s; rw [connectsOn_connect_Object, if_pos rfl] at this; exact this) t
  | connect_FuncConnection s connection => cases hop
  | connect_ClassFuncConnection s obj member sig handle => cases hop
  | destroySignal s => cases hop
  | destroyObject o => cases hop

/-- A run of `connect(closure)` and `connect(object, member)` calls whose tables stay within
the capacity of a `std::map` keeps tables and back-reference lists linked: without removals
every connect leaves an entry, so no counter has wrapped. -/
theorem World.run_basic_fit (ops : List Op) : ∀ (w : World) (B : SigId → Nat),
    w.allLive → w.Linked B → (∀ s, (w.signal s).m_slots.length + 1 = B s) →
    ops.all Op.basic = true → ∀ w1, World.run ops w = .ok w1 →
    (∀ s, (w1.signal s).m_slots.length < SIZE_MAX) →
    w1.allLive ∧ ∃ B1, w1.Linked B1 := by
  induction ops with
  | nil =>
    intro w B hl hL _ _ w1 hrun _
    cases hrun
    exact ⟨hl, B, hL⟩
  | cons op ops ih =>
    intro w B hl hL hlen hall w1 hrun hfit
    rw [List.all_cons, Bool.and_eq_true] at hall
    obtain ⟨wm, hstep, hlm, hmono⟩ := World.step_basic_length w op hl hall.1
    rw [World.run_cons_ok op ops w wm hstep] at hrun
    obtain ⟨w2, hrun2, _, hmono2⟩ := World.run_basic_length ops wm hlm hall.2
    rw [hrun] at hrun2
    cases hrun2
    have hB : ∀ s, B s + connectsOn s [op] ≤ SIZE_MAX + 1 := by
      intro s
      have h1 := (hmono s).1
      have h2 := (hmono2 s).1
      have h3 := hfit s
      have h4 := hlen s
      have h5 := connectsOn_le_length s [op]
      simp only [List.length_singleton] at h5
      omega
    obtain ⟨wm1, hstep1, _, hLm⟩ := World.step_basic_Linked w B op hl hL hall.1 hB
    rw [hstep] at hstep1
    cases hstep1
    have hlenm := World.step_basic_length_eq w B op hl hL hall.1 hB wm hstep
    exact ih wm _ hlm hLm (fun s => by rw [hlenm s]; have := hlen s; omega) hall.2 w1 hrun hfit

/-- One round of `wchurn`: the table of the signal is as before, its counter has advanced,
and only the object of the round has changed. -/
theorem World.run_wchurn_round (w : World) (s : SigId) (m : MemberId) (o : ObjId)
    (T : SlotMap) (c : SlotHandle)
    (hs : w.signalDestroyed s = false) (hsig : w.signal s = { m_slots := T, m_IdCtr := c })
    (hfree : c ∉ SlotMap.keys T)
    (ho : w.objectDestroyed o = false) (hb : (w.object o).m_connectedSignals = []) :
    ∃ w1, World.run [Op.connect_Object s o m, Op.destroyObject o] w = .ok w1 ∧
      w1.signal s = { m_slots := T, m_IdCtr := incr c } ∧
      w1.signalDestroyed = w.signalDestroyed ∧
      (∀ j, j ≠ o → w1.object j = w.object j ∧ w1.objectDestroyed j = w.objectDestroyed j) := by
  have hctr : (w.signal s).m_IdCtr = c := by rw [hsig]
  let wa := (w.recorded o c s).connected s (.ClassFuncConnection o m)
  have hstep1 : w.step (Op.connect_Object s o m) = .ok wa := by
    have := World.connect_Object_eq w s o m hs ho
    rw [hctr] at this
    exact this
  have hbacks : (wa.object o).m_connectedSignals = [(c, s)] := by
    show ((w.recorded o c s).object o).m_connectedSignals = _
    rw [World.recorded_backrefs, if_pos rfl, hb]; rfl
  have hloop : wa.destroy_loop [(c, s)]
      = .ok (wa.setSignal s ((wa.signal s).onSlotsObjectDestroyed c)) := by
    have hsa : wa.signalDestroyed s = false := hs
    simp only [World.destroy_loop, hsa, Bool.false_eq_true, if_false]
  have hstep2 : ∃ wb, wa.step (Op.destroyObject o) = .ok wb ∧
      wb.signal = (wa.setSignal s ((wa.signal s).onSlotsObjectDestroyed c)).signal ∧
      wb.signalDestroyed = wa.signalDestroyed ∧ wb.object = wa.object ∧
      wb.objectDestroyed = fun i => if i = o then true else wa.objectDestroyed i := by
    have hoa : wa.objectDestroyed o = false := ho
    refine ⟨World.mk (wa.setSignal s ((wa.signal s).onSlotsObjectDestroyed c)).signal
      wa.signalDestroyed wa.object (fun i => if i = o then true else wa.objectDestroyed i),
      ?_, rfl, rfl, rfl, rfl⟩
    simp only [World.step, World.destroyObject, hoa, Bool.false_eq_true, if_false,
      World.destroy, hbacks, hloop]
    rfl
  obtain ⟨wb, hsb, e1, e2, e3, e4⟩ := hstep2
  refine ⟨wb, by rw [World.run_cons_ok _ _ w wa hstep1, World.run_cons_ok _ _ wa wb hsb]; rfl,
    ?_, e2, ?_⟩
  · rw [e1]
    show (if s = s then (wa.signal s).onSlotsObjectDestroyed c else wa.signal s) = _
    rw [if_pos rfl]
    show Signal.onSlotsObjectDestroyed ((w.connected s (.ClassFuncConnection o m)).signal s) c = _
    rw [World.connected_signal, if_pos rfl, hsig]
    simp only [Signal.onSlotsObjectDestroyed, Signal.emplaceNext,
      SlotMap.eraseLoop_emplace c _ T hfree]
  · intro j hj
    rw [e3, e4]
    constructor
    · show (if j = o then _ else w.object j) = w.object j
      rw [if_neg hj]
    · show (if j = o then true else w.objectDestroyed j) = w.objectDestroyed j
      rw [if_neg hj]

/-- Rounds of connecting a member slot of a fresh object and destroying the object leave the
table of the signal as it was and advance its counter modulo `2 ^ 64`. -/
theorem World.run_wchurn (s : SigId) (m : MemberId) (T : SlotMap) (n : Nat) :
    ∀ (w : World) (base : ObjId) (c : Nat), c < 18446744073709551616 →
    w.signalDestroyed s = false → w.signal s = { m_slots := T, m_IdCtr := c } →
    (∀ i, i < n → (c + i) % 18446744073709551616 ∉ SlotMap.keys T) →
    (∀ o, base ≤ o → w.objectDestroyed o = false ∧ (w.object o).m_connectedSignals = []) →
    ∃ w1, World.run (wchurn s m base n) w = .ok w1 ∧
      w1.signal s = { m_slots := T, m_IdCtr := (c + n) % 18446744073709551616 } ∧
      w1.signalDestroyed = w.signalDestroyed ∧
      (∀ j, j < base → w1.object j = w.object j ∧ w1.objectDestroyed j = w.objectDestroyed j) := by
  induction n with
  | zero =>
    intro w base c hc hs hsig _ _
    refine ⟨w, rfl, ?_, rfl, fun _ _ => ⟨rfl, rfl⟩⟩
    rw [hsig, Nat.add_zero, Nat.mod_eq_of_lt hc]
  | succ n ih =>
    intro w base c hc hs hsig hfree hobj
    have h0 : c ∉ SlotMap.keys T := by
      have := hfree 0 (Nat.succ_pos n)
      rwa [Nat.add_zero, Nat.mod_eq_of_lt hc] at this
    obtain ⟨wr, hround, hsigr, hsdr, hothers⟩ := World.run_wchurn_round w s m base T c hs hsig h0
      (hobj base (Nat.le_refl _)).1 (hobj base (Nat.le_refl _)).2
    have hshift : ∀ i, ((c + 1) % 18446744073709551616 + i) % 18446744073709551616
          = (c + (i + 1)) % 18446744073709551616 := by intro i; omega
    rw [incr_eq] at hsigr
    obtain ⟨w1, hrun, r1, r2, r3⟩ := ih wr (base + 1) ((c + 1) % 18446744073709551616)
      (Nat.mod_lt _ (by norm_num)) (by rw [hsdr]; exact hs) hsigr
      (fun i hi => by rw [hshift]; exact hfree (i + 1) (by omega))
      (fun o ho => by
        have hne : o ≠ base := Nat.ne_of_gt ho
        rw [(hothers o hne).1, (hothers o hne).2]
        exact hobj o (Nat.le_of_succ_le ho))
    refine ⟨w1, ?_, ?_, by rw [r2, hsdr], ?_⟩
    · show World.run ([Op.connect_Object s base m, Op.destroyObject base]
        ++ wchurn s m (base + 1) n) w = _
      rw [World.run_append_ops, hround]
      exact hrun
    · rw [r1, hshift]
    · intro j hj
      have hne : j ≠ base := Nat.ne_of_lt hj
      rw [(r3 j (Nat.lt_succ_of_lt hj)).1, (r3 j (Nat.lt_succ_of_lt hj)).2]
      exact hothers j hne

/-- State after closure `10` was connected to signal `0` and `SIZE_MAX` rounds of connecting
and destroying a tracked object followed: the counter is `1` again, key `1` is taken. -/
theorem World.run_wchurn_wrapped :
    ∃ w, World.run (Op.connect 0 10 :: wchurn 0 0 1 SIZE_MAX) World.new = .ok w ∧
      w.signal 0 = { m_slots := [(1, .FuncConnection 10)], m_IdCtr := 1 } ∧
      w.signalDestroyed 0 = false ∧ w.objectDestroyed 0 = false ∧
      (w.object 0).m_connectedSignals = [] := by
  obtain ⟨w, hrun, h1, h2, h3⟩ := World.run_wchurn 0 0 [(1, .FuncConnection 10)] SIZE_MAX
    (World.new.connected 0 (.FuncConnection 10)) 1 2 (by norm_num) rfl (by decide)
    (by
      intro i hi
      rw [SIZE_MAX_eq] at hi
      simp only [SlotMap.keys, List.map_cons, List.map_nil, List.mem_singleton]
      omega)
    (fun o _ => ⟨rfl, rfl⟩)
  refine ⟨w, ?_, ?_, by rw [h2]; rfl, by rw [(h3 0 (by norm_num)).2]; rfl,
    by rw [(h3 0 (by norm_num)).1]; rfl⟩
  · rw [World.run_cons_ok (Op.connect 0 10) _ World.new _ (World.connect_eq World.new 0 10 rfl)]
    exact hrun
  · rw [h1, SIZE_MAX_eq]

/-! ## Removal, emission with reacting slots, destroy calls, property search -/

/-- The erase loop for `h` leaves the lookup of every other key as it was. -/
theorem SlotMap.find_eraseLoop_ne (h k : SlotHandle) (m : SlotMap) (hk : k ≠ h) :
    SlotMap.find k (SlotMap.eraseLoop h m) = SlotMap.find k m := by
  induction m with
  | nil => rfl
  | cons e rest ih =>
    obtain ⟨k0, v0⟩ := e
    by_cases h0 : k0 = h
    · have hne : k0 ≠ k := fun hh => hk (hh ▸ h0)
      simp only [SlotMap.eraseLoop, if_pos h0, SlotMap.find, if_neg hne, ih]
    · by_cases h1 : k0 = k
      · simp only [SlotMap.eraseLoop, if_neg h0, SlotMap.find, if_pos h1]
      · simp only [SlotMap.eraseLoop, if_neg h0, SlotMap.find, if_neg h1, ih]

/-- The erase loop for a key that is not in the table returns the table. -/
theorem SlotMap.eraseLoop_of_not_mem (h : SlotHandle) (m : SlotMap)
    (hm : h ∉ SlotMap.keys m) : SlotMap.eraseLoop h m = m := by
  rw [SlotMap.eraseLoop_eq_filter]
  apply List.filter_eq_self.mpr
  intro a ha
  have : a.1 ≠ h := fun hh => hm (List.mem_map.mpr ⟨a, ha, hh⟩)
  simpa using this

/-- After the erase loop for `h` no entry has key `h`. -/
theorem SlotMap.not_mem_keys_eraseLoop (h : SlotHandle) (m : SlotMap) :
    h ∉ SlotMap.keys (SlotMap.eraseLoop h m) := by
  rw [SlotMap.eraseLoop_eq_filter]
  intro hmem
  obtain ⟨a, ha, hh⟩ := List.mem_map.mp hmem
  have := (List.mem_filter.mp ha).2
  simp only [ne_eq, decide_not, Bool.not_eq_true', decide_eq_false_iff_not] at this
  exact this hh

/-- With no element satisfying the predicate `find_if` returns `last`. -/
theorem find_if_of_none {α : Type} (p : α → Bool) (xs : List α)
    (h : ∀ x ∈ xs, p x = false) : find_if p xs = xs.length := by
  induction xs with
  | nil => rfl
  | cons x rest ih =>
    have hx : p x = false := h x (List.mem_cons_self _ _)
    simp only [find_if, hx, Bool.false_eq_true, if_false, List.length_cons]
    rw [ih (fun y hy => h y (List.mem_cons_of_mem _ hy))]

/-- With no back-reference carrying the handle, `remove_if` returns `end()` and
`onSignalDisconnected` erases `end()`. -/
theorem SignalObject.onSignalDisconnected_of_no_match (o : SignalObject) (handle : SlotHandle)
    (h : ∀ e ∈ o.m_connectedSignals, e.1 ≠ handle) :
    o.onSignalDisconnected handle = none := by
  have hf : find_if (fun element : SlotHandle × SigId => decide (element.1 = handle))
      o.m_connectedSignals = o.m_connectedSignals.length :=
    find_if_of_none _ _ (fun e he => by simpa using h e he)
  simp [SignalObject.onSignalDisconnected, remove_if, hf, vector_erase]

/-- The loop of the destructor over a table of closures changes nothing and calls no
`onSignalDisconnected`. -/
theorem World.destroySignal_loop_closures (m : SlotMap) (w : World)
    (hall : ∀ e ∈ m, e.2.boundTo = none) :
    w.destroySignal_loop m = .ok w ∧ World.destroySignal_calls m = [] := by
  induction m with
  | nil => exact ⟨rfl, rfl⟩
  | cons e rest ih =>
    obtain ⟨k, c⟩ := e
    have hc := hall (k, c) (List.mem_cons_self _ _)
    obtain ⟨ih1, ih2⟩ := ih (fun e he => hall e (List.mem_cons_of_mem _ he))
    cases c with
    | FuncConnection f =>
      exact ⟨by simp only [World.destroySignal_loop, Connection.onDestroy, ih1],
        by simp only [World.destroySignal_calls, Connection.onDestroy_calls, ih2,
          List.nil_append]⟩
    | ClassFuncConnection o m => simp [Connection.boundTo] at hc

/-- Lookup of a key at its entry in a table with distinct keys. -/
theorem SlotMap.find_of_split (pre post : SlotMap) (k : SlotHandle) (c : Connection)
    (h : (SlotMap.keys (pre ++ (k, c) :: post)).Nodup) :
    SlotMap.find k (pre ++ (k, c) :: post) = some c := by
  induction pre with
  | nil => simp [SlotMap.find]
  | cons e rest ih =>
    obtain ⟨k0, v0⟩ := e
    have hcons : (k0 :: SlotMap.keys (rest ++ (k, c) :: post)).Nodup := h
    rw [List.nodup_cons] at hcons
    have hne : k0 ≠ k := by
      intro hh
      apply hcons.1
      rw [hh]
      exact List.mem_map.mpr ⟨(k, c), by simp, rfl⟩
    show SlotMap.find k ((k0, v0) :: (rest ++ (k, c) :: post)) = some c
    rw [SlotMap.find, if_neg hne]
    exact ih hcons.2

/-- In a sorted table the key after `k` is the first key behind the entry of `k`. -/
theorem SlotMap.successor_of_split (pre post : SlotMap) (k : SlotHandle) (c : Connection)
    (h : (SlotMap.keys (pre ++ (k, c) :: post)).Sorted (· < ·)) :
    SlotMap.successor k (pre ++ (k, c) :: post) = SlotMap.first post := by
  induction pre with
  | nil =>
    have hcons : (k :: SlotMap.keys post).Sorted (· < ·) := h
    rw [List.sorted_cons] at hcons
    show SlotMap.successor k ((k, c) :: post) = _
    rw [SlotMap.successor, if_neg (Nat.lt_irrefl k)]
    cases post with
    | nil => rfl
    | cons e1 post1 =>
      obtain ⟨k1, v1⟩ := e1
      have hlt : k < k1 := hcons.1 k1 (by simp [SlotMap.keys])
      rw [SlotMap.successor, if_pos hlt]
      rfl
  | cons e rest ih =>
    obtain ⟨k0, v0⟩ := e
    have hcons : (k0 :: SlotMap.keys (rest ++ (k, c) :: post)).Sorted (· < ·) := h
    rw [List.sorted_cons] at hcons
    have hlt : k0 < k := hcons.1 k (List.mem_map.mpr ⟨(k, c), by simp, rfl⟩)
    show SlotMap.successor k ((k0, v0) :: (rest ++ (k, c) :: post)) = _
    rw [SlotMap.successor, if_neg (Nat.lt_asymm hlt)]
    exact ih hcons.2

/-- At `end()` the loop of `emit` is done, whatever fuel is left. -/
theorem Signal.emitLoop_end {Args : Type} (react : Connection → SlotReaction) (args : Args)
    (fuel : Nat) (s : Signal) (trace : List (Invocation Args)) :
    Signal.emitLoop react args fuel s none trace = .completed s trace := by
  cases fuel <;> rfl

/-- With slots that leave the signal alone the loop of `emit` walks the table once, up to the
first invocation that throws, and the signal is as before. -/
theorem Signal.emitLoop_quiet {Args : Type} (react : Connection → SlotReaction) (args : Args)
    (s : Signal) (hquiet : ∀ c, (react c).ops = [])
    (hmap : (SlotMap.keys s.m_slots).Sorted (· < ·)) (rest : SlotMap) :
    ∀ (pre : SlotMap) (fuel : Nat) (trace : List (Invocation Args)),
    s.m_slots = pre ++ rest → rest.length ≤ fuel →
    Signal.emitLoop react args fuel s (SlotMap.first rest) trace
      = if (emitUntilThrow react args rest).2
        then .threw s (trace ++ (emitUntilThrow react args rest).1)
        else .completed s (trace ++ (emitUntilThrow react args rest).1) := by
  induction rest with
  | nil =>
    intro pre fuel trace _ _
    show Signal.emitLoop react args fuel s none trace = _
    rw [Signal.emitLoop_end]
    simp [emitUntilThrow]
  | cons e rest1 ih =>
    intro pre fuel trace hsplit hfuel
    obtain ⟨k, c⟩ := e
    cases fuel with
    | zero => simp at hfuel
    | succ f =>
      have hfind : SlotMap.find k s.m_slots = some c := by
        rw [hsplit]; exact SlotMap.find_of_split pre rest1 k c (hsplit ▸ hmap.nodup)
      have hsucc : SlotMap.successor k s.m_slots = SlotMap.first rest1 := by
        rw [hsplit]; exact SlotMap.successor_of_split pre rest1 k c (hsplit ▸ hmap)
      have hrun : Signal.run (react c).ops s = s := by rw [hquiet c]; rfl
      show Signal.emitLoop react args (f + 1) s (some k) trace = _
      rw [Signal.emitLoop]
      simp only [hfind, hrun]
      by_cases hthrow : (react c).throws = true
      · simp [emitUntilThrow, hthrow]
      · have hnot : SignalOp.onSlotsObjectDestroyed k ∉ (react c).ops := by
          rw [hquiet c]; simp
        rw [if_neg hthrow, if_neg hnot, hsucc,
          ih (pre ++ [(k, c)]) f (trace ++ [c.call args]) (by rw [hsplit]; simp)
            (Nat.le_of_succ_le_succ hfuel)]
        simp [emitUntilThrow, hthrow]

/-- With no throwing slot every entry is invoked, in table order. -/
theorem emitUntilThrow_of_no_throw {Args : Type} (react : Connection → SlotReaction)
    (args : Args) (m : SlotMap) (h : ∀ c, (react c).throws = false) :
    emitUntilThrow react args m = (m.map (fun e => e.2.call args), false) := by
  induction m with
  | nil => rfl
  | cons e rest ih =>
    obtain ⟨k, c⟩ := e
    simp [emitUntilThrow, h c, ih]

/-- Every call recorded for the loop of `SignalObject::destroy` is a call of
`onSlotsObjectDestroyed`. -/
theorem World.destroy_loop_trace_events (l : List (SlotHandle × SigId)) :
    ∀ (w : World) (ev : DestroyEvent × World), ev ∈ w.destroy_loop_trace l →
      ∃ s h, ev.1 = DestroyEvent.onSlotsObjectDestroyed s h := by
  induction l with
  | nil => intro w ev h; cases h
  | cons x rest ih =>
    obtain ⟨handle, signal⟩ := x
    intro w ev h
    simp only [World.destroy_loop_trace, List.mem_cons] at h
    rcases h with h | h
    · exact ⟨signal, handle, by rw [h]⟩
    · by_cases hd : w.signalDestroyed signal = true
      · rw [if_pos hd] at h; cases h
      · rw [if_neg hd] at h; exact ih _ ev h

/-- The loop of `SignalObject::destroy` does not fire the notification. -/
theorem World.destroy_loop_trace_count (l : List (SlotHandle × SigId)) (w : World) (o : ObjId) :
    ((w.destroy_loop_trace l).map Prod.fst).count (DestroyEvent.sigDestroy o) = 0 := by
  rw [List.count_eq_zero]
  intro hmem
  obtain ⟨ev, hev, he⟩ := List.mem_map.1 hmem
  obtain ⟨s, h, hsh⟩ := World.destroy_loop_trace_events l w ev hev
  rw [hsh] at he
  cases he

/-- The search `find_if` returns `last` exactly when no element satisfies the predicate. -/
theorem find_if_eq_length {α : Type} (p : α → Bool) (xs : List α) :
    find_if p xs = xs.length ↔ ∀ x ∈ xs, p x = false := by
  induction xs with
  | nil => simp [find_if]
  | cons x rest ih =>
    by_cases hx : p x = true
    · simp [find_if, hx]
    · have hx2 : p x = false := by simpa using hx
      simp [find_if, hx2, ih]

/-- The search `std::find` returns an iterator other than `cend()` exactly when the value is in
the list. -/
theorem std_find_ne_length (xs : List PropId) (value : PropId) :
    std_find xs value ≠ xs.length ↔ value ∈ xs := by
  unfold std_find
  rw [Ne, find_if_eq_length]
  constructor
  · intro h
    by_contra hn
    exact h (fun x hx => by
      simp only [decide_eq_false_iff_not]
      intro hxv
      exact hn (hxv ▸ hx))
  · intro hmem hall
    have := hall value hmem
    simp at this

/-! ## Type stacks, erase-remove, repeated destroy, strings and hex dumps -/

/-- No type is the `Bottom` marker of a stack that has it as its top element: the marker would be nested in itself. -/
theorem CppType.Bottom_ne_head (x : CppType) (rest : List CppType) :
    x ≠ CppType.Bottom (x :: rest) := by
  intro h
  have hs := congrArg sizeOf h
  simp at hs
  omega

/-- The loop of `std::remove_if`: the kept elements of the pending part are written from `first` on, the other positions keep their values. -/
theorem remove_if_loop_spec {α : Type} (p : α → Bool) (pending : List α) :
    ∀ (arr : List α) (first : Nat), first + pending.length < arr.length →
      remove_if_loop p pending arr first =
        (arr.take first ++ pending.filter (fun x => !p x) ++
          arr.drop (first + (pending.filter (fun x => !p x)).length),
         first + (pending.filter (fun x => !p x)).length) := by
  induction pending with
  | nil =>
    intro arr first _
    simp [remove_if_loop]
  | cons x rest ih =>
    intro arr first hlen
    simp only [List.length_cons] at hlen
    by_cases hx : p x = true
    · simp only [remove_if_loop, hx, Bool.not_true, Bool.false_eq_true, if_false,
        List.filter_cons_of_neg, not_false_eq_true]
      exact ih arr first (by omega)
    · have hx2 : p x = false := by simpa using hx
      have hset : (arr.set first x).length = arr.length := List.length_set _ _ _
      simp only [remove_if_loop, hx2, Bool.not_false, if_true]
      rw [ih (arr.set first x) (first + 1) (by rw [hset]; omega)]
      have hfil : List.filter (fun x => !p x) (x :: rest) = x :: List.filter (fun x => !p x) rest := by
        simp [hx2]
      rw [hfil]
      have htake : (arr.set first x).take (first + 1) = arr.take first ++ [x] := by
        have h0 : (arr.set first x).take first = arr.take first := by
          rw [List.set_take]
          exact List.set_eq_of_length_le (by simp)
        rw [List.take_succ, h0]
        simp [List.getElem?_set, show first < arr.length by omega]
      have hdrop : (arr.set first x).drop (first + 1 + (List.filter (fun x => !p x) rest).length)
          = arr.drop (first + 1 + (List.filter (fun x => !p x) rest).length) := by
        rw [List.drop_set, if_pos (by omega)]
      rw [htake, hdrop]
      simp only [List.length_cons, List.append_assoc, List.singleton_append, Prod.mk.injEq]
      constructor
      · congr 2
        congr 1
        omega
      · omega

/-- The search `find_if` returns a position up to `last`. -/
theorem find_if_le_length {α : Type} (p : α → Bool) (xs : List α) :
    find_if p xs ≤ xs.length := by
  induction xs with
  | nil => simp [find_if]
  | cons x rest ih =>
    by_cases hx : p x = true
    · simp [find_if, hx]
    · simp [find_if, hx]; exact ih

/-- The elements that do not satisfy the predicate are those before the first match and those of them behind it. -/
theorem filter_split_at_find_if {α : Type} (p : α → Bool) (xs : List α)
    (h : find_if p xs ≠ xs.length) :
    xs.filter (fun x => !p x)
      = xs.take (find_if p xs) ++ (xs.drop (find_if p xs + 1)).filter (fun x => !p x) := by
  induction xs with
  | nil => simp [find_if] at h
  | cons x rest ih =>
    by_cases hx : p x = true
    · simp [find_if, hx]
    · have hx2 : p x = false := by simpa using hx
      have hr : find_if p rest ≠ rest.length := by
        intro hh
        apply h
        simp [find_if, hx2, hh]
      simp only [find_if, hx2, Bool.false_eq_true, if_false, List.take_succ_cons,
        List.drop_succ_cons, List.cons_append]
      rw [← ih hr]
      simp [hx2]

/-- With an element satisfying the predicate `find_if` does not return `last`. -/
theorem find_if_ne_length_of_match {α : Type} (p : α → Bool) (xs : List α)
    (h : ∃ x ∈ xs, p x = true) : find_if p xs ≠ xs.length := by
  induction xs with
  | nil => obtain ⟨x, hx, _⟩ := h; cases hx
  | cons x rest ih =>
    by_cases hx : p x = true
    · simp [find_if, hx]
    · have hx2 : p x = false := by simpa using hx
      obtain ⟨y, hy, hpy⟩ := h
      have hyr : y ∈ rest := by
        rcases List.mem_cons.1 hy with h1 | h1
        · rw [h1, hx2] at hpy; cases hpy
        · exact h1
      have := ih ⟨y, hyr, hpy⟩
      simp [find_if, hx2, this]

/-- With an element satisfying the predicate fewer elements are kept than there are. -/
theorem length_filter_not_lt {α : Type} (p : α → Bool) (xs : List α)
    (h : ∃ x ∈ xs, p x = true) : (xs.filter (fun x => !p x)).length < xs.length := by
  induction xs with
  | nil => obtain ⟨x, hx, _⟩ := h; cases hx
  | cons x rest ih =>
    by_cases hx : p x = true
    · have := List.length_filter_le (fun x => !p x) rest
      simp [hx]; omega
    · have hx2 : p x = false := by simpa using hx
      obtain ⟨y, hy, hpy⟩ := h
      have hyr : y ∈ rest := by
        rcases List.mem_cons.1 hy with h1 | h1
        · rw [h1, hx2] at hpy; cases hpy
        · exact h1
      have := ih ⟨y, hyr, hpy⟩
      simp [hx2]; omega

/-- The array and the iterator `std::remove_if` returns when some element satisfies the
predicate: the kept elements in their order, followed by the old elements from the returned
position on. -/
theorem remove_if_of_match {α : Type} (p : α → Bool) (xs : List α)
    (h : ∃ x ∈ xs, p x = true) :
    remove_if p xs =
      (xs.filter (fun x => !p x) ++ xs.drop (xs.filter (fun x => !p x)).length,
        (xs.filter (fun x => !p x)).length) := by
  have hne := find_if_ne_length_of_match p xs h
  have hle := find_if_le_length p xs
  have hsplit := filter_split_at_find_if p xs hne
  have hloop := remove_if_loop_spec p (xs.drop (find_if p xs + 1)) xs (find_if p xs)
    (by rw [List.length_drop]; omega)
  have hlen : (xs.filter (fun x => !p x)).length
      = find_if p xs + ((xs.drop (find_if p xs + 1)).filter (fun x => !p x)).length := by
    rw [hsplit, List.length_append, List.length_take]
    omega
  simp only [remove_if, hne, ne_eq, not_false_eq_true, if_true]
  rw [hloop, ← hsplit, ← hlen]

/-- The erase-remove of `onSignalDisconnected` and `unregisterProperty` when some element
satisfies the predicate: the kept elements, followed by the old elements behind the erased
position. -/
theorem vector_erase_remove_if {α : Type} (p : α → Bool) (xs : List α)
    (h : ∃ x ∈ xs, p x = true) :
    vector_erase (remove_if p xs).1 (remove_if p xs).2 =
      some (xs.filter (fun x => !p x) ++ xs.drop ((xs.filter (fun x => !p x)).length + 1)) := by
  have hlt := length_filter_not_lt p xs h
  rw [remove_if_of_match p xs h]
  simp only [vector_erase]
  rw [if_pos (by rw [List.length_append, List.length_drop]; omega)]
  rw [List.eraseIdx_append_of_length_le (Nat.le_refl _)]
  simp only [Nat.sub_self]
  congr 2
  cases hd : xs.drop (xs.filter (fun x => !p x)).length with
  | nil =>
    have := congrArg List.length hd
    rw [List.length_drop] at this
    simp at this
    omega
  | cons y ys =>
    rw [List.eraseIdx_cons_zero]
    have : xs.drop ((xs.filter (fun x => !p x)).length + 1) = (xs.drop (xs.filter (fun x => !p x)).length).drop 1 := by
      rw [List.drop_drop]
    rw [this, hd]; rfl

/-- The elements that satisfy a predicate and those that do not make up the list. -/
theorem length_filter_add_not {α : Type} (p : α → Bool) (xs : List α) :
    (xs.filter p).length + (xs.filter (fun x => !p x)).length = xs.length := by
  induction xs with
  | nil => rfl
  | cons x rest ih =>
    by_cases hx : p x = true
    · simp [hx]; omega
    · have hx2 : p x = false := by simpa using hx
      simp [hx2]; omega

/-- With exactly one element satisfying the predicate the erase-remove gives the list
without that element. -/
theorem vector_erase_remove_if_single {α : Type} (p : α → Bool) (xs : List α)
    (h : (xs.filter p).length = 1) :
    vector_erase (remove_if p xs).1 (remove_if p xs).2 = some (xs.filter (fun x => !p x)) := by
  have hex : ∃ x ∈ xs, p x = true := by
    cases hf : xs.filter p with
    | nil => rw [hf] at h; cases h
    | cons y ys =>
      have hy : y ∈ xs.filter p := by rw [hf]; exact List.mem_cons_self _ _
      exact ⟨y, (List.mem_filter.1 hy).1, (List.mem_filter.1 hy).2⟩
  rw [vector_erase_remove_if p xs hex]
  have hsum := length_filter_add_not p xs
  rw [List.drop_of_length_le (by omega), List.append_nil]

/-- A list whose elements have pairwise distinct keys splits at the element with a given
key; no other element has that key. -/
theorem split_at_key {α : Type} (f : α → Nat) (xs : List α) (v : Nat)
    (hn : (xs.map f).Nodup) (hm : v ∈ xs.map f) :
    ∃ pre e post, xs = pre ++ e :: post ∧ f e = v ∧
      (∀ x ∈ pre, f x ≠ v) ∧ (∀ x ∈ post, f x ≠ v) := by
  obtain ⟨e, he, hfe⟩ := List.mem_map.1 hm
  obtain ⟨pre, post, hsplit⟩ := List.append_of_mem he
  refine ⟨pre, e, post, hsplit, hfe, ?_, ?_⟩
  · intro x hx hxv
    rw [hsplit, List.map_append, List.map_cons] at hn
    have hdis := (List.nodup_append.1 hn).2.2
    exact hdis (List.mem_map.2 ⟨x, hx, rfl⟩) (by rw [hxv, ← hfe]; exact List.mem_cons_self _ _)
  · intro x hx hxv
    rw [hsplit, List.map_append, List.map_cons] at hn
    have hcons := (List.nodup_append.1 hn).2.1
    have hnot := (List.nodup_cons.1 hcons).1
    exact hnot (by rw [hfe, ← hxv]; exact List.mem_map.2 ⟨x, hx, rfl⟩)

/-- The filters on a key of a list split at the only element with that key. -/
theorem filter_key_of_split {α : Type} (f : α → Nat) (pre post : List α) (e : α) (v : Nat)
    (hfe : f e = v) (hpre : ∀ x ∈ pre, f x ≠ v) (hpost : ∀ x ∈ post, f x ≠ v) :
    (pre ++ e :: post).filter (fun x => decide (f x = v)) = [e] ∧
    (pre ++ e :: post).filter (fun x => !decide (f x = v)) = pre ++ post := by
  have h1 : pre.filter (fun x => decide (f x = v)) = [] :=
    List.filter_eq_nil_iff.2 (fun x hx => by simpa using hpre x hx)
  have h2 : post.filter (fun x => decide (f x = v)) = [] :=
    List.filter_eq_nil_iff.2 (fun x hx => by simpa using hpost x hx)
  have h3 : pre.filter (fun x => !decide (f x = v)) = pre :=
    List.filter_eq_self.2 (fun x hx => by simpa using hpre x hx)
  have h4 : post.filter (fun x => !decide (f x = v)) = post :=
    List.filter_eq_self.2 (fun x hx => by simpa using hpost x hx)
  constructor
  · rw [List.filter_append, h1, List.filter_cons_of_pos (by simpa using hfe), h2]; rfl
  · rw [List.filter_append, h3, List.filter_cons_of_neg (by simpa using hfe), h4]

/-- On a duplicate-free list `unregisterProperty` of a registered property removes it and keeps the others in their order. -/
theorem ReflectableObject.unregisterProperty_of_mem (r : ReflectableObject) (prop : PropId)
    (hnodup : r.m_propertyList.Nodup) (hmem : prop ∈ r.m_propertyList) :
    ∃ pre post, r.m_propertyList = pre ++ prop :: post ∧ prop ∉ pre ++ post ∧
      r.unregisterProperty prop = some (ReflectableObject.mk r.m_objectName (pre ++ post)) := by
  obtain ⟨pre, e, post, hsplit, hfe, hpre, hpost⟩ :=
    split_at_key id r.m_propertyList prop (by simpa using hnodup) (by simpa using hmem)
  have hfe2 : e = prop := hfe
  subst hfe2
  obtain ⟨f1, f2⟩ := filter_key_of_split id pre post e e rfl hpre hpost
  have herase := vector_erase_remove_if_single
    (fun x : PropId => decide (x = e)) r.m_propertyList (by rw [hsplit]; exact congrArg _ f1)
  refine ⟨pre, post, hsplit, ?_, ?_⟩
  · intro hx
    rcases List.mem_append.1 hx with h1 | h1
    · exact hpre e h1 rfl
    · exact hpost e h1 rfl
  · simp only [ReflectableObject.unregisterProperty, std_remove, herase, Option.map_some']
    rw [hsplit]
    exact congrArg (fun l => some (ReflectableObject.mk r.m_objectName l)) f2

/-- A property that is not registered yet is appended by `registerProperty`, which throws nothing. -/
theorem ReflectableObject.registerProperty_of_not_mem (r : ReflectableObject) (prop : PropId)
    (h : prop ∉ r.m_propertyList) :
    r.registerProperty prop
      = (ReflectableObject.mk r.m_objectName (r.m_propertyList ++ [prop]), none) := by
  unfold ReflectableObject.registerProperty
  rw [if_neg (fun hh => h ((std_find_ne_length r.m_propertyList prop).1 hh))]

/-- For a registered property `registerProperty` leaves the object as it is. -/
theorem ReflectableObject.registerProperty_of_mem (r : ReflectableObject) (prop : PropId)
    (h : prop ∈ r.m_propertyList) :
    (r.registerProperty prop).1 = r := by
  unfold ReflectableObject.registerProperty
  rw [if_pos ((std_find_ne_length r.m_propertyList prop).2 h)]

/-- Storing the state a signal has changes nothing. -/
theorem World.setSignal_self (w : World) (s : SigId) : w.setSignal s (w.signal s) = w := by
  obtain ⟨sig, sd, ob, od⟩ := w
  simp only [World.setSignal]
  congr 1
  funext i
  by_cases h : i = s
  · rw [if_pos h, h]
  · rw [if_neg h]

/-- The walk of `destroy` over back-references whose signals are alive and whose handles
are in no table of their signal changes nothing. -/
theorem World.destroy_loop_fixed (L : List (SlotHandle × SigId)) (w : World)
    (h : ∀ e ∈ L, w.signalDestroyed e.2 = false ∧ e.1 ∉ SlotMap.keys (w.signal e.2).m_slots) :
    w.destroy_loop L = .ok w := by
  induction L with
  | nil => rfl
  | cons p rest ih =>
    obtain ⟨handle, sig⟩ := p
    obtain ⟨h1, h2⟩ := h (handle, sig) (List.mem_cons_self _ _)
    have hsame : (w.signal sig).onSlotsObjectDestroyed handle = w.signal sig := by
      show ({ (w.signal sig) with m_slots := SlotMap.eraseLoop handle (w.signal sig).m_slots }
        : Signal) = w.signal sig
      rw [SlotMap.eraseLoop_of_not_mem handle _ h2]
    simp only [World.destroy_loop, h1, Bool.false_eq_true, if_false, hsame,
      World.setSignal_self]
    exact ih (fun e he => h e (List.mem_cons_of_mem _ he))

/-- The walk of `destroy` over back-references whose signals are alive: every signal loses
the entries whose handle the list names for it, and nothing else changes. -/
theorem World.destroy_loop_alive (L : List (SlotHandle × SigId)) : ∀ w : World,
    (∀ e ∈ L, w.signalDestroyed e.2 = false) →
    ∃ w1, w.destroy_loop L = .ok w1 ∧
      (∀ s, (w1.signal s).m_slots
        = (w.signal s).m_slots.filter fun e => decide ((e.1, s) ∉ L)) ∧
      (∀ s, (w1.signal s).m_IdCtr = (w.signal s).m_IdCtr) ∧
      w1.object = w.object ∧ w1.signalDestroyed = w.signalDestroyed ∧
      w1.objectDestroyed = w.objectDestroyed := by
  induction L with
  | nil =>
    intro w _
    exact ⟨w, rfl, fun s => by simp, fun _ => rfl, rfl, rfl, rfl⟩
  | cons p rest ih =>
    intro w hs
    obtain ⟨handle, sig⟩ := p
    have hsig : w.signalDestroyed sig = false := hs (handle, sig) (List.mem_cons_self _ _)
    obtain ⟨w1, hrun, r1, r2, r3, r4, r5⟩ :=
      ih (w.setSignal sig ((w.signal sig).onSlotsObjectDestroyed handle))
        (fun e he => hs e (List.mem_cons_of_mem _ he))
    refine ⟨w1, by simp only [World.destroy_loop, hsig, Bool.false_eq_true, if_false, hrun],
      ?_, ?_, r3, r4, r5⟩
    · intro s
      rw [r1 s]
      by_cases hsg : s = sig
      · subst hsg
        simp only [World.setSignal, if_true, Signal.onSlotsObjectDestroyed,
          SlotMap.eraseLoop_eq_filter, List.filter_filter]
        apply List.filter_congr
        intro e _
        by_cases he : e.1 = handle <;> simp [he]
      · simp only [World.setSignal, if_neg hsg]
        apply List.filter_congr
        intro e _
        simp [hsg]
    · intro s
      rw [r2 s]
      by_cases hsg : s = sig
      · subst hsg; simp [World.setSignal, Signal.onSlotsObjectDestroyed]
      · simp [World.setSignal, hsg]

/-- The elements of the list at positions inside the run satisfy the predicate. -/
theorem takeWhile_getElem {α : Type} (p : α → Bool) (l : List α) :
    ∀ k, k < (l.takeWhile p).length → ∃ b, l[k]? = some b ∧ p b = true := by
  induction l with
  | nil => intro k hk; simp at hk
  | cons x rest ih =>
    intro k hk
    by_cases hx : p x = true
    · rw [List.takeWhile_cons_of_pos hx] at hk
      cases k with
      | zero => exact ⟨x, by simp, hx⟩
      | succ k =>
        simp only [List.length_cons] at hk
        obtain ⟨b, hb, hpb⟩ := ih k (by omega)
        exact ⟨b, by simpa using hb, hpb⟩
    · rw [List.takeWhile_cons_of_neg hx] at hk
      simp at hk

/-- The element behind the run, if there is one, does not satisfy the predicate. -/
theorem takeWhile_stop {α : Type} (p : α → Bool) (l : List α)
    (h : (l.takeWhile p).length < l.length) :
    ∃ b, l[(l.takeWhile p).length]? = some b ∧ p b = false := by
  induction l with
  | nil => simp at h
  | cons x rest ih =>
    by_cases hx : p x = true
    · rw [List.takeWhile_cons_of_pos hx] at h ⊢
      simp only [List.length_cons] at h
      obtain ⟨b, hb, hpb⟩ := ih (by omega)
      exact ⟨b, by simpa using hb, hpb⟩
    · rw [List.takeWhile_cons_of_neg hx]
      exact ⟨x, by simp, by simpa using hx⟩

/-- The run is no longer than the list. -/
theorem takeWhile_length_le {α : Type} (p : α → Bool) (l : List α) :
    (l.takeWhile p).length ≤ l.length := by
  induction l with
  | nil => simp
  | cons x rest ih =>
    by_cases hx : p x = true
    · rw [List.takeWhile_cons_of_pos hx]; simp; exact ih
    · rw [List.takeWhile_cons_of_neg hx]; simp

/-- A prefix of the run is a prefix of the list. -/
theorem take_takeWhile_eq {α : Type} (p : α → Bool) (l : List α) (n : Nat)
    (h : n ≤ (l.takeWhile p).length) : (l.takeWhile p).take n = l.take n := by
  conv_rhs => rw [← List.takeWhile_append_dropWhile p l]
  rw [List.take_append_of_le_length h]

/-- The loop of `extractString8` stops behind the run of non-zero bytes, cut to `maxLen`, if that position is in the buffer, and reads outside the buffer otherwise. -/
theorem IBinaryStream.extractString8_loop_spec (s : IBinaryStream) (pos maxLen n : Nat)
    (hn : n = (s.nonZeroRun pos maxLen).length) :
    ∀ (fuel curPos : Nat), pos ≤ curPos → curPos ≤ pos + n →
      s.m_buffer.length + 1 ≤ fuel + curPos → 0 < fuel →
      s.extractString8_loop pos maxLen fuel curPos =
        if pos + n < s.m_buffer.length then .ok (pos + n)
        else .error (.outOfRange ((pos + n : Nat) : Int)) := by
  have hrun : n ≤ ((s.m_buffer.drop pos).takeWhile (fun b => decide (b ≠ 0))).length := by
    rw [hn]; unfold IBinaryStream.nonZeroRun; split
    · exact Nat.le_refl _
    · rw [List.length_take]; exact Nat.min_le_right _ _
  have hmax : maxLen ≠ 0 → n ≤ maxLen := by
    intro hm; rw [hn, IBinaryStream.nonZeroRun, if_neg hm, List.length_take]; exact Nat.min_le_left _ _
  have hexact : n < ((s.m_buffer.drop pos).takeWhile (fun b => decide (b ≠ 0))).length →
      maxLen ≠ 0 ∧ n = maxLen := by
    intro hlt
    by_cases hm : maxLen = 0
    · rw [hn, IBinaryStream.nonZeroRun, if_pos hm] at hlt; exact absurd hlt (Nat.lt_irrefl _)
    · refine ⟨hm, ?_⟩
      rw [hn, IBinaryStream.nonZeroRun, if_neg hm, List.length_take] at hlt ⊢
      omega
  have hrl := takeWhile_length_le (fun b : Byte => decide (b ≠ 0)) (s.m_buffer.drop pos)
  rw [List.length_drop] at hrl
  intro fuel
  induction fuel with
  | zero =>
    intro curPos _ _ _ h4
    exact absurd h4 (Nat.lt_irrefl 0)
  | succ fuel ih =>
    intro curPos h1 h2 h3 _
    rw [IBinaryStream.extractString8_loop]
    by_cases hlt : curPos < pos + n
    · -- a byte of the run: not zero, and within the limit
      obtain ⟨b, hb, hpb⟩ := takeWhile_getElem (fun b : Byte => decide (b ≠ 0))
        (s.m_buffer.drop pos) (curPos - pos) (by omega)
      rw [List.getElem?_drop, show pos + (curPos - pos) = curPos by omega] at hb
      have hb0 : b ≠ 0 := by simpa using hpb
      have hcond : b ≠ 0 ∧ (maxLen = 0 ∨ curPos - pos < maxLen) := by
        refine ⟨hb0, ?_⟩
        by_cases hm : maxLen = 0
        · exact Or.inl hm
        · exact Or.inr (by have := hmax hm; omega)
      simp only [IBinaryStream.constPtr_char, hb]
      rw [if_pos hcond]
      exact ih (curPos + 1) (by omega) (by omega) (by omega) (by omega)
    · have hcur : curPos = pos + n := by omega
      subst hcur
      by_cases hin : pos + n < s.m_buffer.length
      · rw [if_pos hin]
        obtain ⟨b, hb⟩ : ∃ b, s.m_buffer[pos + n]? = some b :=
          ⟨s.m_buffer[pos + n], List.getElem?_eq_getElem hin⟩
        simp only [IBinaryStream.constPtr_char, hb]
        have hcond : ¬ (b ≠ 0 ∧ (maxLen = 0 ∨ pos + n - pos < maxLen)) := by
          rintro ⟨hb0, hor⟩
          by_cases hfull : n < ((s.m_buffer.drop pos).takeWhile
              (fun b => decide (b ≠ 0))).length
          · obtain ⟨hm, hnm⟩ := hexact hfull
            rcases hor with h0 | h0
            · exact hm h0
            · omega
          · have hnl : n = ((s.m_buffer.drop pos).takeWhile
                (fun b => decide (b ≠ 0))).length := by omega
            obtain ⟨c, hc, hpc⟩ := takeWhile_stop (fun b : Byte => decide (b ≠ 0))
              (s.m_buffer.drop pos) (by rw [List.length_drop]; omega)
            rw [← hnl, List.getElem?_drop, hb] at hc
            have hbc : b = c := Option.some.inj hc
            rw [← hbc] at hpc
            simp at hpc
            exact hb0 hpc
        rw [if_neg hcond]
      · rw [if_neg hin]
        have hnone : s.m_buffer[pos + n]? = none := List.getElem?_eq_none (by omega)
        simp only [IBinaryStream.constPtr_char, hnone]

/-- The cut run is no longer than the run of non-zero bytes. -/
theorem IBinaryStream.nonZeroRun_length_le (s : IBinaryStream) (pos maxLen : Nat) :
    (s.nonZeroRun pos maxLen).length
      ≤ ((s.m_buffer.drop pos).takeWhile (fun b => decide (b ≠ 0))).length := by
  unfold IBinaryStream.nonZeroRun
  split
  · exact Nat.le_refl _
  · rw [List.length_take]; exact Nat.min_le_right _ _

/-- The cut run is the prefix of its length of the buffer contents at `pos`. -/
theorem IBinaryStream.nonZeroRun_eq_take (s : IBinaryStream) (pos maxLen : Nat) :
    s.nonZeroRun pos maxLen = (s.m_buffer.drop pos).take (s.nonZeroRun pos maxLen).length := by
  have hle := IBinaryStream.nonZeroRun_length_le s pos maxLen
  rw [← take_takeWhile_eq _ _ _ hle]
  unfold IBinaryStream.nonZeroRun
  split
  · rw [List.take_length]
  · rw [List.length_take, ← List.take_take, List.take_length]

/-- What `extractString8` gives: the run of non-zero bytes at `pos`, cut to `maxLen` when
that is not zero, if the byte behind it is in the buffer; a read outside the buffer
otherwise. -/
theorem IBinaryStream.extractString8_eq (s : IBinaryStream) (pos maxLen : Nat) :
    s.extractString8 pos maxLen =
      if pos + (s.nonZeroRun pos maxLen).length < s.m_buffer.length
      then .ok (s.nonZeroRun pos maxLen)
      else .error (.outOfRange ((pos + (s.nonZeroRun pos maxLen).length : Nat) : Int)) := by
  have hloop := IBinaryStream.extractString8_loop_spec s pos maxLen _ rfl
    (s.m_buffer.length + 1) pos (Nat.le_refl _) (Nat.le_add_right _ _) (by omega) (by omega)
  unfold IBinaryStream.extractString8
  rw [hloop]
  by_cases hin : pos + (s.nonZeroRun pos maxLen).length < s.m_buffer.length
  · simp only [if_pos hin, Nat.add_sub_cancel_left]
    rw [← IBinaryStream.nonZeroRun_eq_take]
  · simp only [if_neg hin]

/-- Values below `2 ^ 31` are unchanged by the conversion to `int`. -/
theorem static_cast_int_of_lt (n : Nat) (h : n < 2 ^ 31) : static_cast_int n = (n : Int) := by
  unfold static_cast_int Int.bmod
  have h1 : ((n : Int) % ((2 ^ 32 : Nat) : Int)) = (n : Int) := by
    apply Int.emod_eq_of_lt
    · exact Int.ofNat_nonneg n
    · norm_num; omega
  simp only [h1]
  rw [if_pos]
  norm_num
  omega

/-- The read `data()[n]` at a position of the buffer. -/
theorem IBinaryStream.data_of_getElem (s : IBinaryStream) (n : Nat) (b : Byte)
    (h : s.m_buffer[n]? = some b) : s.data (n : Int) = .ok b := by
  unfold IBinaryStream.data
  rw [if_pos (Int.ofNat_nonneg n)]
  simp only [Int.toNat_ofNat, h]

/-- The loop that fills the hex part of a short last row writes three blanks per round. -/
theorem hexDump_fill_spec (m : Nat) : ∀ (fuel : Nat) (ss : List Char), m < fuel →
    hexDump_fill fuel ((m : Int) + 1) ss = .ok (ss ++ List.replicate (3 * m) ' ') := by
  induction m with
  | zero =>
    intro fuel ss hf
    cases fuel with
    | zero => exact absurd hf (Nat.lt_irrefl 0)
    | succ f => simp [hexDump_fill]
  | succ m ih =>
    intro fuel ss hf
    cases fuel with
    | zero => exact absurd hf (Nat.not_lt_zero _)
    | succ f =>
      rw [hexDump_fill]
      have hne : ((m + 1 : Nat) : Int) + 1 ≠ 1 := by omega
      rw [if_pos hne]
      have hk : ((m + 1 : Nat) : Int) + 1 - 1 = (m : Int) + 1 := by omega
      rw [hk, ih f _ (by omega)]
      congr 1
      rw [List.append_assoc]
      congr 1

/-- The bytes of a row from byte `k` on start with the byte at `base + k` of the buffer. -/
theorem drop_take_cons (buf : List Byte) (base j k : Nat) (hk : k ≤ j)
    (hin : base + j < buf.length) :
    ∃ b, buf[base + k]? = some b ∧
      ((buf.drop base).take (j + 1)).drop k = b :: ((buf.drop base).take (j + 1)).drop (k + 1) := by
  have hlen : ((buf.drop base).take (j + 1)).length = j + 1 := by
    rw [List.length_take, List.length_drop]; omega
  have hk2 : k < ((buf.drop base).take (j + 1)).length := by omega
  refine ⟨((buf.drop base).take (j + 1))[k], ?_, ?_⟩
  · rw [← List.getElem?_eq_getElem hk2, List.getElem?_take, if_pos (by omega),
      List.getElem?_drop]
  · exact List.drop_eq_getElem_cons hk2

/-- The loop that writes the ASCII column of a row of `j + 1` bytes at `base`. -/
theorem IBinaryStream.hexDump_ascii_spec (s : IBinaryStream) (base j : Nat)
    (lastRound : Bool) (hcond : lastRound = true ∨ j = 15)
    (hin : base + j < s.m_buffer.length) :
    ∀ (m k fuel : Nat) (ss : List Char), k + m = j + 1 → m < fuel →
      s.hexDump_ascii ((base + j : Nat) : Int) (j : Int) lastRound fuel (k : Int) ss
        = .ok (ss ++ (((s.m_buffer.drop base).take (j + 1)).drop k).map hexDump_char) := by
  have hlen : ((s.m_buffer.drop base).take (j + 1)).length = j + 1 := by
    rw [List.length_take, List.length_drop]; omega
  intro m
  induction m with
  | zero =>
    intro k fuel ss hk hf
    cases fuel with
    | zero => exact absurd hf (Nat.lt_irrefl 0)
    | succ f =>
      rw [IBinaryStream.hexDump_ascii]
      have hc : ((lastRound && decide ((k : Int) ≤ (j : Int))) ||
          (!lastRound && decide ((k : Int) < 16))) = false := by
        rcases hcond with h | h
        · have : ¬ ((k : Int) ≤ (j : Int)) := by omega
          simp [h, this]
        · have h1 : ¬ ((k : Int) ≤ (j : Int)) := by omega
          have h2 : ¬ ((k : Int) < 16) := by omega
          simp [h1, h2]
      rw [hc]
      simp only [Bool.false_eq_true, if_false]
      rw [List.drop_of_length_le (by omega)]
      simp
  | succ m ih =>
    intro k fuel ss hk hf
    cases fuel with
    | zero => exact absurd hf (Nat.not_lt_zero _)
    | succ f =>
      rw [IBinaryStream.hexDump_ascii]
      have hc : ((lastRound && decide ((k : Int) ≤ (j : Int))) ||
          (!lastRound && decide ((k : Int) < 16))) = true := by
        have h1 : (k : Int) ≤ (j : Int) := by omega
        cases lastRound with
        | true => simp [h1]
        | false =>
          rcases hcond with h | h
          · cases h
          · have h2 : (k : Int) < 16 := by omega
            simp [h2]
      rw [hc]
      simp only [if_true]
      obtain ⟨b, hb, hdrop⟩ := drop_take_cons s.m_buffer base j k (by omega) hin
      have hidx : ((base + j : Nat) : Int) - (j : Int) + (k : Int) = ((base + k : Nat) : Int) := by
        omega
      rw [hidx, IBinaryStream.data_of_getElem s (base + k) b hb]
      simp only
      have hk1 : (k : Int) + 1 = ((k + 1 : Nat) : Int) := by omega
      rw [hk1, ih (k + 1) f _ (by omega) (by omega), hdrop]
      simp [hexDump_char]

/-- The offset `i - pos` printed at the start of a row. -/
theorem hexDump_offset (pos t : Nat) (h : pos + t < 2 ^ 31) :
    ((((pos + t : Nat) : Int) - (pos : Int)) % 2 ^ 64).toNat = t := by
  have h1 : ((pos + t : Nat) : Int) - (pos : Int) = (t : Int) := by omega
  rw [h1]
  have h2 : (t : Int) % 2 ^ 64 = (t : Int) := by
    apply Int.emod_eq_of_lt (Int.ofNat_nonneg t)
    have : (t : Int) < 2 ^ 31 := by exact_mod_cast (by omega : t < 2 ^ 31)
    calc (t : Int) < 2 ^ 31 := this
      _ < 2 ^ 64 := by norm_num
  rw [h2, Int.toNat_ofNat]

/-- A step of the loop of `hexDump` inside a row. -/
theorem IBinaryStream.hexDump_loop_step (s : IBinaryStream) (pos len t j fuel : Nat)
    (ss : List Char) (b : Byte) (hint : pos + len < 2 ^ 31) (ht : t + 1 < len) (hj : j < 15)
    (hb : s.m_buffer[pos + t]? = some b) :
    s.hexDump_loop pos len (fuel + 1) ((pos + t : Nat) : Int) (j : Int) ss =
      s.hexDump_loop pos len fuel ((pos + t + 1 : Nat) : Int) ((j + 1 : Nat) : Int)
        ((if j = 0 then ss ++ ['0', 'x'] ++ std_hex 4 t else ss) ++ hexDump_cell b) := by
  rw [IBinaryStream.hexDump_loop]
  have hbound : static_cast_int (len + pos) = ((len + pos : Nat) : Int) :=
    static_cast_int_of_lt _ (by omega)
  have hlast : static_cast_int (len + pos - 1) = ((len + pos - 1 : Nat) : Int) :=
    static_cast_int_of_lt _ (by omega)
  have hlt : ((pos + t : Nat) : Int) < ((len + pos : Nat) : Int) := by omega
  have hnl : ¬ (((pos + t : Nat) : Int) = ((len + pos - 1 : Nat) : Int)) := by omega
  have hj15 : ¬ ((j : Int) = 15) := by omega
  have hj0 : ((j : Int) = 0) ↔ j = 0 := by omega
  rw [hbound, hlast, if_pos hlt, IBinaryStream.data_of_getElem s _ b hb]
  simp only [hnl, hj15, decide_False, Bool.false_eq_true, or_self, if_false,
    hexDump_offset pos t (by omega), hj0]
  have e1 : ((pos + t : Nat) : Int) + 1 = ((pos + t + 1 : Nat) : Int) := by omega
  have e2 : (j : Int) + 1 = ((j + 1 : Nat) : Int) := by omega
  rw [e1, e2]
  simp [hexDump_cell]

/-- The ASCII column of a row of `j + 1` bytes at `base`. -/
theorem IBinaryStream.hexDump_ascii_row (s : IBinaryStream) (base j : Nat)
    (lastRound : Bool) (hcond : lastRound = true ∨ j = 15) (hj : j ≤ 15)
    (hin : base + j < s.m_buffer.length) (ss : List Char) :
    s.hexDump_ascii ((base + j : Nat) : Int) (j : Int) lastRound 17 0 ss
      = .ok (ss ++ ((s.m_buffer.drop base).take (j + 1)).map hexDump_char) := by
  have h := IBinaryStream.hexDump_ascii_spec s base j lastRound hcond hin (j + 1) 0 17 ss
    (by omega) (by omega)
  rw [List.drop_zero] at h
  exact h

/-- The step of the loop of `hexDump` on the last byte of a row of `j + 1` bytes. -/
theorem IBinaryStream.hexDump_loop_row_end (s : IBinaryStream) (pos len t j fuel : Nat)
    (ss : List Char) (b : Byte) (hint : pos + len < 2 ^ 31) (ht : t < len) (hjt : j ≤ t)
    (hend : j = 15 ∨ t + 1 = len) (hj : j ≤ 15) (hin : pos + len ≤ s.m_buffer.length)
    (hb : s.m_buffer[pos + t]? = some b) :
    s.hexDump_loop pos len (fuel + 1) ((pos + t : Nat) : Int) (j : Int) ss =
      s.hexDump_loop pos len fuel ((pos + t + 1 : Nat) : Int) 0
        ((if j = 0 then ss ++ ['0', 'x'] ++ std_hex 4 t else ss) ++ hexDump_cell b ++
          List.replicate (3 * (15 - j)) ' ' ++ [' '] ++
          ((s.m_buffer.drop (pos + t - j)).take (j + 1)).map hexDump_char ++ ['\n']) := by
  rw [IBinaryStream.hexDump_loop]
  have hbound : static_cast_int (len + pos) = ((len + pos : Nat) : Int) :=
    static_cast_int_of_lt _ (by omega)
  have hlast : static_cast_int (len + pos - 1) = ((len + pos - 1 : Nat) : Int) :=
    static_cast_int_of_lt _ (by omega)
  have hlt : ((pos + t : Nat) : Int) < ((len + pos : Nat) : Int) := by omega
  have hj0 : ((j : Int) = 0) ↔ j = 0 := by omega
  have e1 : ((pos + t : Nat) : Int) + 1 = ((pos + t + 1 : Nat) : Int) := by omega
  have e0 : (-1 : Int) + 1 = 0 := by decide
  have hoff := hexDump_offset pos t (by omega)
  have hbt : pos + t = pos + t - j + j := by omega
  rw [hbound, hlast, if_pos hlt, IBinaryStream.data_of_getElem s _ b hb]
  by_cases hl : t + 1 = len
  · have hlr : (((pos + t : Nat) : Int) = ((len + pos - 1 : Nat) : Int)) := by omega
    have hk : (16 : Int) - (j : Int) = ((15 - j : Nat) : Int) + 1 := by omega
    have hasc := IBinaryStream.hexDump_ascii_row s (pos + t - j) j true (Or.inl rfl) hj
      (by omega)
    rw [← hbt] at hasc
    have hd : decide (((pos + t : Nat) : Int) = ((len + pos - 1 : Nat) : Int)) = true :=
      decide_eq_true hlr
    simp only [hd, or_true, if_true, hoff, hj0, hk,
      hexDump_fill_spec (15 - j) 17 _ (by omega : 15 - j < 17), hasc]
    simp only [e1, e0]
    simp [hexDump_cell]
  · have hj15 : j = 15 := by omega
    have hnl : ¬ (((pos + t : Nat) : Int) = ((len + pos - 1 : Nat) : Int)) := by omega
    have hj15i : (j : Int) = 15 := by omega
    have hasc := IBinaryStream.hexDump_ascii_row s (pos + t - j) j false (Or.inr hj15) hj
      (by omega)
    rw [← hbt] at hasc
    have hd : decide (((pos + t : Nat) : Int) = ((len + pos - 1 : Nat) : Int)) = false :=
      decide_eq_false hnl
    simp only [hd, Bool.false_eq_true, or_false, if_false, hoff, hj0]
    rw [if_pos hj15i, hasc]
    simp only [e1, e0]
    simp [hexDump_cell, hj15]

/-- From byte `j` of a row on, the loop of `hexDump` writes the rest of the line of the row
and arrives at the start of the next row. -/
theorem IBinaryStream.hexDump_loop_row (s : IBinaryStream) (pos len t0 n : Nat)
    (hint : pos + len < 2 ^ 31) (hin : pos + len ≤ s.m_buffer.length)
    (hn : n = min 16 (len - t0)) (hn1 : 1 ≤ n) :
    ∀ (d j f : Nat) (ss : List Char), j + (d + 1) = n →
      s.hexDump_loop pos len (f + (d + 1)) ((pos + (t0 + j) : Nat) : Int) (j : Int) ss =
        s.hexDump_loop pos len f ((pos + (t0 + n) : Nat) : Int) 0
          (ss ++ (if j = 0 then ['0', 'x'] ++ std_hex 4 t0 else []) ++
            (((s.m_buffer.drop (pos + t0)).take n).drop j).flatMap hexDump_cell ++
            List.replicate (3 * (16 - n)) ' ' ++ [' '] ++
            ((s.m_buffer.drop (pos + t0)).take n).map hexDump_char ++ ['\n']) := by
  intro d
  induction d with
  | zero =>
    intro j f ss hj
    have hjn : n = j + 1 := by omega
    subst hjn
    obtain ⟨b, hb, hdrop⟩ := drop_take_cons s.m_buffer (pos + t0) j j (Nat.le_refl _)
      (by omega)
    have hb2 : s.m_buffer[pos + (t0 + j)]? = some b := by
      rw [← hb]; congr 1; omega
    have hend := IBinaryStream.hexDump_loop_row_end s pos len (t0 + j) j f ss b hint
      (by omega) (by omega) (by omega) (by omega) hin hb2
    have hb0 : pos + (t0 + j) - j = pos + t0 := by omega
    have hlen : ((s.m_buffer.drop (pos + t0)).take (j + 1)).length = j + 1 := by
      rw [List.length_take, List.length_drop]; omega
    have hidx : pos + (t0 + j) + 1 = pos + (t0 + (j + 1)) := by omega
    have e15 : 15 - j = 16 - (j + 1) := by omega
    have hd1 : ((s.m_buffer.drop (pos + t0)).take (j + 1)).drop (j + 1) = [] :=
      List.drop_of_length_le (by omega)
    rw [hb0, hidx, e15] at hend
    rw [show f + (0 + 1) = f + 1 by rfl, hend, hdrop, hd1]
    have hlist : (if j = 0 then ss ++ ['0', 'x'] ++ std_hex 4 (t0 + j) else ss) ++ hexDump_cell b
        = ss ++ (if j = 0 then ['0', 'x'] ++ std_hex 4 t0 else []) ++
          List.flatMap [b] hexDump_cell := by
      by_cases h0 : j = 0
      · simp [h0]
      · simp [h0]
    rw [hlist]
  | succ d ih =>
    intro j f ss hj
    obtain ⟨b, hb, hdrop⟩ := drop_take_cons s.m_buffer (pos + t0) (n - 1) j (by omega)
      (by omega)
    have hn' : n - 1 + 1 = n := by omega
    rw [hn'] at hdrop
    have hb2 : s.m_buffer[pos + (t0 + j)]? = some b := by
      rw [← hb]; congr 1; omega
    have hstep := IBinaryStream.hexDump_loop_step s pos len (t0 + j) j (f + (d + 1)) ss b hint
      (by omega) (by omega) hb2
    have hidx : pos + (t0 + j) + 1 = pos + (t0 + (j + 1)) := by omega
    rw [hidx] at hstep
    rw [show f + (d + 1 + 1) = f + (d + 1) + 1 by omega, hstep, ih (j + 1) f _ (by omega),
      hdrop]
    have hlist : (if j = 0 then ss ++ ['0', 'x'] ++ std_hex 4 (t0 + j) else ss) ++ hexDump_cell b
          ++ (if j + 1 = 0 then ['0', 'x'] ++ std_hex 4 t0 else []) ++
          List.flatMap (((s.m_buffer.drop (pos + t0)).take n).drop (j + 1)) hexDump_cell
        = ss ++ (if j = 0 then ['0', 'x'] ++ std_hex 4 t0 else []) ++
          List.flatMap (b :: ((s.m_buffer.drop (pos + t0)).take n).drop (j + 1))
            hexDump_cell := by
      by_cases h0 : j = 0
      · simp [h0]
      · simp [h0]
    rw [hlist]

/-- The bytes of row `r` as a slice of the buffer. -/
theorem IBinaryStream.hexDump_row_eq (s : IBinaryStream) (pos len r : Nat) :
    s.hexDump_row pos len r = (s.m_buffer.drop (pos + 16 * r)).take (min 16 (len - 16 * r)) := by
  unfold IBinaryStream.hexDump_row
  rw [List.drop_take, List.take_take, List.drop_drop]

/-- The number of bytes of row `r`. -/
theorem IBinaryStream.hexDump_row_length (s : IBinaryStream) (pos len r : Nat)
    (hin : pos + len ≤ s.m_buffer.length) :
    (s.hexDump_row pos len r).length = min 16 (len - 16 * r) := by
  rw [IBinaryStream.hexDump_row_eq, List.length_take, List.length_drop]
  omega

/-- From the start of row `r` on, the loop of `hexDump` writes the lines of the rows that
are left and ends. -/
theorem IBinaryStream.hexDump_loop_rows (s : IBinaryStream) (pos len : Nat)
    (hint : pos + len < 2 ^ 31) (hin : pos + len ≤ s.m_buffer.length) :
    ∀ (c r f : Nat) (ss : List Char), r + c = (len + 15) / 16 →
      s.hexDump_loop pos len (f + 1 + (len - min (16 * r) len))
          ((pos + min (16 * r) len : Nat) : Int) 0 ss =
        .ok (ss ++ (s.hexDump_lines pos len r c).flatten) := by
  intro c
  induction c with
  | zero =>
    intro r f ss hr
    have hmin : min (16 * r) len = len := by omega
    rw [hmin, Nat.sub_self, Nat.add_zero, IBinaryStream.hexDump_loop,
      static_cast_int_of_lt _ (by omega : len + pos < 2 ^ 31)]
    rw [if_neg (by omega)]
    simp [IBinaryStream.hexDump_lines]
  | succ c ih =>
    intro r f ss hr
    have hlt : 16 * r < len := by omega
    have hmin : min (16 * r) len = 16 * r := by omega
    have hn1 : 1 ≤ min 16 (len - 16 * r) := by omega
    have hrow := IBinaryStream.hexDump_loop_row s pos len (16 * r) (min 16 (len - 16 * r))
      hint hin rfl hn1 (min 16 (len - 16 * r) - 1) 0
      (f + 1 + (len - min (16 * (r + 1)) len)) ss (by omega)
    have hfuel : f + 1 + (len - min (16 * (r + 1)) len) + (min 16 (len - 16 * r) - 1 + 1)
        = f + 1 + (len - min (16 * r) len) := by omega
    have hnext : 16 * r + min 16 (len - 16 * r) = min (16 * (r + 1)) len := by omega
    rw [hfuel] at hrow
    simp only [Nat.cast_zero, Nat.add_zero] at hrow
    rw [hnext] at hrow
    rw [hmin] at hrow ⊢
    rw [hrow, ih (r + 1) f _ (by omega)]
    congr 1
    simp only [IBinaryStream.hexDump_lines, List.flatten_cons, hexDump_line,
      IBinaryStream.hexDump_row_eq, List.drop_zero, if_true, List.length_take,
      List.length_drop]
    have hl : min (min 16 (len - 16 * r)) (s.m_buffer.length - (pos + 16 * r))
        = min 16 (len - 16 * r) := by omega
    rw [hl]
    simp only [List.append_assoc]

/-- Within the buffer and the range of `int`, `hexDump` returns the lines of the rows. -/
theorem IBinaryStream.hexDump_eq_lines (s : IBinaryStream) (pos len : Nat)
    (hint : pos + len < 2 ^ 31) (hin : pos + len ≤ s.m_buffer.length) :
    s.hexDump pos len = .ok (s.hexDump_lines pos len 0 ((len + 15) / 16)).flatten := by
  unfold IBinaryStream.hexDump
  have hv : s.validateOffset pos len = true := by
    simp [IBinaryStream.validateOffset, hin]
  rw [hv, if_pos rfl, static_cast_int_of_lt pos (by omega)]
  have h := IBinaryStream.hexDump_loop_rows s pos len hint hin ((len + 15) / 16) 0 0 []
    (by omega)
  simp only [Nat.mul_zero, Nat.zero_min, Nat.sub_zero, Nat.add_zero, Nat.zero_add,
    List.nil_append] at h
  rw [Nat.add_comm 1 len] at h
  exact h

/-- The digit characters below sixteen are the lower-case hex digits. -/
theorem digitChar_hex (d : Nat) (h : d < 16) :
    isLowerHexDigit (Nat.digitChar d) = true := by
  interval_cases d <;> decide

/-- The digits of a number in base sixteen are lower-case hex digits. -/
theorem toDigitsCore_hex (fuel : Nat) : ∀ (n : Nat) (ds : List Char),
    (∀ c ∈ ds, isLowerHexDigit c = true) →
    ∀ c ∈ Nat.toDigitsCore 16 fuel n ds,
      isLowerHexDigit c = true := by
  induction fuel with
  | zero => intro n ds hds c hc; exact hds c hc
  | succ fuel ih =>
    intro n ds hds c hc
    rw [Nat.toDigitsCore] at hc
    have hd : ∀ c ∈ Nat.digitChar (n % 16) :: ds,
        isLowerHexDigit c = true := by
      intro c hc
      rcases List.mem_cons.1 hc with h | h
      · rw [h]; exact digitChar_hex _ (Nat.mod_lt _ (by decide))
      · exact hds c h
    by_cases h0 : n / 16 = 0
    · simp only [h0, if_true] at hc
      exact hd c hc
    · simp only [h0, if_false] at hc
      exact ih _ _ hd c hc

/-- A number below `16 ^ (k + 1)` has at most `k + 1` digits in base sixteen. -/
theorem toDigitsCore_length (fuel : Nat) : ∀ (k n : Nat) (ds : List Char),
    n < 16 ^ (k + 1) → (Nat.toDigitsCore 16 fuel n ds).length ≤ k + 1 + ds.length := by
  induction fuel with
  | zero => intro k n ds _; simp [Nat.toDigitsCore]
  | succ fuel ih =>
    intro k n ds hn
    rw [Nat.toDigitsCore]
    by_cases h0 : n / 16 = 0
    · simp only [h0, if_true, List.length_cons]; omega
    · simp only [h0, if_false]
      cases k with
      | zero =>
        exfalso
        apply h0
        exact Nat.div_eq_of_lt (by simpa using hn)
      | succ k =>
        have hdiv : n / 16 < 16 ^ (k + 1) := by
          rw [Nat.div_lt_iff_lt_mul (by decide)]
          rw [pow_succ] at hn
          exact hn
        have := ih k (n / 16) (Nat.digitChar (n % 16) :: ds) hdiv
        simp only [List.length_cons] at this
        omega

/-- The insertion of a value below `16 ^ w` with width `w` gives exactly `w` characters,
all of them lower-case hex digits. -/
theorem std_hex_spec (w value : Nat) (hw : 1 ≤ w) (hv : value < 16 ^ w) :
    (std_hex w value).length = w ∧
    ∀ c ∈ std_hex w value,
      isLowerHexDigit c = true := by
  have hlen : (Nat.toDigits 16 value).length ≤ w := by
    obtain ⟨k, rfl⟩ : ∃ k, w = k + 1 := ⟨w - 1, by omega⟩
    have := toDigitsCore_length (value + 1) k value [] hv
    simpa [Nat.toDigits] using this
  constructor
  · unfold std_hex
    rw [List.length_append, List.length_replicate]
    omega
  · intro c hc
    unfold std_hex at hc
    rcases List.mem_append.1 hc with h | h
    · rw [(List.mem_replicate.1 h).2]; decide
    · exact toDigitsCore_hex _ _ _ (fun _ h => absurd h (List.not_mem_nil _)) c h

/-- The insertion with width `w` gives at least `w` characters, all lower-case hex
digits. -/
theorem std_hex_ge (w value : Nat) :
    w ≤ (std_hex w value).length ∧
    ∀ c ∈ std_hex w value,
      isLowerHexDigit c = true := by
  constructor
  · unfold std_hex
    rw [List.length_append, List.length_replicate]
    omega
  · intro c hc
    unfold std_hex at hc
    rcases List.mem_append.1 hc with h | h
    · rw [(List.mem_replicate.1 h).2]; decide
    · exact toDigitsCore_hex _ _ _ (fun _ h => absurd h (List.not_mem_nil _)) c h

set_option maxRecDepth 100000 in
/-- The character of a byte in the ASCII column is not a newline. -/
theorem hexDump_char_ne_newline (b : Byte) : hexDump_char b ≠ '\n' := by
  revert b
  decide

/-- The cell of a byte has three characters, none of them a newline. -/
theorem hexDump_cell_spec (b : Byte) :
    (hexDump_cell b).length = 3 ∧ '\n' ∉ hexDump_cell b := by
  have h := std_hex_spec 2 b.val (by decide) (by have := b.isLt; omega)
  constructor
  · simp [hexDump_cell, h.1]
  · intro hmem
    rcases List.mem_cons.1 hmem with h1 | h1
    · revert h1; decide
    · have := h.2 _ h1
      revert this; decide

/-- The number of lines of `count` rows. -/
theorem IBinaryStream.hexDump_lines_length (s : IBinaryStream) (pos len : Nat) :
    ∀ (c r : Nat), (s.hexDump_lines pos len r c).length = c := by
  intro c
  induction c with
  | zero => intro r; rfl
  | succ c ih => intro r; simp [IBinaryStream.hexDump_lines, ih]

/-- Line `k` of the lines from row `r` on is the line of row `r + k`. -/
theorem IBinaryStream.hexDump_lines_getElem (s : IBinaryStream) (pos len : Nat) :
    ∀ (c r k : Nat), k < c →
      (s.hexDump_lines pos len r c)[k]?
        = some (hexDump_line (16 * (r + k)) (s.hexDump_row pos len (r + k))) := by
  intro c
  induction c with
  | zero => intro r k hk; exact absurd hk (Nat.not_lt_zero _)
  | succ c ih =>
    intro r k hk
    cases k with
    | zero => simp [IBinaryStream.hexDump_lines]
    | succ k =>
      simp only [IBinaryStream.hexDump_lines, List.getElem?_cons_succ]
      rw [ih (r + 1) k (by omega)]
      congr 3 <;> omega

/-- The rows of the first `R` lines hold `16 * R` bytes, or all `len` if that is less. -/
theorem hexDump_row_sizes (len : Nat) : ∀ R : Nat,
    ((List.range R).map (fun r => min 16 (len - 16 * r))).sum = min len (16 * R) := by
  intro R
  induction R with
  | zero => simp
  | succ R ih =>
    rw [List.range_succ, List.map_append, List.sum_append, ih]
    simp only [List.map_cons, List.map_nil, List.sum_cons, List.sum_nil]
    omega

/-- The cells of a row take three characters per byte. -/
theorem hexDump_cells_length (row : List Byte) :
    (row.flatMap hexDump_cell).length = 3 * row.length := by
  induction row with
  | nil => rfl
  | cons b rest ih =>
    rw [List.flatMap_cons, List.length_append, ih, (hexDump_cell_spec b).1, List.length_cons]
    omega

/-- The loop of `hexDump` ends when `i` is not below the bound. -/
theorem IBinaryStream.hexDump_loop_exit (s : IBinaryStream) (pos len fuel : Nat) (i j : Int)
    (ss : List Char) (h : ¬ i < static_cast_int (len + pos)) :
    s.hexDump_loop pos len (fuel + 1) i j ss = .ok ss := by
  rw [IBinaryStream.hexDump_loop, if_neg h]

/-- With slots that make no call on the signal, `emit` on a sorted table returns, completed
or left by the first throwing slot, with the signal as before. -/
theorem Signal.emitWith_quiet {Args : Type} (react : Connection → SlotReaction)
    (s : Signal) (args : Args) (fuel : Nat) (hquiet : ∀ c, (react c).ops = [])
    (hmap : (SlotMap.keys s.m_slots).Sorted (· < ·)) (hfuel : s.m_slots.length ≤ fuel) :
    Signal.emitWith react s args fuel
      = (if (emitUntilThrow react args s.m_slots).2
        then .threw s (emitUntilThrow react args s.m_slots).1
        else .completed s (emitUntilThrow react args s.m_slots).1) := by
  have h := Signal.emitLoop_quiet react args s hquiet hmap s.m_slots [] fuel [] rfl hfuel
  simp only [List.nil_append] at h
  exact h

/-- With slots that make no call on the signal and do not throw, `emit` on a sorted table
completes with the invocations of the walk of the table. -/
theorem Signal.emitWith_quiet_nothrow {Args : Type} (react : Connection → SlotReaction)
    (s : Signal) (args : Args) (fuel : Nat) (hquiet : ∀ c, (react c).ops = [])
    (hnothrow : ∀ c, (react c).throws = false)
    (hmap : (SlotMap.keys s.m_slots).Sorted (· < ·)) (hfuel : s.m_slots.length ≤ fuel) :
    Signal.emitWith react s args fuel = .completed s (s.emit args) := by
  rw [Signal.emitWith_quiet react s args fuel hquiet hmap hfuel,
    emitUntilThrow_of_no_throw react args s.m_slots hnothrow, Signal.emit_eq_map]
  simp

/-! ## C1: emission order -/

/-- C2 (amended): for every sequence of connects and handle removals applied to a fresh
signal in which every connect finds no entry under the handle it is given, and for slots
that neither throw nor call the signal while they are invoked, a following `emit`
completes and makes as many invocations as there are connections connected and not yet
removed, and the invocations are exactly the calls of those connections: none that was
removed, none that is present skipped. Every sequence with at most `SIZE_MAX` connects is of
that kind. -/
theorem Signal.emit_count_eq_connected {Args : Type} (react : Connection → SlotReaction)
    (ops ops1 : List SignalOp) (args : Args) (fuel : Nat)
    (hquiet : ∀ c, (react c).ops = []) (hnothrow : ∀ c, (react c).throws = false)
    (hfree : handlesFree ops Signal.new = true) (hwrap : numConnects ops1 ≤ SIZE_MAX)
    (hfuel : (Signal.run ops Signal.new).m_slots.length ≤ fuel) :
    ∃ trace : List (Invocation Args),
      Signal.emitWith react (Signal.run ops Signal.new) args fuel
        = .completed (Signal.run ops Signal.new) trace ∧
      trace.length = (connectedNotRemoved ops Signal.new []).length ∧
      trace.Perm ((connectedNotRemoved ops Signal.new []).map fun e => e.2.call args) ∧
      handlesFree ops1 Signal.new = true := by
  have hp := Signal.run_perm ops Signal.new [] (List.Perm.refl _) hfree
  have hsorted := Signal.run_sorted ops Signal.new (by simp [Signal.new, SlotMap.keys])
  refine ⟨(Signal.run ops Signal.new).emit args,
    Signal.emitWith_quiet_nothrow react _ args fuel hquiet hnothrow hsorted hfuel, ?_, ?_, ?_⟩
  · rw [Signal.emit_eq_map, List.length_map]; exact hp.length_eq
  · rw [Signal.emit_eq_map]; exact hp.map _
  · exact handlesFree_of_bound ops1 Signal.new 1
      (by rw [SIZE_MAX_succ]; rfl) (by simp [Signal.new, SlotMap.keys]) (by omega)

/-- Witness for C2: a closure and a member slot are connected, handle `1` is removed, and
`emit(7)` makes one invocation. -/
theorem Signal.emit_count_eq_connected_witness :
    (∀ c, ((fun _ : Connection => SlotReaction.mk [] false) c).ops = []) ∧
    (∀ c, ((fun _ : Connection => SlotReaction.mk [] false) c).throws = false) ∧
    handlesFree [SignalOp.connect (.FuncConnection 10),
        SignalOp.connect (.ClassFuncConnection 3 0),
        SignalOp.onSlotsObjectDestroyed 1] Signal.new = true ∧
    numConnects [SignalOp.connect (.FuncConnection 10)] ≤ SIZE_MAX ∧
    (Signal.run [SignalOp.connect (.FuncConnection 10),
        SignalOp.connect (.ClassFuncConnection 3 0),
        SignalOp.onSlotsObjectDestroyed 1] Signal.new).m_slots.length ≤ 1 ∧
    ∃ trace : List (Invocation Nat),
      Signal.emitWith (fun _ => SlotReaction.mk [] false)
        (Signal.run [SignalOp.connect (.FuncConnection 10),
          SignalOp.connect (.ClassFuncConnection 3 0),
          SignalOp.onSlotsObjectDestroyed 1] Signal.new) 7 1
        = .completed (Signal.run [SignalOp.connect (.FuncConnection 10),
          SignalOp.connect (.ClassFuncConnection 3 0),
          SignalOp.onSlotsObjectDestroyed 1] Signal.new) trace ∧
      trace.length = 1 :=
  ⟨fun _ => rfl, fun _ => rfl, by decide, by decide, by decide,
    (Signal.emit_count_eq_connected (fun _ => SlotReaction.mk [] false)
        [SignalOp.connect (.FuncConnection 10),
        SignalOp.connect (.ClassFuncConnection 3 0),
        SignalOp.onSlotsObjectDestroyed 1] [SignalOp.connect (.FuncConnection 10)] (7 : Nat) 1
        (fun _ => rfl) (fun _ => rfl) (by decide) (by decide) (by decide)).imp
      (fun _ h => ⟨h.1, h.2.1.trans (by decide)⟩)⟩

/-- Counterexample to C2 as stated, three ways. Three closures are connected and the second
throws: `emit(5)` makes two invocations for three connections. Closure `1`, while invoked,
has `onSlotsObjectDestroyed(2)` called on the signal: of the three connections present at
the start two are invoked. Closure `10` is connected under handle `1`, `SIZE_MAX` rounds of
connect and removal bring the counter back to `1`, and closure `11` is connected: `emplace`
finds key `1` taken and stores nothing; two connections are connected and not removed (both
under handle `1`), `emit(5)` makes one invocation. -/
theorem Signal.emit_count_counterexample :
    (Signal.emitWith (fun c => SlotReaction.mk [] (decide (c = .FuncConnection 11)))
      (Signal.run [SignalOp.connect (.FuncConnection 10), SignalOp.connect (.FuncConnection 11),
        SignalOp.connect (.FuncConnection 12)] Signal.new) (5 : Nat) 3).trace
      = [Invocation.func 10 5, Invocation.func 11 5] ∧
    connectedNotRemoved [SignalOp.connect (.FuncConnection 10),
        SignalOp.connect (.FuncConnection 11), SignalOp.connect (.FuncConnection 12)]
        Signal.new []
      = [(1, .FuncConnection 10), (2, .FuncConnection 11), (3, .FuncConnection 12)] ∧
    (Signal.emitWith
      (fun c => if c = .FuncConnection 1 then SlotReaction.mk [.onSlotsObjectDestroyed 2] false
        else SlotReaction.mk [] false)
      (Signal.run [SignalOp.connect (.FuncConnection 1),
        SignalOp.connect (.ClassFuncConnection 0 0), SignalOp.connect (.FuncConnection 10)]
        Signal.new) (5 : Nat) 3).trace
      = [Invocation.func 1 5, Invocation.func 10 5] ∧
    (Signal.emitWith (fun _ => SlotReaction.mk [] false)
      (Signal.run (SignalOp.connect (.FuncConnection 10) :: churn 0 2 SIZE_MAX
        ++ [SignalOp.connect (.FuncConnection 11)]) Signal.new) (5 : Nat) 2)
      = .completed (Signal.mk [(1, .FuncConnection 10)] 2) [Invocation.func 10 5] ∧
    connectedNotRemoved (SignalOp.connect (.FuncConnection 10) :: churn 0 2 SIZE_MAX
        ++ [SignalOp.connect (.FuncConnection 11)]) Signal.new []
      = [(1, .FuncConnection 10), (1, .FuncConnection 11)] := by
  refine ⟨by decide, by decide, by decide, ?_, ?_⟩
  · rw [Signal.run_append, Signal.run_churn_wrapped]; decide
  · rw [connectedNotRemoved_append, connectedNotRemoved_churn_wrapped, Signal.run_churn_wrapped]
    decide

/-! ## C3: invariant I1 -/

/-- C3 (amended): invariant I1 holds in every state reached from the start through the
`connect` overloads (closure, `FuncConnection*`, object and member pointer, and
`ClassFuncConnection*`), provided every `ClassFuncConnection` built by hand was constructed
with the signal it is then connected to and with the handle that signal hands out next; such
a run does not fault and destroys nothing. -/
theorem World.connect_overloads_keep_I1 (ops : List Op)
    (hops : World.connectsMatched ops World.new = true) :
    ∃ w, World.run ops World.new = .ok w ∧ w.allLive ∧ w.I1 :=
  World.run_connects_I1 ops World.new World.new_allLive World.new_I1 hops

/-- Witness for C3: a run using all four overloads. -/
theorem World.connect_overloads_keep_I1_witness :
    World.connectsMatched [Op.connect 0 10, Op.connect_Object 0 3 0,
      Op.connect_ClassFuncConnection 0 4 0 0 3, Op.connect_FuncConnection 1 11]
      World.new = true ∧
    ∃ w, World.run [Op.connect 0 10, Op.connect_Object 0 3 0,
      Op.connect_ClassFuncConnection 0 4 0 0 3, Op.connect_FuncConnection 1 11]
      World.new = .ok w ∧ w.allLive ∧ w.I1 :=
  ⟨by decide, World.connect_overloads_keep_I1 _ (by decide)⟩

/-- Counterexample to C3 as stated: `new ClassFuncConnection(object 0, member 0, signal 0, 7)`
records the back-reference `(7, signal 0)`; `connect` of that connection on the fresh signal
`0` stores it under handle `1`, and `(1, signal 0)` is not among the back-references. -/
theorem World.prebuilt_connection_breaks_I1_counterexample :
    slotsOf (World.run [Op.connect_ClassFuncConnection 0 0 0 0 7] World.new) 0
      = some [(1, .ClassFuncConnection 0 0)] ∧
    backrefsOf (World.run [Op.connect_ClassFuncConnection 0 0 0 0 7] World.new) 0
      = some [(7, 0)] ∧
    ¬ ∀ w, World.run [Op.connect_ClassFuncConnection 0 0 0 0 7] World.new = .ok w → w.I1 := by
  refine ⟨by decide, by decide, ?_⟩
  intro h
  have hrun : World.run [Op.connect_ClassFuncConnection 0 0 0 0 7] World.new
      = .ok ((World.new.recorded 0 7 0).connected 0 (.ClassFuncConnection 0 0)) := by
    simp only [World.run]
    rw [World.step_connect_ClassFuncConnection_eq World.new 0 0 0 0 7 rfl rfl]
  have hI := h _ hrun 0 1 0 0 rfl rfl (by decide)
  revert hI
  decide

/-! ## C4: destruction of a tracked object -/

/-- C4: in every state built from the start by `connect(closure)` and
`connect(object, member)` calls, the back-references of an object `O` are, without
repetition, exactly the entries bound to `O` in the tables; destroying `O` succeeds and
removes from every table exactly the entries bound to `O` and no other entry, and no later
`emit` on any signal invokes a slot of `O`. The hypothesis `hfit` is the capacity of a
`std::map`, which cannot hold `SIZE_MAX` nodes: these states are built without removals, so
every connect has left an entry and no counter has wrapped. -/
theorem World.destroyObject_removes_exactly {Args : Type} (ops : List Op) (O : ObjId)
    (args : Args) (w : World) (hbasic : ops.all Op.basic = true)
    (hrun : World.run ops World.new = .ok w)
    (hfit : ∀ S, (w.signal S).m_slots.length < SIZE_MAX) :
    ∃ w1, w.destroyObject O = .ok w1 ∧
      (∀ H S, (H, S) ∈ (w.object O).m_connectedSignals ↔
        ∃ member, (H, Connection.ClassFuncConnection O member) ∈ (w.signal S).m_slots) ∧
      (w.object O).m_connectedSignals.Nodup ∧
      (∀ S, (SlotMap.keys (w.signal S).m_slots).Nodup) ∧
      (∀ S, (w1.signal S).m_slots
        = (w.signal S).m_slots.filter fun e => decide (e.2.boundTo ≠ some O)) ∧
      (∀ S, ∀ inv ∈ (w1.signal S).emit args, inv.target ≠ some O) := by
  obtain ⟨hl, B, hL⟩ := World.run_basic_fit ops World.new (fun _ => 1)
    World.new_allLive World.new_Linked (fun _ => rfl) hbasic w hrun hfit
  obtain ⟨w1, hd, hslots, _⟩ := World.destroyObject_Linked w B O hl hL
  refine ⟨w1, hd, ?_, hL.2.2.2.2.2 O, hL.2.2.1, hslots, ?_⟩
  · intro H S
    exact ⟨hL.2.2.2.2.1 S H O, fun ⟨member, hm⟩ => hL.2.2.2.1 S H O member hm⟩
  · intro S inv hinv
    rw [Signal.emit_eq_map, hslots S, List.mem_map] at hinv
    obtain ⟨e, he, rfl⟩ := hinv
    rw [Invocation.target_call]
    have := (List.mem_filter.mp he).2
    simpa using this

/-- Witness for C4: object `3` holds member slots on the signals `0` and `1`. -/
theorem World.destroyObject_removes_exactly_witness :
    [Op.connect 0 10, Op.connect_Object 0 3 0, Op.connect_Object 1 3 1,
      Op.connect_Object 0 4 0].all Op.basic = true ∧
    ∃ w, World.run [Op.connect 0 10, Op.connect_Object 0 3 0, Op.connect_Object 1 3 1,
        Op.connect_Object 0 4 0] World.new = .ok w ∧
      (∀ S, (w.signal S).m_slots.length < SIZE_MAX) ∧
      ∃ w1, w.destroyObject 3 = .ok w1 ∧
        (∀ H S, (H, S) ∈ (w.object 3).m_connectedSignals ↔
          ∃ member, (H, Connection.ClassFuncConnection 3 member) ∈ (w.signal S).m_slots) ∧
        (w.object 3).m_connectedSignals.Nodup ∧
        (∀ S, (SlotMap.keys (w.signal S).m_slots).Nodup) ∧
        (∀ S, (w1.signal S).m_slots
          = (w.signal S).m_slots.filter fun e => decide (e.2.boundTo ≠ some 3)) ∧
        (∀ S, ∀ inv ∈ (w1.signal S).emit (7 : Nat), inv.target ≠ some 3) := by
  obtain ⟨w, hrun, _, hlen⟩ := World.run_basic_length
    [Op.connect 0 10, Op.connect_Object 0 3 0, Op.connect_Object 1 3 1, Op.connect_Object 0 4 0]
    World.new World.new_allLive (by decide)
  have hfit : ∀ S, (w.signal S).m_slots.length < SIZE_MAX := fun S =>
    Nat.lt_of_le_of_lt (hlen S).2 (by show 0 + 4 < SIZE_MAX; decide)
  exact ⟨by decide, w, hrun, hfit,
    World.destroyObject_removes_exactly _ 3 7 w (by decide) hrun hfit⟩

/-! ## C5: destruction of a signal -/

/-- C5, the code at the failing input: object `0` is connected to the fresh signals `1` and
`2` and holds the back-references `(1, signal 1)` and `(1, signal 2)`. Destroying signal `2`
calls `onSignalDisconnected(1)`, which matches on the handle alone and erases one element:
the object is left with `(1, signal 2)`, a back-reference to the destroyed signal, and has
lost `(1, signal 1)`. -/
theorem World.destroySignal_same_handle_evaluation :
    backrefsOf (World.run [Op.connect_Object 1 0 0, Op.connect_Object 2 0 0] World.new) 0
      = some [(1, 1), (1, 2)] ∧
    backrefsOf (World.run [Op.connect_Object 1 0 0, Op.connect_Object 2 0 0,
      Op.destroySignal 2] World.new) 0 = some [(1, 2)] := by
  constructor <;> decide

/-! ## C6: no call on a destroyed signal -/

/-- C6, the code at the failing input: after the run of C5 (no fault so far), destroying
object `0` walks its back-references and calls `onSlotsObjectDestroyed` on signal `2`, whose
destructor has already run. -/
theorem World.destroy_calls_destroyed_signal_evaluation :
    faultOf (World.run [Op.connect_Object 1 0 0, Op.connect_Object 2 0 0,
      Op.destroySignal 2] World.new) = none ∧
    faultOf (World.run [Op.connect_Object 1 0 0, Op.connect_Object 2 0 0,
      Op.destroySignal 2, Op.destroyObject 0] World.new) = some (.destroyedSignal 2) := by
  constructor <;> decide

/-! ## C7: handles are not reused -/

/-- C7 (amended): for every sequence of connects and removals on a fresh signal with fewer
than `SIZE_MAX` connects, a further connect is given the current counter as its handle, the
handles given out so far including the new one are strictly increasing, and the new handle
differs from every handle given out before, removed or not. -/
theorem Signal.handles_strictly_increasing (ops : List SignalOp) (c : Connection)
    (hwrap : numConnects ops < SIZE_MAX) :
    assignedHandles (ops ++ [SignalOp.connect c]) Signal.new
      = assignedHandles ops Signal.new ++ [(Signal.run ops Signal.new).m_IdCtr] ∧
    (assignedHandles (ops ++ [SignalOp.connect c]) Signal.new).Sorted (· < ·) ∧
    ∀ h ∈ assignedHandles ops Signal.new, h ≠ (Signal.run ops Signal.new).m_IdCtr := by
  have h1 := Signal.run_new ops (Nat.le_of_lt hwrap)
  have hn : numConnects (ops ++ [SignalOp.connect c]) = numConnects ops + 1 := by
    rw [numConnects_append, numConnects_connect, numConnects_nil]
  have hle : numConnects (ops ++ [SignalOp.connect c]) ≤ SIZE_MAX := by rw [hn]; exact hwrap
  have h2 := Signal.run_new (ops ++ [SignalOp.connect c]) hle
  have hctr : (Signal.run ops Signal.new).m_IdCtr = 1 + numConnects ops := by
    rw [h1.2.1]
    exact Nat.mod_eq_of_lt (by omega)
  refine ⟨by rw [assignedHandles_append]; rfl, ?_, ?_⟩
  · rw [h2.2.2.2.2.2]
    exact List.pairwise_lt_range' 1 _
  · intro h hh
    rw [h1.2.2.2.2.2, List.mem_range'_1] at hh
    rw [hctr]
    exact Nat.ne_of_lt hh.2

/-- Witness for C7: connect, remove handle `1`, connect again: the handles are `1` and `2`. -/
theorem Signal.handles_strictly_increasing_witness :
    numConnects [SignalOp.connect (.FuncConnection 10), SignalOp.onSlotsObjectDestroyed 1]
      < SIZE_MAX ∧
    assignedHandles ([SignalOp.connect (.FuncConnection 10), SignalOp.onSlotsObjectDestroyed 1]
        ++ [SignalOp.connect (.FuncConnection 11)]) Signal.new = [1, 2] :=
  ⟨by decide,
    (Signal.handles_strictly_increasing
      [SignalOp.connect (.FuncConnection 10), SignalOp.onSlotsObjectDestroyed 1]
      (.FuncConnection 11) (by decide)).1.trans (by decide)⟩

/-- Counterexample to C7 as stated: the first connect is given handle `1`; after `SIZE_MAX`
further connects (each removed again) the counter has wrapped, and the last connect of the
sequence is given handle `1` again. -/
theorem Signal.handle_reuse_counterexample :
    (assignedHandles (SignalOp.connect (.FuncConnection 10) :: churn 0 2 SIZE_MAX
        ++ [SignalOp.connect (.FuncConnection 11)]) Signal.new).head? = some 1 ∧
    (assignedHandles (SignalOp.connect (.FuncConnection 10) :: churn 0 2 SIZE_MAX
        ++ [SignalOp.connect (.FuncConnection 11)]) Signal.new).getLast? = some 1 := by
  constructor
  · rfl
  · rw [assignedHandles_append, Signal.run_churn_wrapped]
    have hlast : assignedHandles [SignalOp.connect (.FuncConnection 11)]
        { m_slots := [(1, .FuncConnection 10)], m_IdCtr := 1 } = [1] := rfl
    rw [hlast, List.getLast?_concat]

/-! ## C8: the k-th connect and handle zero -/

/-- C8 (amended): on a fresh signal, after a sequence of operations with `k - 1` connects,
`k ≤ SIZE_MAX`, the counter is `k` and the `k`-th connect stores its connection under handle
`k`; and in no state reached with at most `SIZE_MAX` connects is a connection stored under
handle `0`. -/
theorem Signal.kth_connect_handle (ops ops2 : List SignalOp) (c : Connection)
    (hwrap : numConnects ops < SIZE_MAX) (hwrap2 : numConnects ops2 ≤ SIZE_MAX) :
    (Signal.run ops Signal.new).m_IdCtr = numConnects ops + 1 ∧
    SlotMap.find (numConnects ops + 1)
      (Signal.run (ops ++ [SignalOp.connect c]) Signal.new).m_slots = some c ∧
    0 ∉ SlotMap.keys (Signal.run ops2 Signal.new).m_slots := by
  obtain ⟨h1, h2, h3⟩ := Signal.emplaceNext_run_new ops c hwrap
  refine ⟨h1, ?_, ?_⟩
  · rw [Signal.run_snoc_connect, h2]
    exact SlotMap.find_append_single _ _ c h3
  · intro h0
    exact absurd ((Signal.run_new ops2 hwrap2).2.2.2.2.1 0 h0) (by decide)

/-- Witness for C8: the second connect stores its connection under handle `2`, also after
handle `1` was removed. -/
theorem Signal.kth_connect_handle_witness :
    numConnects [SignalOp.connect (.FuncConnection 10), SignalOp.onSlotsObjectDestroyed 1]
      < SIZE_MAX ∧
    numConnects [SignalOp.connect (.FuncConnection 10)] ≤ SIZE_MAX ∧
    SlotMap.find 2 (Signal.run ([SignalOp.connect (.FuncConnection 10),
      SignalOp.onSlotsObjectDestroyed 1] ++ [SignalOp.connect (.ClassFuncConnection 4 0)])
      Signal.new).m_slots = some (.ClassFuncConnection 4 0) :=
  ⟨by decide, by decide,
    (Signal.kth_connect_handle
      [SignalOp.connect (.FuncConnection 10), SignalOp.onSlotsObjectDestroyed 1]
      [SignalOp.connect (.FuncConnection 10)] (.ClassFuncConnection 4 0)
      (by decide) (by decide)).2.1⟩

/-- Counterexample to C8 as stated: the connect number `2 ^ 64` on a signal stores its
connection under handle `0`. -/
theorem Signal.handle_zero_counterexample :
    numConnects (churn 0 1 SIZE_MAX ++ [SignalOp.connect (.FuncConnection 10)])
      = 18446744073709551616 ∧
    (Signal.run (churn 0 1 SIZE_MAX ++ [SignalOp.connect (.FuncConnection 10)])
      Signal.new).m_slots = [(0, .FuncConnection 10)] := by
  constructor
  · rw [numConnects_append, numConnects_churn, SIZE_MAX_eq]; rfl
  · have h := Signal.run_churn 0 [] SIZE_MAX 1 (by norm_num) (by simp [SlotMap.keys])
    rw [SIZE_MAX_eq] at h
    have hnew : Signal.new = { m_slots := [], m_IdCtr := 1 } := rfl
    rw [Signal.run_append, SIZE_MAX_eq, hnew, h]
    decide

/-! ## C9: connect of an object and a member -/

/-- C9 (amended): `connect(object, member)` on a live signal `s` with counter `c` and a live
object, when no entry has key `c` and `c < SIZE_MAX`, makes two calls in this order:
`onSignalConnected(s, c)` on the object, once, in a state `w1` in which every back-reference
list and the table of `s` are as before the call; then `emplace(c, connection)`, in a state
`w2` in which the back-references of the object are the old ones followed by `(c, s)` and
the table of `s` is still the old one, with nothing under key `c`. The call returns the
state `w3`: the connection is stored under key `c`, every other key keeps its entry, the
counter is `c + 1`, the objects are as in `w2`, and no other signal or object has
changed. -/
theorem World.connect_Object_records_then_stores (w : World) (s : SigId) (o : ObjId)
    (member : MemberId)
    (hs : w.signalDestroyed s = false) (ho : w.objectDestroyed o = false)
    (hkey : (w.signal s).m_IdCtr ∉ SlotMap.keys (w.signal s).m_slots)
    (hc : (w.signal s).m_IdCtr < SIZE_MAX) :
    ∃ w1 w2 w3,
      w.connect_Object_trace s o member
        = ([(ConnectEvent.onSignalConnected o s (w.signal s).m_IdCtr, w1),
            (ConnectEvent.emplace s (w.signal s).m_IdCtr (.ClassFuncConnection o member), w2)],
           .ok w3) ∧
      w.connect_Object s o member = .ok w3 ∧
      w1.object = w.object ∧
      (w1.signal s).m_slots = (w.signal s).m_slots ∧
      (w2.object o).m_connectedSignals
        = (w.object o).m_connectedSignals ++ [((w.signal s).m_IdCtr, s)] ∧
      (w2.signal s).m_slots = (w.signal s).m_slots ∧
      SlotMap.find (w.signal s).m_IdCtr (w2.signal s).m_slots = none ∧
      (w3.signal s).m_slots
        = SlotMap.emplace (w.signal s).m_IdCtr (.ClassFuncConnection o member)
            (w2.signal s).m_slots ∧
      w3.object = w2.object ∧
      (∀ j, j ≠ o → w3.object j = w.object j) ∧
      SlotMap.find (w.signal s).m_IdCtr (w3.signal s).m_slots
        = some (.ClassFuncConnection o member) ∧
      (∀ k, k ≠ (w.signal s).m_IdCtr →
        SlotMap.find k (w3.signal s).m_slots = SlotMap.find k (w.signal s).m_slots) ∧
      (w3.signal s).m_IdCtr = (w.signal s).m_IdCtr + 1 ∧
      (∀ i, i ≠ s → w3.signal i = w.signal i) := by
  have hnone : SlotMap.find (w.signal s).m_IdCtr (w.signal s).m_slots = none := by
    cases hf : SlotMap.find (w.signal s).m_IdCtr (w.signal s).m_slots with
    | none => rfl
    | some c => exact absurd (SlotMap.mem_keys_of_find _ _ _ hf) hkey
  have hw2slots : (((w.setSignal s { (w.signal s) with
      m_IdCtr := incr (w.signal s).m_IdCtr }).setObject o
      ((w.object o).onSignalConnected s (w.signal s).m_IdCtr)).signal s).m_slots
      = (w.signal s).m_slots := by
    simp [World.setObject, World.setSignal]
  refine ⟨w.setSignal s { (w.signal s) with m_IdCtr := incr (w.signal s).m_IdCtr },
    (w.setSignal s { (w.signal s) with m_IdCtr := incr (w.signal s).m_IdCtr }).setObject o
      ((w.object o).onSignalConnected s (w.signal s).m_IdCtr),
    ((w.setSignal s { (w.signal s) with m_IdCtr := incr (w.signal s).m_IdCtr }).setObject o
      ((w.object o).onSignalConnected s (w.signal s).m_IdCtr)).setSignal s
      { m_slots := SlotMap.emplace (w.signal s).m_IdCtr (.ClassFuncConnection o member)
          (w.signal s).m_slots,
        m_IdCtr := incr (w.signal s).m_IdCtr },
    ?_, ?_, rfl, ?_, ?_, hw2slots, ?_, ?_, rfl, ?_, ?_, ?_, ?_, ?_⟩
  · simp [World.connect_Object_trace, hs, World.new_ClassFuncConnection, World.setSignal, ho,
      World.setObject]
  · simp [World.connect_Object, World.connect_Object_trace, hs, World.new_ClassFuncConnection,
      World.setSignal, ho, World.setObject]
  · simp [World.setSignal]
  · simp [World.setObject, World.setSignal, SignalObject.onSignalConnected]
  · rw [hw2slots]; exact hnone
  · rw [hw2slots]; simp [World.setSignal]
  · intro j hj
    simp [World.setObject, World.setSignal, hj]
  · simp only [World.setSignal, if_true]
    exact SlotMap.find_emplace_self _ _ _ hkey
  · intro k hk
    simp only [World.setSignal, if_true]
    exact SlotMap.find_emplace_ne _ _ _ k hk
  · simp only [World.setSignal, if_true]
    rw [incr]
    exact Nat.mod_eq_of_lt (Nat.succ_lt_succ hc)
  · intro i hi
    simp [World.setSignal, World.setObject, hi]

/-- Witness for C9: on the fresh signal `2` and the fresh object `5` the back-reference
`(1, signal 2)` is there when the table is still empty. -/
theorem World.connect_Object_records_then_stores_witness :
    World.new.signalDestroyed 2 = false ∧ World.new.objectDestroyed 5 = false ∧
    (World.new.signal 2).m_IdCtr ∉ SlotMap.keys (World.new.signal 2).m_slots ∧
    (World.new.signal 2).m_IdCtr < SIZE_MAX ∧
    ∃ w1 w2 w3,
      World.new.connect_Object_trace 2 5 0
        = ([(ConnectEvent.onSignalConnected 5 2 1, w1),
            (ConnectEvent.emplace 2 1 (.ClassFuncConnection 5 0), w2)], .ok w3) ∧
      (w1.object 5).m_connectedSignals = [] ∧
      (w2.object 5).m_connectedSignals = [(1, 2)] ∧
      (w2.signal 2).m_slots = [] ∧
      (w3.signal 2).m_slots = [(1, .ClassFuncConnection 5 0)] ∧
      (w3.signal 2).m_IdCtr = 2 :=
  ⟨rfl, rfl, by decide, by decide,
    (World.connect_Object_records_then_stores World.new 2 5 0 rfl rfl (by decide)
      (by decide)).imp fun _ h1 => h1.imp fun _ h2 => h2.imp fun _ h =>
        ⟨h.1, (congrArg (fun f => (f 5).m_connectedSignals) h.2.2.1).trans rfl,
          h.2.2.2.2.1.trans rfl, h.2.2.2.2.2.1.trans rfl,
          h.2.2.2.2.2.2.2.1.trans (by rw [h.2.2.2.2.2.1]; rfl),
          h.2.2.2.2.2.2.2.2.2.2.2.2.1.trans rfl⟩⟩

/-- Counterexample to C9 as stated: closure `10` is connected to signal `0` under handle
`1`, then `SIZE_MAX` times a tracked object is connected and destroyed again; the table is
`[(1, closure 10)]` and the counter is `1` again. `connect(object 0, member 0)` now appends
the back-reference `(1, signal 0)`, and the table is unchanged: the member-slot connection is
not stored under key `1`. -/
theorem World.connect_Object_after_wrap_counterexample :
    slotsOf (World.run (Op.connect 0 10 :: wchurn 0 0 1 SIZE_MAX) World.new) 0
      = some [(1, .FuncConnection 10)] ∧
    counterOf (World.run (Op.connect 0 10 :: wchurn 0 0 1 SIZE_MAX) World.new) 0 = some 1 ∧
    backrefsOf (World.run ((Op.connect 0 10 :: wchurn 0 0 1 SIZE_MAX)
        ++ [Op.connect_Object 0 0 0]) World.new) 0 = some [(1, 0)] ∧
    slotsOf (World.run ((Op.connect 0 10 :: wchurn 0 0 1 SIZE_MAX)
        ++ [Op.connect_Object 0 0 0]) World.new) 0 = some [(1, .FuncConnection 10)] := by
  obtain ⟨w, hrun, hsig, hs, ho, hb⟩ := World.run_wchurn_wrapped
  have hstep := World.connect_Object_eq w 0 0 0 hs ho
  refine ⟨by rw [hrun, slotsOf, hsig], by rw [hrun, counterOf, hsig], ?_, ?_⟩
  · rw [World.run_snoc _ _ _ _ hrun, World.step, hstep, backrefsOf, World.connected_object,
      World.recorded_backrefs, if_pos rfl, hb, hsig]
    rfl
  · rw [World.run_snoc _ _ _ _ hrun, World.step, hstep, slotsOf, World.connected_signal,
      if_pos rfl, World.recorded_signal, hsig]
    rfl

/-! ## C10: connect of a closure -/

/-- C10 (amended): in every state in which no entry is stored under the current counter
value, `connect(func)` adds exactly one table entry, stores the closure under the value the
counter had before the call, advances the counter by one as a `size_t`, keeps every entry
that was there and changes the entry of no other key. Every state reached from a fresh
signal with fewer than `SIZE_MAX` connects is of that kind, and there the new entry goes
behind all existing ones. -/
theorem Signal.connect_adds_one_entry (s : Signal) (ops : List SignalOp) (func : FuncId)
    (hkey : s.m_IdCtr ∉ SlotMap.keys s.m_slots) (hwrap : numConnects ops < SIZE_MAX) :
    (s.connect func).m_slots.length = s.m_slots.length + 1 ∧
    SlotMap.find s.m_IdCtr (s.connect func).m_slots = some (.FuncConnection func) ∧
    (s.connect func).m_IdCtr = (s.m_IdCtr + 1) % (SIZE_MAX + 1) ∧
    (∀ e ∈ s.m_slots, e ∈ (s.connect func).m_slots) ∧
    (∀ k, k ≠ s.m_IdCtr →
      SlotMap.find k (s.connect func).m_slots = SlotMap.find k s.m_slots) ∧
    (Signal.run ops Signal.new).m_IdCtr ∉ SlotMap.keys (Signal.run ops Signal.new).m_slots ∧
    ((Signal.run ops Signal.new).connect func).m_slots
      = (Signal.run ops Signal.new).m_slots
        ++ [((Signal.run ops Signal.new).m_IdCtr, .FuncConnection func)] := by
  obtain ⟨h1, h2, h3⟩ := Signal.emplaceNext_run_new ops (.FuncConnection func) hwrap
  refine ⟨SlotMap.length_emplace_free _ _ _ hkey, SlotMap.find_emplace_self _ _ _ hkey, rfl,
    fun e he => SlotMap.mem_emplace_of_mem _ _ _ e he,
    fun k hk => SlotMap.find_emplace_ne _ _ _ k hk, ?_, ?_⟩
  · rw [h1]; exact h3
  · rw [h1]; exact h2

/-- Witness for C10: a closure connected after a member slot is stored under handle `2`. -/
theorem Signal.connect_adds_one_entry_witness :
    (Signal.run [SignalOp.connect (.ClassFuncConnection 4 0)] Signal.new).m_IdCtr
      ∉ SlotMap.keys (Signal.run [SignalOp.connect (.ClassFuncConnection 4 0)] Signal.new).m_slots ∧
    numConnects [SignalOp.connect (.ClassFuncConnection 4 0)] < SIZE_MAX ∧
    ((Signal.run [SignalOp.connect (.ClassFuncConnection 4 0)] Signal.new).connect 10).m_slots
      = [(1, .ClassFuncConnection 4 0), (2, .FuncConnection 10)] :=
  ⟨by decide, by decide,
    (Signal.connect_adds_one_entry
      (Signal.run [SignalOp.connect (.ClassFuncConnection 4 0)] Signal.new)
      [SignalOp.connect (.ClassFuncConnection 4 0)] 10
      (by decide) (by decide)).2.2.2.2.2.2.trans (by decide)⟩

/-- Counterexample to C10 as stated: in the state reached by connecting closure `10` and
then `SIZE_MAX` rounds of connect and removal, the counter is `1` again and key `1` is
taken; `connect(11)` leaves the table as it is: no entry is added, the closure is not
stored. -/
theorem Signal.connect_dropped_counterexample :
    (Signal.run (SignalOp.connect (.FuncConnection 10) :: churn 0 2 SIZE_MAX) Signal.new).m_slots
      = [(1, .FuncConnection 10)] ∧
    ((Signal.run (SignalOp.connect (.FuncConnection 10) :: churn 0 2 SIZE_MAX)
      Signal.new).connect 11).m_slots = [(1, .FuncConnection 10)] := by
  rw [Signal.run_churn_wrapped]
  exact ⟨rfl, by decide⟩

/-! ## C11: removal touches one key -/

/-- C11: for every signal state and every handle `h`, `onSlotsObjectDestroyed(h)` leaves the
handle counter unchanged and removes only the entry with key `h`: the table afterwards is
the old table without the entries of key `h`, in the old order; an entry is in it exactly
when it was in the old table under another key; the lookup of every key other than `h`
gives the same connection as before, and the lookup of `h` finds nothing. -/
theorem Signal.onSlotsObjectDestroyed_removes_only (s : Signal) (h : SlotHandle) :
    (s.onSlotsObjectDestroyed h).m_IdCtr = s.m_IdCtr ∧
    (s.onSlotsObjectDestroyed h).m_slots = s.m_slots.filter (fun e => decide (e.1 ≠ h)) ∧
    (∀ e, e ∈ (s.onSlotsObjectDestroyed h).m_slots ↔ e ∈ s.m_slots ∧ e.1 ≠ h) ∧
    (∀ k, k ≠ h →
      SlotMap.find k (s.onSlotsObjectDestroyed h).m_slots = SlotMap.find k s.m_slots) ∧
    SlotMap.find h (s.onSlotsObjectDestroyed h).m_slots = none := by
  have hslots : (s.onSlotsObjectDestroyed h).m_slots
      = s.m_slots.filter (fun e => decide (e.1 ≠ h)) := SlotMap.eraseLoop_eq_filter h s.m_slots
  refine ⟨rfl, hslots, ?_, fun k hk => SlotMap.find_eraseLoop_ne h k s.m_slots hk,
    SlotMap.find_eraseLoop_self h s.m_slots⟩
  intro e
  rw [hslots, List.mem_filter]
  simp

/-- Witness for C11: removing handle `2` from a table with keys `1`, `2`, `3` leaves closure
`11` under key `3`. -/
theorem Signal.onSlotsObjectDestroyed_removes_only_witness :
    (3 : SlotHandle) ≠ 2 ∧
    SlotMap.find 3 (Signal.onSlotsObjectDestroyed (Signal.mk
      [(1, .FuncConnection 10), (2, .ClassFuncConnection 3 0), (3, .FuncConnection 11)] 4)
      2).m_slots = some (.FuncConnection 11) :=
  ⟨by decide, ((Signal.onSlotsObjectDestroyed_removes_only (Signal.mk
      [(1, .FuncConnection 10), (2, .ClassFuncConnection 3 0), (3, .FuncConnection 11)] 4)
      2).2.2.2.1 3 (by decide)).trans (by decide)⟩

/-! ## C12: removal is idempotent -/

/-- C12: for every signal state and handle `h` that is not a key of the table,
`onSlotsObjectDestroyed(h)` returns the same state, table and counter (the call is a total
function and raises nothing); so for every state and handle, applying it twice gives the
same state as applying it once. -/
theorem Signal.onSlotsObjectDestroyed_idempotent (s : Signal) (h : SlotHandle)
    (habsent : h ∉ SlotMap.keys s.m_slots) :
    s.onSlotsObjectDestroyed h = s ∧
    ∀ (t : Signal) (k : SlotHandle),
      (t.onSlotsObjectDestroyed k).onSlotsObjectDestroyed k = t.onSlotsObjectDestroyed k := by
  constructor
  · show ({ s with m_slots := SlotMap.eraseLoop h s.m_slots } : Signal) = s
    rw [SlotMap.eraseLoop_of_not_mem h s.m_slots habsent]
  · intro t k
    simp only [Signal.onSlotsObjectDestroyed]
    rw [SlotMap.eraseLoop_of_not_mem k _ (SlotMap.not_mem_keys_eraseLoop k t.m_slots)]

/-- Witness for C12: removing the absent handle `5` from a table with keys `1` and `2` changes
nothing. -/
theorem Signal.onSlotsObjectDestroyed_idempotent_witness :
    (5 : SlotHandle) ∉ SlotMap.keys
      (Signal.mk [(1, .FuncConnection 10), (2, .ClassFuncConnection 3 0)] 3).m_slots ∧
    (Signal.mk [(1, .FuncConnection 10), (2, .ClassFuncConnection 3 0)] 3).onSlotsObjectDestroyed 5
      = Signal.mk [(1, .FuncConnection 10), (2, .ClassFuncConnection 3 0)] 3 :=
  ⟨by decide, (Signal.onSlotsObjectDestroyed_idempotent
    (Signal.mk [(1, .FuncConnection 10), (2, .ClassFuncConnection 3 0)] 3) 5 (by decide)).1⟩

/-! ## C13: disconnect of a handle that matches no back-reference -/

/-- C13, the code at the failing input: with the back-reference list `[(1, signal 1)]`, and
with the empty list, no element matches the handle, `remove_if` returns `end()` and the
single-iterator `erase` is called on `end()`, which is undefined. A program reaches it with
the public calls alone: object `0` is connected to signal `1` once and to signal `2`
twice; destroying signal `1` leaves the back-references `(2, signal 2)` twice; destroying
signal `2` then calls `onSignalDisconnected(1)` for its first entry, which matches no
element. So does `connect` of a connection built with handle `7`, which the signal stores
under handle `1`, followed by the destruction of the signal. -/
theorem SignalObject.onSignalDisconnected_no_match_evaluation :
    SignalObject.onSignalDisconnected { m_connectedSignals := [(1, 1)] } 2 = none ∧
    SignalObject.onSignalDisconnected { m_connectedSignals := [] } 1 = none ∧
    backrefsOf (World.run [Op.connect_Object 1 0 0, Op.connect_Object 2 0 0,
      Op.connect_Object 2 0 0, Op.destroySignal 1] World.new) 0 = some [(2, 2), (2, 2)] ∧
    faultOf (World.run [Op.connect_Object 1 0 0, Op.connect_Object 2 0 0,
      Op.connect_Object 2 0 0, Op.destroySignal 1, Op.destroySignal 2] World.new)
      = some (.eraseEnd 0) ∧
    faultOf (World.run [Op.connect_ClassFuncConnection 0 0 0 0 7, Op.destroySignal 0]
      World.new) = some (.eraseEnd 0) := by
  refine ⟨by decide, by decide, by decide, by decide, by decide⟩

/-! ## C14: destroying a signal of closures -/

/-- C14: `onDestroy` of a closure connection leaves the state as it is and calls no
`onSignalDisconnected`; destroying a live signal whose table holds only closure
connections makes no `onSignalDisconnected` call, returns without a fault, and leaves every
tracked object (so every back-reference list) and every table as it was; only the signal
is marked destroyed. -/
theorem World.destroySignal_closures_only (w : World) (s : SigId) (f : FuncId)
    (h : SlotHandle) (hs : w.signalDestroyed s = false)
    (hall : ∀ e ∈ (w.signal s).m_slots, e.2.boundTo = none) :
    (Connection.FuncConnection f).onDestroy w h = .ok w ∧
    (Connection.FuncConnection f).onDestroy_calls h = [] ∧
    World.destroySignal_calls (w.signal s).m_slots = [] ∧
    ∃ w1, w.destroySignal s = .ok w1 ∧ w1.object = w.object ∧
      w1.objectDestroyed = w.objectDestroyed ∧ w1.signal = w.signal ∧
      w1.signalDestroyed s = true := by
  obtain ⟨h1, h2⟩ := World.destroySignal_loop_closures (w.signal s).m_slots w hall
  refine ⟨rfl, rfl, h2, World.mk w.signal (fun i => if i = s then true else w.signalDestroyed i)
    w.object w.objectDestroyed, ?_, rfl, rfl, rfl, ?_⟩
  · simp only [World.destroySignal, hs, Bool.false_eq_true, if_false, h1]
  · show (if s = s then true else w.signalDestroyed s) = true
    rw [if_pos rfl]

/-- Witness for C14: signal `0` holding the single closure `10` is destroyed; objects and
tables are as before. -/
theorem World.destroySignal_closures_only_witness :
    (World.new.connected 0 (.FuncConnection 10)).signalDestroyed 0 = false ∧
    (∀ e ∈ ((World.new.connected 0 (.FuncConnection 10)).signal 0).m_slots,
      e.2.boundTo = none) ∧
    ∃ w1, (World.new.connected 0 (.FuncConnection 10)).destroySignal 0 = .ok w1 ∧
      w1.object = (World.new.connected 0 (.FuncConnection 10)).object ∧
      w1.objectDestroyed = (World.new.connected 0 (.FuncConnection 10)).objectDestroyed ∧
      w1.signal = (World.new.connected 0 (.FuncConnection 10)).signal ∧
      w1.signalDestroyed 0 = true :=
  ⟨rfl, by decide,
    (World.destroySignal_closures_only (World.new.connected 0 (.FuncConnection 10)) 0 10 1
      rfl (by decide)).2.2.2⟩

/-! ## C15: shorthand operators -/

/-- C15: for every signal state and arguments, `operator()(args)` gives the same invocation
trace as `emit(args)`, and with slots that react the same outcome, trace and resulting
signal state as `emit`; `operator+=(func)` gives the same signal state as `connect(func)`,
the same state of signals and objects (or the same fault), and the reference it returns is
to the signal it was called on. -/
theorem Signal.operators_are_shorthand {Args : Type} (react : Connection → SlotReaction)
    (s : Signal) (args : Args) (fuel : Nat) (func : FuncId) (w : World) (i : SigId) :
    Signal.operator_call s args = s.emit args ∧
    Signal.operator_callWith react s args fuel = Signal.emitWith react s args fuel ∧
    (Signal.operator_callWith react s args fuel).trace = (Signal.emitWith react s args fuel).trace ∧
    (Signal.operator_callWith react s args fuel).signal =
      (Signal.emitWith react s args fuel).signal ∧
    Signal.operator_add_assign s func = s.connect func ∧
    (w.operator_add_assign i func).map Prod.fst = w.connect i func ∧
    (∀ r, w.operator_add_assign i func = .ok r → r.2 = i) ∧
    ((w.operator_add_assign i func).toOption.isSome = (w.connect i func).toOption.isSome) := by
  refine ⟨rfl, rfl, rfl, rfl, rfl, ?_, ?_, ?_⟩
  · unfold World.operator_add_assign
    cases w.connect i func <;> rfl
  · intro r hr
    unfold World.operator_add_assign at hr
    cases hc : w.connect i func with
    | error e => rw [hc] at hr; cases hr
    | ok w1 => rw [hc] at hr; cases hr; rfl
  · unfold World.operator_add_assign
    cases w.connect i func <;> rfl

/-! ## C16: the notification of destroy -/

/-- C16: whatever the notification does, the calls of `SignalObject::destroy` on object `o`
start with `sigDestroy`, made in the state in which `destroy` was called; every later call
is an `onSlotsObjectDestroyed` of the back-reference walk, so the notification fires exactly
once and before the first of them; and in the state the notification is made in, every
table is the table from before `destroy`, so every member-slot connection of the object
that was in a table is still there. -/
theorem World.destroy_notifies_once_first (sigDestroy : World → World) (w : World) (o : ObjId) :
    (World.destroy_trace sigDestroy w o).head? = some (DestroyEvent.sigDestroy o, w) ∧
    (∀ ev ∈ (World.destroy_trace sigDestroy w o).tail,
      ∃ s h, ev.1 = DestroyEvent.onSlotsObjectDestroyed s h) ∧
    ((World.destroy_trace sigDestroy w o).map Prod.fst).count (DestroyEvent.sigDestroy o) = 1 ∧
    (∀ i w1, (DestroyEvent.sigDestroy i, w1) ∈ World.destroy_trace sigDestroy w o →
      w1 = w ∧ ∀ s, (w1.signal s).m_slots = (w.signal s).m_slots) := by
  refine ⟨rfl, ?_, ?_, ?_⟩
  · intro ev hev
    exact World.destroy_loop_trace_events _ _ ev hev
  · show ((DestroyEvent.sigDestroy o) :: ((sigDestroy w).destroy_loop_trace
      ((sigDestroy w).object o).m_connectedSignals).map Prod.fst).count
        (DestroyEvent.sigDestroy o) = 1
    rw [List.count_cons_self, World.destroy_loop_trace_count]
  · intro i w1 hmem
    simp only [World.destroy_trace, List.mem_cons] at hmem
    rcases hmem with h | h
    · have hw : w1 = w := (Prod.mk.inj h).2
      exact ⟨hw, fun s => by rw [hw]⟩
    · obtain ⟨s, k, hsk⟩ := World.destroy_loop_trace_events _ _ _ h
      cases hsk

/-! ## C17: emit leaves the table alone -/

/-- C17: for every signal state (a table sorted by key, as a `std::map` is) and arguments,
when the invoked slots make no call on the signal, `emit` returns (fuel for one step per
entry is enough), either completed or left by the first throwing slot, and in both cases
the signal afterwards, table and counter, is the signal before; the slots invoked are
those up to the first that throws, and all of them in table order when none throws. -/
theorem Signal.emit_does_not_mutate {Args : Type} (react : Connection → SlotReaction)
    (s : Signal) (args : Args) (fuel : Nat)
    (hquiet : ∀ c, (react c).ops = [])
    (hmap : (SlotMap.keys s.m_slots).Sorted (· < ·))
    (hfuel : s.m_slots.length ≤ fuel) :
    Signal.emitWith react s args fuel
      = (if (emitUntilThrow react args s.m_slots).2
        then .threw s (emitUntilThrow react args s.m_slots).1
        else .completed s (emitUntilThrow react args s.m_slots).1) ∧
    (Signal.emitWith react s args fuel).signal = s ∧
    ((∀ c, (react c).throws = false) →
      Signal.emitWith react s args fuel = .completed s (s.emit args)) := by
  have h := Signal.emitLoop_quiet react args s hquiet hmap s.m_slots [] fuel [] rfl hfuel
  simp only [List.nil_append] at h
  have h1 : Signal.emitWith react s args fuel
      = (if (emitUntilThrow react args s.m_slots).2
        then .threw s (emitUntilThrow react args s.m_slots).1
        else .completed s (emitUntilThrow react args s.m_slots).1) := h
  refine ⟨h1, ?_, ?_⟩
  · rw [h1]; split <;> rfl
  · intro hno
    rw [h1, emitUntilThrow_of_no_throw react args s.m_slots hno, Signal.emit_eq_map]
    simp

/-- Witness for C17: of three closures the second throws; `emit` invokes the first two and the
signal is unchanged. -/
theorem Signal.emit_does_not_mutate_witness :
    (∀ c, ((fun c : Connection => SlotReaction.mk [] (decide (c = .FuncConnection 11))) c).ops
      = []) ∧
    (SlotMap.keys (Signal.mk [(1, .FuncConnection 10), (2, .FuncConnection 11),
      (3, .FuncConnection 12)] 4).m_slots).Sorted (· < ·) ∧
    (Signal.mk [(1, .FuncConnection 10), (2, .FuncConnection 11),
      (3, .FuncConnection 12)] 4).m_slots.length ≤ 3 ∧
    Signal.emitWith (fun c : Connection => SlotReaction.mk [] (decide (c = .FuncConnection 11)))
      (Signal.mk [(1, .FuncConnection 10), (2, .FuncConnection 11), (3, .FuncConnection 12)] 4)
      (5 : Nat) 3
      = .threw (Signal.mk [(1, .FuncConnection 10), (2, .FuncConnection 11),
          (3, .FuncConnection 12)] 4) [.func 10 5, .func 11 5] :=
  ⟨fun _ => rfl, by decide, by decide,
    (Signal.emit_does_not_mutate
      (fun c : Connection => SlotReaction.mk [] (decide (c = .FuncConnection 11)))
      (Signal.mk [(1, .FuncConnection 10), (2, .FuncConnection 11), (3, .FuncConnection 12)] 4)
      (5 : Nat) 3 (fun _ => rfl) (by decide) (by decide)).1.trans (by decide)⟩

/-! ## C18: lock discipline -/

/-- C18, the code at the failing input: `connect(object, member)` on signal `0` with object
`0` locks the mutex of the object while it holds the mutex of the signal, and so does the
destructor of the signal; `SignalObject::destroy` of the object, which after the connect
holds the back-reference `(1, signal 0)`, locks the mutex of the signal while it holds the
mutex of the object. The two directions take the pair of locks in opposite orders. -/
theorem Signal.connect_Object_locks_nest :
    nestedAcquires (Signal.connect_Object_locks 0 0) [] = [(Lock.signal 0, Lock.object 0)] ∧
    nestedAcquires (SignalObject.destroy_locks 0 [(1, 0)]) [] =
      [(Lock.object 0, Lock.signal 0)] ∧
    nestedAcquires (Signal.destructor_locks 0 [(1, Connection.ClassFuncConnection 0 0)]) [] =
      [(Lock.signal 0, Lock.object 0)] ∧
    backrefsOf (World.run [Op.connect_Object 0 0 0] World.new) 0 = some [(1, 0)] ∧
    slotsOf (World.run [Op.connect_Object 0 0 0] World.new) 0 =
      some [(1, Connection.ClassFuncConnection 0 0)] := by
  refine ⟨by decide, by decide, by decide, by decide, by decide⟩

/-! ## C19: a slot that removes its own entry during emit -/

/-- C19, the code at the failing input: the table holds a member slot under handle `1` and
closure `10` under handle `2`. When the member slot, while it is invoked by `emit`, has
`onSlotsObjectDestroyed(1)` called on the signal, the entry the loop of `emit` stands on is
erased and its iterator is invalid: the emission does not complete and closure `10` is not
invoked. With slots that leave the signal alone the same emission invokes both. -/
theorem Signal.emit_self_disconnect_evaluation :
    Signal.emitWith
      (fun c => if c = Connection.ClassFuncConnection 0 0
        then SlotReaction.mk [SignalOp.onSlotsObjectDestroyed 1] false
        else SlotReaction.mk [] false)
      (Signal.mk [(1, Connection.ClassFuncConnection 0 0), (2, Connection.FuncConnection 10)] 3)
      (5 : Nat) 2
      = EmitResult.invalidIterator (Signal.mk [(2, Connection.FuncConnection 10)] 3)
          [Invocation.member 0 0 5] ∧
    Signal.emitWith (fun _ => SlotReaction.mk [] false)
      (Signal.mk [(1, Connection.ClassFuncConnection 0 0), (2, Connection.FuncConnection 10)] 3)
      (5 : Nat) 2
      = EmitResult.completed
          (Signal.mk [(1, Connection.ClassFuncConnection 0 0), (2, Connection.FuncConnection 10)] 3)
          [Invocation.member 0 0 5, Invocation.func 10 5] := by
  refine ⟨by decide, by decide⟩

/-! ## C20: registerProperty -/

/-- C20: `registerProperty(prop)` throws `InvalidUsage` if and only if `prop` is already in the
property list, and throws nothing if and only if it is not; when it throws the object is
unchanged, and otherwise the new property list is the old list with `prop` appended at the
end (the name is unchanged). -/
theorem ReflectableObject.registerProperty_raises_iff_registered (r : ReflectableObject)
    (prop : PropId) :
    ((∃ message, (r.registerProperty prop).2 = some (Exception.InvalidUsage message)) ↔
      prop ∈ r.m_propertyList) ∧
    ((r.registerProperty prop).2 = none ↔ prop ∉ r.m_propertyList) ∧
    r.registerProperty prop =
      if prop ∈ r.m_propertyList
      then (r, some (Exception.InvalidUsage ("property already registered")))
      else (ReflectableObject.mk r.m_objectName (r.m_propertyList ++ [prop]), none) := by
  have hfind := std_find_ne_length r.m_propertyList prop
  by_cases hmem : prop ∈ r.m_propertyList
  · have h1 : r.registerProperty prop =
        (r, some (Exception.InvalidUsage ("property already registered"))) := by
      unfold ReflectableObject.registerProperty
      rw [if_pos (hfind.2 hmem)]
    refine ⟨?_, ?_, ?_⟩
    · rw [h1]; exact ⟨fun _ => hmem, fun _ => ⟨_, rfl⟩⟩
    · rw [h1]; exact ⟨fun h => (by cases h), fun h => absurd hmem h⟩
    · rw [h1, if_pos hmem]
  · have h1 : r.registerProperty prop =
        (ReflectableObject.mk r.m_objectName (r.m_propertyList ++ [prop]), none) := by
      unfold ReflectableObject.registerProperty
      rw [if_neg (fun h => hmem (hfind.1 h))]
    refine ⟨?_, ?_, ?_⟩
    · rw [h1]; exact ⟨fun ⟨_, h⟩ => (by cases h), fun h => absurd h hmem⟩
    · rw [h1]; exact ⟨fun _ => hmem, fun _ => rfl⟩
    · rw [h1, if_neg hmem]

/-! ## C21: TypeStack is a stack -/

/-- C21: for every stack `S = TypeStack<E1..En>` and type `X`, `S::Push<X>` is
`TypeStack<X, E1..En>`, its `Top` is `X`, its `Pop` is `S`, and its `kSize` is `S::kSize + 1`;
`kSize` is the number `n` of elements and `kEmpty` is true exactly when `n = 0`. -/
theorem TypeStack.push_pop_top_size (s : TypeStack) (X : CppType) :
    (s.Push X).ElementsT = X :: s.ElementsT ∧
    (s.Push X).Top = X ∧
    (s.Push X).Pop = s ∧
    (s.Push X).kSize = s.kSize + 1 ∧
    s.kSize = s.ElementsT.length ∧
    (s.kEmpty = true ↔ s.ElementsT.length = 0) := by
  refine ⟨rfl, rfl, rfl, rfl, rfl, ?_⟩
  simp [TypeStack.kEmpty, TypeStack.kSize]

/-! ## C22: disconnect of a handle held once -/

/-- C22: for every back-reference list whose entries have pairwise distinct handles and every
handle `h` occurring in it, `onSignalDisconnected(h)` returns, and the list afterwards is
the old list without the entry of `h`: the list splits into `pre`, the entry and `post`, no
other entry has handle `h`, and the result is `pre ++ post`, which is the old list filtered
on handles other than `h`. -/
theorem SignalObject.onSignalDisconnected_removes_entry (o : SignalObject) (h : SlotHandle)
    (hdistinct : (o.m_connectedSignals.map Prod.fst).Nodup)
    (hmem : h ∈ o.m_connectedSignals.map Prod.fst) :
    o.onSignalDisconnected h
      = some { m_connectedSignals := o.m_connectedSignals.filter (fun e => decide (e.1 ≠ h)) } ∧
    ∃ pre sig post, o.m_connectedSignals = pre ++ (h, sig) :: post ∧
      (∀ e ∈ pre ++ post, e.1 ≠ h) ∧
      o.onSignalDisconnected h = some { m_connectedSignals := pre ++ post } := by
  obtain ⟨pre, e, post, hsplit, hfe, hpre, hpost⟩ :=
    split_at_key Prod.fst o.m_connectedSignals h hdistinct hmem
  obtain ⟨f1, f2⟩ := filter_key_of_split Prod.fst pre post e h hfe hpre hpost
  have herase := vector_erase_remove_if_single
    (fun element : SlotHandle × SigId => decide (element.1 = h)) o.m_connectedSignals
    (by rw [hsplit, f1]; rfl)
  have hres : o.onSignalDisconnected h = some { m_connectedSignals := pre ++ post } := by
    simp only [SignalObject.onSignalDisconnected, herase, Option.map_some']
    rw [hsplit, f2]
  have hfil : o.m_connectedSignals.filter (fun e => decide (e.1 ≠ h)) = pre ++ post := by
    rw [hsplit, ← f2]
    apply List.filter_congr
    intro x _
    simp
  refine ⟨by rw [hres, hfil], pre, e.2, post, ?_, ?_, hres⟩
  · rw [hsplit, ← hfe]
  · intro x hx
    rcases List.mem_append.1 hx with h1 | h1
    · exact hpre x h1
    · exact hpost x h1

/-- Witness for C22: of the back-references with handles `1`, `2`, `3` the one with handle `2`
is removed. -/
theorem SignalObject.onSignalDisconnected_removes_entry_witness :
    ((SignalObject.mk [(1, 4), (2, 5), (3, 4)]).m_connectedSignals.map Prod.fst).Nodup ∧
    (2 : SlotHandle) ∈ (SignalObject.mk [(1, 4), (2, 5), (3, 4)]).m_connectedSignals.map Prod.fst ∧
    (SignalObject.mk [(1, 4), (2, 5), (3, 4)]).onSignalDisconnected 2
      = some (SignalObject.mk [(1, 4), (3, 4)]) :=
  ⟨by decide, by decide,
    (SignalObject.onSignalDisconnected_removes_entry (SignalObject.mk [(1, 4), (2, 5), (3, 4)]) 2
      (by decide) (by decide)).1.trans (by decide)⟩

/-! ## C23: popping the empty TypeStack -/

/-- C23: for the empty stack `Pop` is the empty stack again and `Top` is its `Bottom` marker.
For every non-empty stack `Top` is the first element: it is not the `Bottom` marker of
that stack, and if it is the `Bottom` marker of any stack, that marker is an element of
the stack. -/
theorem TypeStack.pop_empty_is_captured (s : TypeStack) :
    (TypeStack.mk []).Pop = TypeStack.mk [] ∧
    (TypeStack.mk []).Top = CppType.Bottom [] ∧
    (s.ElementsT ≠ [] → s.Top ≠ CppType.Bottom s.ElementsT) ∧
    (s.ElementsT ≠ [] → ∀ E, s.Top = CppType.Bottom E → CppType.Bottom E ∈ s.ElementsT) ∧
    (s.ElementsT ≠ [] → s.ElementsT.head? = some s.Top) := by
  refine ⟨rfl, rfl, ?_, ?_, ?_⟩
  · intro hne
    obtain ⟨l⟩ := s
    cases l with
    | nil => exact absurd rfl hne
    | cons x rest => exact CppType.Bottom_ne_head x rest
  · intro hne E hE
    obtain ⟨l⟩ := s
    cases l with
    | nil => exact absurd rfl hne
    | cons x rest =>
      have hx : x = CppType.Bottom E := hE
      rw [← hx]
      exact List.mem_cons_self _ _
  · intro hne
    obtain ⟨l⟩ := s
    cases l with
    | nil => exact absurd rfl hne
    | cons x rest => rfl

/-- Witness for C23: the top of a stack of two types, the second a `Bottom` marker, is not the
marker of that stack. -/
theorem TypeStack.pop_empty_is_captured_witness :
    (TypeStack.mk [CppType.other 1, CppType.Bottom []]).ElementsT ≠ [] ∧
    (TypeStack.mk [CppType.other 1, CppType.Bottom []]).Top
      ≠ CppType.Bottom [CppType.other 1, CppType.Bottom []] :=
  ⟨List.cons_ne_nil _ _,
    (TypeStack.pop_empty_is_captured (TypeStack.mk [CppType.other 1, CppType.Bottom []])).2.2.1
      (List.cons_ne_nil _ _)⟩

/-! ## C24: destroy called twice -/

/-- C24: when the signals named by the back-references of object `o` are alive, `destroy`
on `o` returns and changes no object, so the back-reference list of `o` is as before; a
second `destroy` right after it returns the state it started from, and so does the
destructor as far as signals and objects go: every table is exactly as after the first
call. -/
theorem World.destroy_twice (w : World) (o : ObjId)
    (halive : ∀ e ∈ (w.object o).m_connectedSignals, w.signalDestroyed e.2 = false) :
    ∃ w1, w.destroy o = .ok w1 ∧
      w1.object = w.object ∧
      w1.destroy o = .ok w1 ∧
      (w1.objectDestroyed o = false →
        ∃ w2, w1.destroyObject o = .ok w2 ∧ w2.signal = w1.signal ∧ w2.object = w1.object) := by
  obtain ⟨w1, hrun, r1, _, r3, r4, _⟩ :=
    World.destroy_loop_alive (w.object o).m_connectedSignals w halive
  have hsecond : w1.destroy o = .ok w1 := by
    show w1.destroy_loop (w1.object o).m_connectedSignals = .ok w1
    rw [r3]
    apply World.destroy_loop_fixed
    intro e he
    refine ⟨by rw [r4]; exact halive e he, ?_⟩
    intro hk
    obtain ⟨a, ha, hae⟩ := List.mem_map.1 hk
    rw [r1 e.2] at ha
    have hnot := (List.mem_filter.1 ha).2
    have hin : (a.1, e.2) ∈ (w.object o).m_connectedSignals := by
      have : a.1 = e.1 := hae
      rw [this]; exact he
    simp [hin] at hnot
  refine ⟨w1, hrun, r3, hsecond, ?_⟩
  intro hod
  refine ⟨World.mk w1.signal w1.signalDestroyed w1.object
    (fun i => if i = o then true else w1.objectDestroyed i), ?_, rfl, rfl⟩
  simp only [World.destroyObject, hod, Bool.false_eq_true, if_false, hsecond]

/-- Witness for C24: object `0` holds one member slot on signal `0`; `destroy` called again
on the state after `destroy` returns that state. -/
theorem World.destroy_twice_witness :
    (∀ e ∈ (((World.new.connected 0 (.ClassFuncConnection 0 0)).recorded 0 1 0).object
      0).m_connectedSignals,
      ((World.new.connected 0 (.ClassFuncConnection 0 0)).recorded 0 1 0).signalDestroyed e.2
        = false) ∧
    ∃ w1, ((World.new.connected 0 (.ClassFuncConnection 0 0)).recorded 0 1 0).destroy 0 = .ok w1 ∧
      w1.destroy 0 = .ok w1 :=
  ⟨by decide,
    (World.destroy_twice ((World.new.connected 0 (.ClassFuncConnection 0 0)).recorded 0 1 0) 0
      (by decide)).imp (fun _ h => ⟨h.1, h.2.2.1⟩)⟩

/-! ## C25: the property list has no duplicates -/

/-- C25: the empty property list has no duplicates; if the property list has none, it has
none after `registerProperty(prop)`, whether the call throws or not; and for a registered
`prop`, `unregisterProperty(prop)` returns and the list afterwards has none. -/
theorem ReflectableObject.propertyList_nodup (r : ReflectableObject) (prop : PropId)
    (hnodup : r.m_propertyList.Nodup) :
    (ReflectableObject.mk r.m_objectName []).m_propertyList.Nodup ∧
    (r.registerProperty prop).1.m_propertyList.Nodup ∧
    (prop ∈ r.m_propertyList →
      ∃ r1, r.unregisterProperty prop = some r1 ∧ r1.m_propertyList.Nodup) := by
  refine ⟨List.nodup_nil, ?_, ?_⟩
  · by_cases hmem : prop ∈ r.m_propertyList
    · rw [ReflectableObject.registerProperty_of_mem r prop hmem]; exact hnodup
    · rw [ReflectableObject.registerProperty_of_not_mem r prop hmem]
      show (r.m_propertyList ++ [prop]).Nodup
      rw [List.nodup_append]
      refine ⟨hnodup, List.nodup_singleton _, ?_⟩
      intro a ha hb
      rw [List.mem_singleton.1 hb] at ha
      exact hmem ha
  · intro hmem
    obtain ⟨pre, post, hsplit, _, hres⟩ :=
      ReflectableObject.unregisterProperty_of_mem r prop hnodup hmem
    refine ⟨_, hres, ?_⟩
    show (pre ++ post).Nodup
    rw [hsplit] at hnodup
    exact (List.nodup_cons.1 (List.nodup_middle.1 hnodup)).2

/-- Witness for C25: property `5` is unregistered from the list `3, 5, 7`. -/
theorem ReflectableObject.propertyList_nodup_witness :
    (ReflectableObject.mk none [3, 5, 7]).m_propertyList.Nodup ∧
    (5 : PropId) ∈ (ReflectableObject.mk none [3, 5, 7]).m_propertyList ∧
    ∃ r1, (ReflectableObject.mk none [3, 5, 7]).unregisterProperty 5 = some r1 ∧
      r1.m_propertyList.Nodup :=
  ⟨by decide, by decide,
    (ReflectableObject.propertyList_nodup (ReflectableObject.mk none [3, 5, 7]) 5
      (by decide)).2.2 (by decide)⟩

/-! ## C26: register and unregister -/

/-- C26: for every duplicate-free property list and every property `p`: if `p` is not in the
list, `registerProperty(p)` throws nothing and `unregisterProperty(p)` after it gives the
object from before; if `p` is in the list, `unregisterProperty(p)` removes `p` and keeps
the other properties in their order (the list is `pre`, `p`, `post` and becomes
`pre ++ post`, with `p` in neither). -/
theorem ReflectableObject.register_unregister_round_trip (r : ReflectableObject)
    (p : PropId) (hnodup : r.m_propertyList.Nodup) :
    (p ∉ r.m_propertyList →
      (r.registerProperty p).2 = none ∧
      (r.registerProperty p).1.unregisterProperty p = some r) ∧
    (p ∈ r.m_propertyList →
      r.unregisterProperty p = some (ReflectableObject.mk r.m_objectName
        (r.m_propertyList.filter (fun x => decide (x ≠ p)))) ∧
      ∃ pre post, r.m_propertyList = pre ++ p :: post ∧ p ∉ pre ++ post ∧
        r.unregisterProperty p = some (ReflectableObject.mk r.m_objectName (pre ++ post))) := by
  constructor
  · intro hnot
    rw [ReflectableObject.registerProperty_of_not_mem r p hnot]
    refine ⟨rfl, ?_⟩
    have hn2 : (r.m_propertyList ++ [p]).Nodup := by
      rw [List.nodup_append]
      refine ⟨hnodup, List.nodup_singleton _, ?_⟩
      intro a ha hb
      rw [List.mem_singleton.1 hb] at ha
      exact hnot ha
    obtain ⟨pre, post, hsplit, hnotin, hres⟩ :=
      ReflectableObject.unregisterProperty_of_mem
        (ReflectableObject.mk r.m_objectName (r.m_propertyList ++ [p])) p hn2 (by simp)
    rw [hres]
    have hsplit2 : r.m_propertyList ++ [p] = pre ++ p :: post := hsplit
    -- the split of a duplicate-free list at `p` is unique
    have hpost : post = [] := by
      cases hpo : post.reverse with
      | nil => simpa using hpo
      | cons y ys =>
        have hpe : post = ys.reverse ++ [y] := by
          rw [← List.reverse_reverse post, hpo]; simp
        rw [hpe, ← List.cons_append, ← List.append_assoc] at hsplit2
        have hy := List.append_inj_right' hsplit2 rfl
        have hyp : p = y := by simpa using hy
        exact absurd (by rw [hpe, hyp]; simp) hnotin
    rw [hpost] at hsplit2 ⊢
    have hpre : r.m_propertyList = pre := List.append_inj_left' hsplit2 rfl
    rw [List.append_nil, ← hpre]
  · intro hmem
    obtain ⟨pre, post, hsplit, hnotin, hres⟩ :=
      ReflectableObject.unregisterProperty_of_mem r p hnodup hmem
    refine ⟨?_, pre, post, hsplit, hnotin, hres⟩
    rw [hres, hsplit]
    have hf : (pre ++ p :: post).filter (fun x => decide (x ≠ p)) = pre ++ post := by
      rw [List.filter_append, List.filter_cons_of_neg (by simp)]
      rw [List.filter_eq_self.2 (fun x hx => by
          have : x ≠ p := fun hh => hnotin (List.mem_append_left _ (hh ▸ hx))
          simpa using this),
        List.filter_eq_self.2 (fun x hx => by
          have : x ≠ p := fun hh => hnotin (List.mem_append_right _ (hh ▸ hx))
          simpa using this)]
    rw [hf]

/-- Witness for C26: property `9` is registered in the list `3, 5, 7` and unregistered again. -/
theorem ReflectableObject.register_unregister_round_trip_witness :
    (ReflectableObject.mk none [3, 5, 7]).m_propertyList.Nodup ∧
    (9 : PropId) ∉ (ReflectableObject.mk none [3, 5, 7]).m_propertyList ∧
    ((ReflectableObject.mk none [3, 5, 7]).registerProperty 9).1.unregisterProperty 9
      = some (ReflectableObject.mk none [3, 5, 7]) :=
  ⟨by decide, by decide,
    ((ReflectableObject.register_unregister_round_trip (ReflectableObject.mk none [3, 5, 7]) 9
      (by decide)).1 (by decide)).2⟩

/-! ## C27: the lines of a hex dump -/

/-- C27 (amended): for every `pos` and `len` inside the buffer with `pos + len < 2 ^ 31`, so
that the `int` counters of the loop hold them, `hexDump(pos, len)` returns the lines of
`(len + 15) / 16` rows one after the other, nothing when `len = 0`. Row `r` holds the up to
16 bytes from `pos + 16 * r` on that lie before `pos + len`; its line starts with `0x`,
the offset `16 * r` in at least four lower-case hex digits and one cell of a blank and two
hex digits per byte of the row, and ends with its only newline. -/
theorem IBinaryStream.hexDump_line_count (s : IBinaryStream) (pos len : Nat)
    (hin : pos + len ≤ s.m_buffer.length) (hint : pos + len < 2 ^ 31) :
    ∃ lines : List (List Char),
      s.hexDump pos len = .ok lines.flatten ∧
      lines.length = (len + 15) / 16 ∧
      (len = 0 → lines.flatten = []) ∧
      ∀ r, r < (len + 15) / 16 →
        s.hexDump_row pos len r
          = (s.m_buffer.drop (pos + 16 * r)).take (min 16 (len - 16 * r)) ∧
        4 ≤ (std_hex 4 (16 * r)).length ∧
        (∀ c ∈ std_hex 4 (16 * r), isLowerHexDigit c = true) ∧
        (∀ b ∈ s.hexDump_row pos len r,
          hexDump_cell b = ' ' :: std_hex 2 b.val ∧ (std_hex 2 b.val).length = 2) ∧
        ∃ rest, lines[r]? = some (['0', 'x'] ++ std_hex 4 (16 * r) ++
            (s.hexDump_row pos len r).flatMap hexDump_cell ++ rest ++ ['\n']) ∧
          '\n' ∉ ['0', 'x'] ++ std_hex 4 (16 * r) ++
            (s.hexDump_row pos len r).flatMap hexDump_cell ++ rest := by
  refine ⟨s.hexDump_lines pos len 0 ((len + 15) / 16),
    IBinaryStream.hexDump_eq_lines s pos len hint hin,
    IBinaryStream.hexDump_lines_length s pos len _ _, ?_, ?_⟩
  · intro h0
    rw [h0]
    rfl
  · intro r hr
    refine ⟨IBinaryStream.hexDump_row_eq s pos len r, (std_hex_ge 4 (16 * r)).1,
      (std_hex_ge 4 (16 * r)).2, ?_, ?_⟩
    · intro b _
      exact ⟨rfl, (std_hex_spec 2 b.val (by decide) (by have := b.isLt; omega)).1⟩
    · refine ⟨List.replicate (3 * (16 - (s.hexDump_row pos len r).length)) ' ' ++ [' '] ++
        (s.hexDump_row pos len r).map hexDump_char, ?_, ?_⟩
      · rw [IBinaryStream.hexDump_lines_getElem s pos len _ 0 r hr, Nat.zero_add]
        simp [hexDump_line]
      · intro hmem
        simp only [List.mem_append, List.mem_cons, List.mem_flatMap, List.mem_map,
          List.mem_replicate, List.mem_singleton, List.not_mem_nil, or_false] at hmem
        rcases hmem with (((h | h) | h) | h) | (((h | h) | h))
        · revert h; decide
        · revert h; decide
        · have := (std_hex_ge 4 (16 * r)).2 _ h
          revert this; decide
        · obtain ⟨b, _, hb⟩ := h
          exact (hexDump_cell_spec b).2 hb
        · have := h.2; revert this; decide
        · revert h; decide
        · obtain ⟨b, _, hb⟩ := h
          exact hexDump_char_ne_newline b hb

/-- Witness for C27: two bytes at position `1` of a buffer of four give one line. -/
theorem IBinaryStream.hexDump_line_count_witness :
    1 + 2 ≤ (IBinaryStream.mk [65, 66, 0, 67]).m_buffer.length ∧ 1 + 2 < 2 ^ 31 ∧
    ∃ lines : List (List Char),
      IBinaryStream.hexDump (IBinaryStream.mk [65, 66, 0, 67]) 1 2 = .ok lines.flatten ∧
      lines.length = (2 + 15) / 16 :=
  ⟨by decide, by decide,
    (IBinaryStream.hexDump_line_count (IBinaryStream.mk [65, 66, 0, 67]) 1 2 (by decide)
      (by decide)).imp (fun _ h => ⟨h.1, h.2.1⟩)⟩

/-- Counterexample to C27 as stated: in a buffer of `2 ^ 31` bytes the range `pos = 0`,
`len = 2 ^ 31` is in bounds; `static_cast<int>(len + pos)` is `-2 ^ 31`, the loop does not
run and the result is the empty string, not the `2 ^ 27` lines of the claim. -/
theorem IBinaryStream.hexDump_int_counterexample :
    0 + 2 ^ 31 ≤ (IBinaryStream.mk (List.replicate (2 ^ 31) 0)).m_buffer.length ∧
    IBinaryStream.hexDump (IBinaryStream.mk (List.replicate (2 ^ 31) 0)) 0 (2 ^ 31) = .ok [] ∧
    (2 ^ 31 + 15) / 16 = 134217728 := by
  refine ⟨?_, ?_, by decide⟩
  · show 0 + 2 ^ 31 ≤ (List.replicate (2 ^ 31) (0 : Byte)).length
    rw [List.length_replicate]
    decide
  · unfold IBinaryStream.hexDump
    have hv : (IBinaryStream.mk (List.replicate (2 ^ 31) 0)).validateOffset 0 (2 ^ 31) = true := by
      unfold IBinaryStream.validateOffset
      rw [List.length_replicate]
      decide
    rw [hv, if_pos rfl]
    exact IBinaryStream.hexDump_loop_exit _ _ _ _ _ _ _ (by decide)

/-! ## C28: padding and the ASCII column -/

/-- C28 (amended): for every `pos` and `len` inside the buffer with `pos + len < 2 ^ 31` and
`len` between `1` and `0x10000`, the line of every row of `n` bytes is `0x`, the offset,
the cells, `3 * (16 - n)` blanks, one blank, the ASCII column and a newline; the ASCII
column starts at character position `55` on every line and has exactly `n` characters, with
`1 <= n <= 16`, the `i`-th being the `i`-th byte of the row if it is printable and a dot
otherwise; the ASCII columns together hold exactly `len` characters. -/
theorem IBinaryStream.hexDump_ascii_column (s : IBinaryStream) (pos len : Nat)
    (hin : pos + len ≤ s.m_buffer.length) (hint : pos + len < 2 ^ 31)
    (hlen1 : 1 ≤ len) (hlen2 : len ≤ 0x10000) :
    ∃ lines : List (List Char),
      s.hexDump pos len = .ok lines.flatten ∧
      lines.length = (len + 15) / 16 ∧
      ((List.range ((len + 15) / 16)).map
        (fun r => ((s.hexDump_row pos len r).map hexDump_char).length)).sum = len ∧
      ∀ r, r < (len + 15) / 16 →
        lines[r]? = some ((['0', 'x'] ++ std_hex 4 (16 * r) ++
          (s.hexDump_row pos len r).flatMap hexDump_cell ++
          List.replicate (3 * (16 - (s.hexDump_row pos len r).length)) ' ' ++ [' ']) ++
          (s.hexDump_row pos len r).map hexDump_char ++ ['\n']) ∧
        (['0', 'x'] ++ std_hex 4 (16 * r) ++
          (s.hexDump_row pos len r).flatMap hexDump_cell ++
          List.replicate (3 * (16 - (s.hexDump_row pos len r).length)) ' ' ++ [' ']).length
          = 55 ∧
        (s.hexDump_row pos len r).length = min 16 (len - 16 * r) ∧
        1 ≤ (s.hexDump_row pos len r).length ∧
        ((s.hexDump_row pos len r).map hexDump_char).length
          = (s.hexDump_row pos len r).length ∧
        ∀ (i : Nat) (b : Byte), (s.hexDump_row pos len r)[i]? = some b →
          ((s.hexDump_row pos len r).map hexDump_char)[i]?
            = some (if isprint b.val then Char.ofNat b.val else '.') := by
  refine ⟨s.hexDump_lines pos len 0 ((len + 15) / 16),
    IBinaryStream.hexDump_eq_lines s pos len hint hin,
    IBinaryStream.hexDump_lines_length s pos len _ _, ?_, ?_⟩
  · have hs := hexDump_row_sizes len ((len + 15) / 16)
    have hmap : (List.range ((len + 15) / 16)).map
          (fun r => ((s.hexDump_row pos len r).map hexDump_char).length)
        = (List.range ((len + 15) / 16)).map (fun r => min 16 (len - 16 * r)) := by
      apply List.map_congr_left
      intro r _
      rw [List.length_map, IBinaryStream.hexDump_row_length s pos len r hin]
    rw [hmap, hs]
    omega
  · intro r hr
    have hrl := IBinaryStream.hexDump_row_length s pos len r hin
    have hhex := (std_hex_spec 4 (16 * r) (by decide) (by norm_num; omega)).1
    refine ⟨?_, ?_, hrl, by omega, List.length_map _ _, ?_⟩
    · rw [IBinaryStream.hexDump_lines_getElem s pos len _ 0 r hr, Nat.zero_add]
      simp [hexDump_line]
    · simp only [List.length_append, List.length_cons, List.length_nil, hhex,
        hexDump_cells_length, List.length_replicate, hrl]
      omega
    · intro i b hb
      rw [List.getElem?_map, hb]
      rfl

/-- Witness for C28: two bytes at position `1` of a buffer of four. -/
theorem IBinaryStream.hexDump_ascii_column_witness :
    1 + 2 ≤ (IBinaryStream.mk [65, 66, 0, 67]).m_buffer.length ∧ 1 + 2 < 2 ^ 31 ∧
    1 ≤ 2 ∧ 2 ≤ 0x10000 ∧
    ∃ lines : List (List Char),
      IBinaryStream.hexDump (IBinaryStream.mk [65, 66, 0, 67]) 1 2 = .ok lines.flatten ∧
      lines.length = (2 + 15) / 16 :=
  ⟨by decide, by decide, by decide, by decide,
    (IBinaryStream.hexDump_ascii_column (IBinaryStream.mk [65, 66, 0, 67]) 1 2 (by decide)
      (by decide) (by decide) (by decide)).imp (fun _ h => ⟨h.1, h.2.1⟩)⟩

/-- Counterexample to C28 as stated: in a buffer of `2 ^ 31` bytes the last byte,
`pos = 2 ^ 31 - 1` and `len = 1`, is in bounds; `static_cast<int>(len + pos)` is `-2 ^ 31`,
the loop does not run and the output has no ASCII column at all. -/
theorem IBinaryStream.hexDump_ascii_counterexample :
    (2 ^ 31 - 1) + 1 ≤ (IBinaryStream.mk (List.replicate (2 ^ 31) 65)).m_buffer.length ∧
    IBinaryStream.hexDump (IBinaryStream.mk (List.replicate (2 ^ 31) 65)) (2 ^ 31 - 1) 1
      = .ok [] := by
  refine ⟨?_, ?_⟩
  · show (2 ^ 31 - 1) + 1 ≤ (List.replicate (2 ^ 31) (65 : Byte)).length
    rw [List.length_replicate]
    decide
  · unfold IBinaryStream.hexDump
    have hv : (IBinaryStream.mk (List.replicate (2 ^ 31) 65)).validateOffset (2 ^ 31 - 1) 1
        = true := by
      unfold IBinaryStream.validateOffset
      rw [List.length_replicate]
      decide
    rw [hv, if_pos rfl]
    exact IBinaryStream.hexDump_loop_exit _ _ _ _ _ _ _ (by decide)

/-! ## C29: extractString8 -/

/-- C29 (amended): when the byte behind the longest run of non-zero bytes at `pos`, cut to
`maxLen` bytes if `maxLen` is not zero, lies in the buffer, `extractString8(pos, maxLen)`
returns that run: it holds no zero byte, it is a prefix of the buffer contents at `pos`,
it has at most `maxLen` bytes when `maxLen > 0`, and it is the longest such, the byte
behind it being zero unless the cut to `maxLen` was reached. -/
theorem IBinaryStream.extractString8_run (s : IBinaryStream) (pos maxLen : Nat)
    (hin : pos + (s.nonZeroRun pos maxLen).length < s.m_buffer.length) :
    s.extractString8 pos maxLen = .ok (s.nonZeroRun pos maxLen) ∧
    (∀ b ∈ s.nonZeroRun pos maxLen, b ≠ 0) ∧
    s.nonZeroRun pos maxLen <+: s.m_buffer.drop pos ∧
    (0 < maxLen → (s.nonZeroRun pos maxLen).length ≤ maxLen) ∧
    (s.m_buffer[pos + (s.nonZeroRun pos maxLen).length]? = some 0 ∨
      (0 < maxLen ∧ (s.nonZeroRun pos maxLen).length = maxLen)) := by
  have hsub : ∀ b ∈ s.nonZeroRun pos maxLen,
      b ∈ (s.m_buffer.drop pos).takeWhile (fun b => decide (b ≠ 0)) := by
    intro b hb
    unfold IBinaryStream.nonZeroRun at hb
    split at hb
    · exact hb
    · exact List.mem_of_mem_take hb
  refine ⟨?_, ?_, ?_, ?_, ?_⟩
  · rw [IBinaryStream.extractString8_eq, if_pos hin]
  · intro b hb
    have := List.mem_takeWhile_imp (hsub b hb)
    simpa using this
  · rw [IBinaryStream.nonZeroRun_eq_take]
    exact List.take_prefix _ _
  · intro hm
    unfold IBinaryStream.nonZeroRun
    rw [if_neg (by omega), List.length_take]
    exact Nat.min_le_left _ _
  · by_cases hfull : (s.nonZeroRun pos maxLen).length
        < ((s.m_buffer.drop pos).takeWhile (fun b => decide (b ≠ 0))).length
    · right
      unfold IBinaryStream.nonZeroRun at hfull ⊢
      by_cases hm : maxLen = 0
      · rw [if_pos hm] at hfull; exact absurd hfull (Nat.lt_irrefl _)
      · rw [if_neg hm, List.length_take] at hfull ⊢
        exact ⟨by omega, by omega⟩
    · left
      have hle := IBinaryStream.nonZeroRun_length_le s pos maxLen
      have heq : (s.nonZeroRun pos maxLen).length
          = ((s.m_buffer.drop pos).takeWhile (fun b => decide (b ≠ 0))).length := by omega
      obtain ⟨c, hc, hpc⟩ := takeWhile_stop (fun b : Byte => decide (b ≠ 0))
        (s.m_buffer.drop pos) (by rw [← heq, List.length_drop]; omega)
      rw [← heq, List.getElem?_drop] at hc
      rw [hc]
      have : c = 0 := by simpa using hpc
      rw [this]

/-- Witness for C29: the two non-zero bytes in front of the zero byte are returned. -/
theorem IBinaryStream.extractString8_run_witness :
    0 + (IBinaryStream.nonZeroRun (IBinaryStream.mk [72, 105, 0, 33]) 0 0).length
      < (IBinaryStream.mk [72, 105, 0, 33]).m_buffer.length ∧
    IBinaryStream.extractString8 (IBinaryStream.mk [72, 105, 0, 33]) 0 0 = .ok [72, 105] :=
  ⟨by decide, (IBinaryStream.extractString8_run (IBinaryStream.mk [72, 105, 0, 33]) 0 0
    (by decide)).1.trans (congrArg Except.ok (by decide))⟩

/-- Counterexample to C29 as stated: for the buffer of the two non-zero bytes `72, 105` the
run at `pos = 0` cut to `maxLen = 2` is the whole buffer, but the loop reads the byte at
position `2`, outside the buffer, before it compares the length, and no string is
returned; with `maxLen = 0` likewise. -/
theorem IBinaryStream.extractString8_overrun_counterexample :
    IBinaryStream.nonZeroRun (IBinaryStream.mk [72, 105]) 0 2 = [72, 105] ∧
    valueOf (IBinaryStream.extractString8 (IBinaryStream.mk [72, 105]) 0 2) = none ∧
    IBinaryStream.extractString8 (IBinaryStream.mk [72, 105]) 0 2
      = .error (StreamFault.outOfRange 2) ∧
    valueOf (IBinaryStream.extractString8 (IBinaryStream.mk [72, 105]) 0 0) = none := by
  refine ⟨by decide, by decide, by rfl, by decide⟩

/-! ## C30: extractString16 -/

/-- C30, the code at the failing input: `curPos` counts bytes while the limit and the length
of the returned string count characters. With two-byte characters and `maxLen = 1` the
buffer of the bytes `65` gives a string of two characters; with `maxLen = 4` the four
bytes `65` followed by zero bytes give a string of four characters, two of them zero; with
four-byte characters and `maxLen = 1` the string has four characters. The sibling
`extractString8` with `maxLen = 1` returns one byte. -/
theorem IBinaryStream.extractString16_length_evaluation :
    valueOf (IBinaryStream.extractString16
      (IBinaryStream.mk [65, 65, 65, 65, 65, 65, 0, 0]) 2 0 1) = some [16705, 16705] ∧
    valueOf (IBinaryStream.extractString16
      (IBinaryStream.mk [65, 65, 65, 65, 0, 0, 0, 0]) 2 0 4) = some [16705, 16705, 0, 0] ∧
    valueOf (IBinaryStream.extractString16
      (IBinaryStream.mk [65, 65, 65, 65, 65, 65, 65, 65, 65, 65, 65, 65, 65, 65, 65, 65,
        0, 0, 0, 0])
      4 0 1) = some [1094795585, 1094795585, 1094795585, 1094795585] ∧
    valueOf (IBinaryStream.extractString8
      (IBinaryStream.mk [65, 65, 65, 65, 65, 65, 0, 0]) 0 1) = some [65] := by
  refine ⟨by decide, by decide, by decide, by decide⟩

end zycore
